import Mathlib

/-!
Market data distribution: ring buffer, wire codec, broadcast server and
order book

A shallow embedding of `MarketDataSystem/include/market_data.h`,
`ring_buffer.h` and `utils.h`, of the session handling of
`MarketDataSystem/src/publisher.cpp`, and of the class `OrderBook` of
`OrderBook/order_book.cpp`.

* Text (`char` arrays, `std::string`) is a `List Char`.
* `uint32_t` / `uint64_t` values are `Nat`, with the wrap-around written out.
* A `double` is its IEEE-754 binary64 bit pattern, a `Nat` below `2 ^ 64`.
* An access outside an array is undefined behaviour in the source; the
  embedding returns `none` there.
-/

namespace MarketDataSystem

/-! ## market_data.h -/

/-- The zero byte that terminates and pads C strings. -/
def NUL : Char := Char.ofNat 0

/-- The struct `MarketData`: a 16-byte instrument field, two doubles (as bit
patterns) and a 64-bit timestamp. -/
structure MarketData where
  instrument : List Char
  bid : Nat
  ask : Nat
  timestamp_ns : Nat
deriving DecidableEq, Repr

/-- The effect of `memset(dst, 0, 16); strncpy(dst, src, 15)` on a 16-byte
field, `src` being read up to its first zero byte. -/
def strncpy15 (src : List Char) : List Char :=
  let s := (src.takeWhile (fun c => c != NUL)).take 15
  s ++ List.replicate (16 - s.length) NUL

/-- The default constructor `MarketData()`. -/
def MarketData.new : MarketData :=
  { instrument := List.replicate 16 NUL, bid := 0, ask := 0, timestamp_ns := 0 }

/-- The constructor `MarketData(instr, b, a, ts)`. -/
def MarketData.make (instr : List Char) (b a ts : Nat) : MarketData :=
  { instrument := strncpy15 instr, bid := b, ask := a, timestamp_ns := ts }

/-! ## C library conversions used by utils.h

Each `Char` stands for one byte of C text. The conversions follow glibc in the
"C" locale: `%s`, `%.2f`, `%lu` of `snprintf`, and `%15[^"]`, `%lf`, `%llu` of
`sscanf`. -/

/-- The double quote character. -/
def DQUOTE : Char := Char.ofNat 34

/-- The C predicate `isspace`. -/
def isspace (c : Char) : Bool :=
  c.toNat == 32 || (9 ≤ c.toNat && c.toNat ≤ 13)

/-- The C predicate `isdigit`. -/
def isdigit (c : Char) : Bool :=
  48 ≤ c.toNat && c.toNat ≤ 57

/-- The C predicate `isxdigit`. -/
def isxdigit (c : Char) : Bool :=
  isdigit c || (97 ≤ c.toNat && c.toNat ≤ 102) || (65 ≤ c.toNat && c.toNat ≤ 70)

/-- The C function `tolower` on ASCII. -/
def tolower (c : Char) : Char :=
  if 65 ≤ c.toNat ∧ c.toNat ≤ 90 then Char.ofNat (c.toNat + 32) else c

/-- The character of a decimal digit. -/
def digitChar (d : Nat) : Char := Char.ofNat (48 + d)

/-- Value of a hexadecimal digit character. -/
def xdigitVal (c : Char) : Nat :=
  if isdigit c then c.toNat - 48
  else if 97 ≤ c.toNat then c.toNat - 87
  else c.toNat - 55

/-- Decimal rendering with a recursion budget. -/
def decimalFuel : Nat → Nat → List Char
  | 0, _ => []
  | fuel + 1, n =>
    if n < 10 then [digitChar n]
    else decimalFuel fuel (n / 10) ++ [digitChar (n % 10)]

/-- The decimal rendering of a natural number (`%lu`, `%llu`). -/
def decimal (n : Nat) : List Char := decimalFuel (n + 1) n

/-- The number written by a string of decimal digits. -/
def parseDigits (cs : List Char) : Nat :=
  cs.foldl (fun acc c => acc * 10 + (c.toNat - 48)) 0

/-- The number written by a string of hexadecimal digits. -/
def parseXDigits (cs : List Char) : Nat :=
  cs.foldl (fun acc c => acc * 16 + xdigitVal c) 0

/-- Quotient of `num / den` rounded to the nearest integer, ties to even. -/
def divRoundEven (num den : Nat) : Nat :=
  let q := num / den
  let r := num % den
  if 2 * r < den then q
  else if den < 2 * r then q + 1
  else if q % 2 = 0 then q else q + 1

/-- Floor of the binary logarithm added to `acc`, with a recursion budget. -/
def log2Fuel : Nat → Nat → Nat → Nat
  | 0, _, acc => acc
  | fuel + 1, n, acc => if n < 2 then acc else log2Fuel fuel (n / 2) (acc + 1)

/-- Bit pattern of the infinity of the given sign. -/
def infBits (neg : Bool) : Nat :=
  (if neg then 2 ^ 63 else 0) + 2047 * 2 ^ 52

/-- Bit pattern of the default quiet NaN of the given sign. -/
def nanBits (neg : Bool) : Nat :=
  (if neg then 2 ^ 63 else 0) + 2047 * 2 ^ 52 + 2 ^ 51

/-- The binary64 value nearest to `± num / den` (ties to even), as a bit
pattern: what `strtod` returns for a number with that exact value. -/
def ratToDouble (neg : Bool) (num den : Nat) : Nat :=
  let s := if neg then 2 ^ 63 else 0
  if num = 0 then s
  else
    let l : Int := (log2Fuel num num 0 : Int) - (log2Fuel den den 0 : Int)
    -- `lg` is the floor of the binary logarithm of `num / den`
    let below : Bool :=
      if 0 ≤ l then num < den * 2 ^ l.toNat else num * 2 ^ (-l).toNat < den
    let lg : Int := if below then l - 1 else l
    -- `e` is the exponent of the unit in the last place
    let e : Int := max (lg - 52) (-1074)
    let q0 := if 0 ≤ e then divRoundEven num (den * 2 ^ e.toNat)
              else divRoundEven (num * 2 ^ (-e).toNat) den
    let q := if q0 = 2 ^ 53 then 2 ^ 52 else q0
    let e' : Int := if q0 = 2 ^ 53 then e + 1 else e
    if 971 < e' then infBits neg
    else if q < 2 ^ 52 then s + q
    else s + (e' + 1075).toNat * 2 ^ 52 + (q - 2 ^ 52)

/-- Sign bit of a binary64 bit pattern. -/
def signBit (bits : Nat) : Bool := bits / 2 ^ 63 % 2 == 1

/-- Biased exponent field of a binary64 bit pattern. -/
def expoField (bits : Nat) : Nat := bits / 2 ^ 52 % 2048

/-- Fraction field of a binary64 bit pattern. -/
def fracField (bits : Nat) : Nat := bits % 2 ^ 52

/-- The magnitude of a finite double in hundredths, rounded to the nearest
integer, ties to even. The exact magnitude is `m × 2 ^ (e - 1075)`. -/
def hundredths (bits : Nat) : Nat :=
  let m := if expoField bits = 0 then fracField bits else 2 ^ 52 + fracField bits
  let e := if expoField bits = 0 then 1 else expoField bits
  if 1075 ≤ e then m * 100 * 2 ^ (e - 1075)
  else divRoundEven (m * 100) (2 ^ (1075 - e))

/-- The text `%.2f` produces for a double: the exact value rounded to
hundredths, ties to even; `inf` and `nan` for the special values. -/
def fmt2f (bits : Nat) : List Char :=
  let s : List Char := if signBit bits then ['-'] else []
  if expoField bits = 2047 then
    s ++ (if fracField bits = 0 then ['i', 'n', 'f'] else ['n', 'a', 'n'])
  else
    let h := hundredths bits
    s ++ decimal (h / 100) ++ ['.', digitChar (h / 10 % 10), digitChar (h % 10)]

/-- The text `%s` produces for a `char` array: the bytes before the first
zero byte; `none` when the array holds no zero byte (the read runs past it). -/
def cstr (field : List Char) : Option (List Char) :=
  if NUL ∈ field then some (field.takeWhile (fun c => c != NUL)) else none

/-- The method `std::string::c_str` as a C string: the bytes before the first
zero byte. -/
def c_str (s : List Char) : List Char :=
  s.takeWhile (fun c => c != NUL)

/-- Matches ordinary format characters against the input, returning the input
that follows them. -/
def expect : List Char → List Char → Option (List Char)
  | [], inp => some inp
  | _ :: _, [] => none
  | c :: cs, i :: inp => if c = i then expect cs inp else none

/-- The conversion `%15[^"]`: a non-empty run of at most 15 bytes other than
the double quote. -/
def scanSet15 (inp : List Char) : Option (List Char × List Char) :=
  let m := (inp.takeWhile (fun c => c != DQUOTE)).take 15
  if m = [] then none else some (m, inp.drop m.length)

/-- An optional sign at the head of the input. -/
def takeSign : List Char → Bool × List Char
  | [] => (false, [])
  | c :: t => if c = '-' then (true, t) else if c = '+' then (false, t) else (false, c :: t)

/-- The conversion `%llu`: white space, an optional sign, decimal digits;
the value as `strtoull` gives it. -/
def scanLlu (inp : List Char) : Option (Nat × List Char) :=
  let s0 := inp.dropWhile isspace
  let (neg, s1) := takeSign s0
  let ds := s1.takeWhile isdigit
  if ds = [] then none
  else
    let v := parseDigits ds
    let r := if 2 ^ 64 ≤ v then 2 ^ 64 - 1
             else if neg then (2 ^ 64 - v) % 2 ^ 64 else v
    some (r, s1.dropWhile isdigit)

/-- Value of a decimal token: `digits × 10 ^ (ex - fracLen)`. -/
def decValue (neg : Bool) (digits : List Char) (fracLen : Nat) (ex : Int) : Nat :=
  let d := parseDigits digits
  let x : Int := ex - fracLen
  if 0 ≤ x then ratToDouble neg (d * 10 ^ x.toNat) 1
  else ratToDouble neg d (10 ^ (-x).toNat)

/-- Value of a hexadecimal token: `digits × 2 ^ (ex - 4 fracLen)`. -/
def hexValue (neg : Bool) (digits : List Char) (fracLen : Nat) (ex : Int) : Nat :=
  let d := parseXDigits digits
  let x : Int := ex - 4 * fracLen
  if 0 ≤ x then ratToDouble neg (d * 2 ^ x.toNat) 1
  else ratToDouble neg d (2 ^ (-x).toNat)

/-- An exponent part after the mantissa: the marker, an optional sign and
digits. All of it is consumed; it counts only when a digit is present. -/
def scanExponent (marker : Char) (inp : List Char) : Int × List Char :=
  match inp with
  | [] => (0, [])
  | c :: t =>
    if tolower c = marker then
      let (neg, t1) := takeSign t
      let ds := t1.takeWhile isdigit
      let v : Int := parseDigits ds
      (if neg then -v else v, t1.dropWhile isdigit)
    else (0, c :: t)

/-- A mantissa: digits, optionally a point and more digits. Returns the
integer digits, whether a point was read, the fraction digits and the rest. -/
def scanMantissa (isd : Char → Bool) (inp : List Char) :
    List Char × Bool × List Char × List Char :=
  let ip := inp.takeWhile isd
  match inp.dropWhile isd with
  | [] => (ip, false, [], [])
  | c :: t =>
    if c = '.' then (ip, true, t.takeWhile isd, t.dropWhile isd)
    else (ip, false, [], c :: t)

/-- Whether the input starts with the hexadecimal prefix `0x` or `0X`. -/
def isHexPrefix : List Char → Bool
  | c0 :: x :: _ => c0 == '0' && tolower x == 'x'
  | _ => false

/-- A hexadecimal number, after its `0x` prefix. A bare prefix is no number; a
prefix followed by a point alone reads as zero. -/
def scanHex (neg : Bool) (inp : List Char) : Option (Nat × List Char) :=
  let (ip, dot, fp, r) := scanMantissa isxdigit inp
  if ip = [] ∧ fp = [] then
    if dot then some (ratToDouble neg 0 1, r) else none
  else
    let (ex, r') := scanExponent 'p' r
    some (hexValue neg (ip ++ fp) fp.length ex, r')

/-- A decimal number: a mantissa with at least one digit, then an optional
exponent part. -/
def scanDec (neg : Bool) (inp : List Char) : Option (Nat × List Char) :=
  let (ip, _, fp, r) := scanMantissa isdigit inp
  if ip = [] ∧ fp = [] then none
  else
    let (ex, r') := scanExponent 'e' r
    some (decValue neg (ip ++ fp) fp.length ex, r')

/-- The number forms of `%lf`, after white space and sign. -/
def scanNumber (neg : Bool) (inp : List Char) : Option (Nat × List Char) :=
  if isHexPrefix inp then scanHex neg (inp.drop 2) else scanDec neg inp

/-- The conversion `%lf`: white space, an optional sign, then `nan`, `inf`,
`infinity` or a number. -/
def scanLf (inp : List Char) : Option (Nat × List Char) :=
  let s0 := inp.dropWhile isspace
  let (neg, s1) := takeSign s0
  match s1 with
  | [] => none
  | c :: t =>
    if tolower c = 'n' then
      match expect ['a', 'n'] (t.map tolower) with
      | some _ => some (nanBits neg, t.drop 2)
      | none => none
    else if tolower c = 'i' then
      match expect ['n', 'f'] (t.map tolower) with
      | none => none
      | some _ =>
        match t.drop 2 with
        | [] => some (infBits neg, [])
        | c1 :: t1 =>
          if tolower c1 = 'i' then
            match expect ['n', 'i', 't', 'y'] (t1.map tolower) with
            | some _ => some (infBits neg, t1.drop 4)
            | none => none
          else some (infBits neg, c1 :: t1)
    else scanNumber neg s1

/-! ## utils.h -/

/-- Ordinary characters of the frame before the instrument. -/
def LIT_OPEN : List Char := "\x7b\"instrument\":\"".toList

/-- Ordinary characters between the instrument and the bid. -/
def LIT_BID : List Char := "\",\"bid\":".toList

/-- Ordinary characters between the bid and the ask. -/
def LIT_ASK : List Char := ",\"ask\":".toList

/-- Ordinary characters between the ask and the timestamp. -/
def LIT_TS : List Char := ",\"timestamp_ns\":".toList

/-- Ordinary characters after the timestamp. -/
def LIT_CLOSE : List Char := "\x7d".toList

/-- The text `snprintf` formats in `to_json`, whatever its length. -/
def frame (instr : List Char) (data : MarketData) : List Char :=
  LIT_OPEN ++ instr ++ LIT_BID ++ fmt2f data.bid ++ LIT_ASK ++ fmt2f data.ask
    ++ LIT_TS ++ decimal data.timestamp_ns ++ LIT_CLOSE

/-- The function `utils::to_json`. `snprintf` stores at most 255 characters
and a zero byte in the 256-byte buffer and returns the full length `len`;
`std::string(buffer, len)` then copies `len` bytes from the buffer. `none`
stands for a read outside an array. -/
def to_json (data : MarketData) : Option (List Char) :=
  match cstr data.instrument with
  | none => none
  | some instr =>
    let text := frame instr data
    let len := text.length
    if len < 256 then some text
    else if len = 256 then some (text.take 255 ++ [NUL])
    else none

/-- The call `sscanf(json.c_str(), FORMAT, instrument, &bid, &ask, &timestamp_ns)`
of `from_json`: the four converted values when the call returns 4, `none` when
it returns anything else. The closing brace of the format comes after the last
conversion and cannot change the return value. -/
def sscanf_frame (inp : List Char) : Option (List Char × Nat × Nat × Nat) :=
  match expect LIT_OPEN inp with
  | none => none
  | some r0 =>
    match scanSet15 r0 with
    | none => none
    | some (instrument, r1) =>
      match expect LIT_BID r1 with
      | none => none
      | some r2 =>
        match scanLf r2 with
        | none => none
        | some (bid, r3) =>
          match expect LIT_ASK r3 with
          | none => none
          | some r4 =>
            match scanLf r4 with
            | none => none
            | some (ask, r5) =>
              match expect LIT_TS r5 with
              | none => none
              | some r6 =>
                match scanLlu r6 with
                | none => none
                | some (timestamp_ns, _) => some (instrument, bid, ask, timestamp_ns)

/-- The function `utils::from_json`: the returned flag and the output record
afterwards. -/
def from_json (json : List Char) (data : MarketData) : Bool × MarketData :=
  match sscanf_frame (c_str json) with
  | none => (false, data)
  | some (instrument, bid, ask, timestamp_ns) =>
    (true, { instrument := strncpy15 instrument, bid := bid, ask := ask,
             timestamp_ns := timestamp_ns })

/-! ## ring_buffer.h -/

/-- The constant `RING_BUFFER_CAPACITY`. -/
def RING_BUFFER_CAPACITY : Nat := 1024

/-- Number of values of a `uint32_t`. -/
def UINT32_SIZE : Nat := 4294967296

/-- The struct `RingBuffer`: the two cursors and the slot array. -/
structure RingBuffer where
  pushPtr : Nat
  popPtr : Nat
  buffer : List MarketData
deriving DecidableEq, Repr

/-- A freshly constructed `RingBuffer`: both cursors `0`, every slot
default-constructed. -/
def RingBuffer.fresh : RingBuffer :=
  { pushPtr := 0, popPtr := 0,
    buffer := List.replicate RING_BUFFER_CAPACITY MarketData.new }

/-- The method `RingBuffer::push`. The result is the returned flag and the
state afterwards; `none` stands for a write outside the slot array. -/
def RingBuffer.push (rb : RingBuffer) (data : MarketData) :
    Option (Bool × RingBuffer) :=
  let push := rb.pushPtr
  let pop := rb.popPtr
  let next := (push + 1) % UINT32_SIZE % RING_BUFFER_CAPACITY
  if next = pop then
    some (false, rb)
  else if push < rb.buffer.length then
    some (true, { rb with buffer := rb.buffer.set push data, pushPtr := next })
  else
    none

/-- The method `RingBuffer::pop`. The argument `data` is the caller's output
record; the result is the returned flag, the output record afterwards and the
state afterwards; `none` stands for a read outside the slot array. -/
def RingBuffer.pop (rb : RingBuffer) (data : MarketData) :
    Option (Bool × MarketData × RingBuffer) :=
  let pop := rb.popPtr
  let push := rb.pushPtr
  if pop = push then
    some (false, data, rb)
  else
    match rb.buffer[pop]? with
    | none => none
    | some v =>
      let next := (pop + 1) % UINT32_SIZE % RING_BUFFER_CAPACITY
      some (true, v, { rb with popPtr := next })

/-- The method `RingBuffer::empty`. -/
def RingBuffer.empty (rb : RingBuffer) : Bool :=
  rb.popPtr == rb.pushPtr

/-- The method `RingBuffer::full`. -/
def RingBuffer.full (rb : RingBuffer) : Bool :=
  let push := rb.pushPtr
  let pop := rb.popPtr
  (push + 1) % UINT32_SIZE % RING_BUFFER_CAPACITY == pop

/-- The method `RingBuffer::size`, in `uint32_t` arithmetic. -/
def RingBuffer.size (rb : RingBuffer) : Nat :=
  let push := rb.pushPtr
  let pop := rb.popPtr
  ((push + RING_BUFFER_CAPACITY) % UINT32_SIZE + UINT32_SIZE - pop) % UINT32_SIZE
    % RING_BUFFER_CAPACITY

/-- A state of the shape the C++ type gives: 1024 slots, and both cursors
inside the slot array. -/
def RingBuffer.InRange (rb : RingBuffer) : Prop :=
  rb.pushPtr < 1024 ∧ rb.popPtr < 1024 ∧ rb.buffer.length = 1024

instance (rb : RingBuffer) : Decidable rb.InRange := by
  unfold RingBuffer.InRange; infer_instance

/-- The records resident in the buffer, oldest first: the slots from `popPtr`
up to, not including, `pushPtr`, going round the array. -/
def RingBuffer.resident (rb : RingBuffer) : List MarketData :=
  (List.range rb.size).map
    (fun i => rb.buffer.getD ((rb.popPtr + i) % RING_BUFFER_CAPACITY) MarketData.new)

/-- One call on the buffer by its owner. -/
inductive Op where
  | push (v : MarketData)
  | pop
deriving DecidableEq, Repr

/-- What a sequential run has observed: the records whose `push` returned
true and the records returned by successful `pop`s, both in call order. -/
structure Trace where
  accepted : List MarketData
  popped : List MarketData
deriving DecidableEq, Repr

/-- Runs the calls one at a time, recording the outcome of each. -/
def runOps : RingBuffer → Trace → List Op → Option (Trace × RingBuffer)
  | rb, t, [] => some (t, rb)
  | rb, t, Op.push v :: ops =>
    match rb.push v with
    | none => none
    | some (true, rb') => runOps rb' { t with accepted := t.accepted ++ [v] } ops
    | some (false, rb') => runOps rb' t ops
  | rb, t, Op.pop :: ops =>
    match rb.pop MarketData.new with
    | none => none
    | some (true, v, rb') => runOps rb' { t with popped := t.popped ++ [v] } ops
    | some (false, _, rb') => runOps rb' t ops

/-- Pushes the records one after another with no pop in between, collecting
the returned flags. -/
def pushAll : RingBuffer → List MarketData → Option (List Bool × RingBuffer)
  | rb, [] => some ([], rb)
  | rb, d :: ds =>
    match rb.push d with
    | none => none
    | some (b, rb') =>
      match pushAll rb' ds with
      | none => none
      | some (bs, rb'') => some (b :: bs, rb'')

/-! ## publisher.cpp

The TCP side of the publisher. A socket is identified by a connection number;
an error code is `none` for success and `some message` otherwise. An
asynchronous write is recorded with the bytes of its buffer at the time of the
call. -/

/-- The class `Session`: its socket. -/
structure Session where
  socket_ : Nat
deriving DecidableEq, Repr

/-- An `async_write` handed to the I/O context: the socket and the buffer. -/
structure WriteOp where
  socket : Nat
  data : List Char
deriving DecidableEq, Repr

/-- The method `Session::send_data`: one `async_write` of `message + "\n"`. -/
def Session.send_data (s : Session) (message : List Char) : WriteOp :=
  { socket := s.socket_, data := message ++ ['\n'] }

/-- The completion handler that `send_data` passes to `async_write`: it
prints a line when the error code is set and does nothing else. The result is
the text printed. -/
def Session.send_data_handler (ec : Option String) : List String :=
  match ec with
  | some m => ["Error sending data: " ++ m ++ "\n"]
  | none => []

/-- The class `Server`, as far as its session vector goes. -/
structure Server where
  sessions_ : List Session
deriving DecidableEq, Repr

/-- The method `Server::broadcast`: `send_data` on every session of the
vector, in order. The result is the writes issued; the method returns `void`
and has no error path. -/
def Server.broadcast (srv : Server) (message : List Char) : List WriteOp :=
  srv.sessions_.map (fun session => session.send_data message)

/-- The completion handler of `async_accept` in `Server::accept`: on success
the new session is pushed to the back of the vector and a line is printed; in
both cases `accept()` is armed again. The result is the server afterwards and
the text printed. -/
def Server.accept_handler (srv : Server) (ec : Option String) (socket : Nat) :
    Server × List String :=
  match ec with
  | none =>
    let session : Session := { socket_ := socket }
    let sessions := srv.sessions_ ++ [session]
    ({ sessions_ := sessions },
      ["Client connected. Total clients: " ++ String.mk (decimal sessions.length) ++ "\n"])
  | some _ => (srv, [])

/-- The two threads of `main`: the thread that runs the publishing loop and
`io_thread`, which runs `io_context.run()`. -/
inductive Thread where
  | main
  | io
deriving DecidableEq, Repr

/-- The running publisher: the server, the writes issued and not yet
completed, and the text printed by the handlers. -/
structure Publisher where
  server : Server
  inflight : List WriteOp
  output : List String
deriving DecidableEq, Repr

/-- What happens next in the running publisher: an accept completes, the
oldest write in flight completes, or the publishing loop broadcasts a frame. -/
inductive Step where
  | accepted (ec : Option String) (socket : Nat)
  | written (ec : Option String)
  | publish (message : List Char)
deriving DecidableEq, Repr

/-- One step of the publisher. -/
def Publisher.step (p : Publisher) : Step → Publisher
  | Step.accepted ec socket =>
    let r := p.server.accept_handler ec socket
    { p with server := r.1, output := p.output ++ r.2 }
  | Step.written ec =>
    match p.inflight with
    | [] => p
    | _ :: rest =>
      { p with inflight := rest, output := p.output ++ Session.send_data_handler ec }
  | Step.publish message =>
    { p with inflight := p.inflight ++ p.server.broadcast message }

/-- Runs the steps in order. -/
def Publisher.run (p : Publisher) (steps : List Step) : Publisher :=
  steps.foldl Publisher.step p

/-- A statement of `main`, or of the function that `io_thread` runs, as far as
threads and the server go. -/
inductive Stmt where
  | set_cpu_affinity (cpu : Nat)
  | create_shm
  | construct_server
  | start_io_thread
  | construct_generator
  | publish_loop
  | io_context_run
deriving DecidableEq, Repr

/-- The statements of `main` in order: `set_cpu_affinity(0)`, `create_shm()`,
`Server server(io_context, TCP_PORT)`, `std::thread io_thread(...)`,
`MarketDataGenerator generator`, and the `while (true)` loop that calls
`server.broadcast(json)`. What stands behind the loop is never reached. -/
def MAIN_BODY : List Stmt :=
  [Stmt.set_cpu_affinity 0, Stmt.create_shm, Stmt.construct_server, Stmt.start_io_thread,
   Stmt.construct_generator, Stmt.publish_loop]

/-- The function that `main` passes to `std::thread io_thread`:
`set_cpu_affinity(1); io_context.run();`. -/
def IO_THREAD_BODY : List Stmt := [Stmt.set_cpu_affinity 1, Stmt.io_context_run]

/-- A use of `Server::sessions_`: the thread that makes it and whether it
changes the vector (`push_back`) or walks it (the loop of `broadcast`). -/
structure Access where
  thread : Thread
  mutates : Bool
deriving DecidableEq, Repr

/-- One round of a statement on the thread `t`. `io_context.run()` dispatches
one completion to its handler, on the thread that called it; a round of the
publishing loop calls `server.broadcast` with a frame; every other statement
runs once and is finished. The result is the publisher afterwards, the uses of
the session vector made, and whether the statement is finished. `none` when the
event does not belong to the statement. -/
def Stmt.exec (s : Stmt) (t : Thread) (event : Option Step) (p : Publisher) :
    Option (Publisher × List Access × Bool) :=
  match s, event with
  | Stmt.io_context_run, some (Step.accepted ec socket) =>
    some (p.step (Step.accepted ec socket),
      if ec.isNone then [{ thread := t, mutates := true }] else [], false)
  | Stmt.io_context_run, some (Step.written ec) => some (p.step (Step.written ec), [], false)
  | Stmt.io_context_run, _ => none
  | Stmt.publish_loop, some (Step.publish message) =>
    some (p.step (Step.publish message), [{ thread := t, mutates := false }], false)
  | Stmt.publish_loop, _ => none
  | _, none => some (p, [], true)
  | _, some _ => none

/-- The running program: the statements each of the two threads has still to
execute (`io_thread` has none before it is started) and the publisher. The
program has no other state shared by the two threads: no mutex, no flag. -/
structure Process where
  main_rest : List Stmt
  io_rest : List Stmt
  publisher : Publisher
deriving DecidableEq, Repr

/-- The program when `main` is entered. -/
def Process.start : Process :=
  { main_rest := MAIN_BODY, io_rest := [],
    publisher := { server := { sessions_ := [] }, inflight := [], output := [] } }

/-- A turn of a thread: the thread, and for a round of a loop the event it
handles. -/
structure Turn where
  thread : Thread
  event : Option Step
deriving DecidableEq, Repr

/-- One turn: the thread executes a round of its next statement. Starting
`io_thread` gives that thread its function to execute. `none` when the thread
has nothing to execute or the event does not belong to its statement. -/
def Process.exec (p : Process) (turn : Turn) : Option (Process × List Access) :=
  match turn.thread with
  | Thread.main =>
    match p.main_rest with
    | [] => none
    | s :: rest =>
      match s.exec Thread.main turn.event p.publisher with
      | none => none
      | some (pub, log, finished) =>
        some ({ main_rest := if finished then rest else s :: rest,
                io_rest := if s = Stmt.start_io_thread then IO_THREAD_BODY else p.io_rest,
                publisher := pub }, log)
  | Thread.io =>
    match p.io_rest with
    | [] => none
    | s :: rest =>
      match s.exec Thread.io turn.event p.publisher with
      | none => none
      | some (pub, log, finished) =>
        some ({ main_rest := p.main_rest,
                io_rest := if finished then rest else s :: rest,
                publisher := pub }, log)

/-- The turns of a schedule in order: the program afterwards and the uses of
the session vector made, in order. -/
def Process.run : Process → List Turn → Option (Process × List Access)
  | p, [] => some (p, [])
  | p, turn :: turns =>
    match p.exec turn with
    | none => none
    | some (p1, log1) =>
      match p1.run turns with
      | none => none
      | some (p2, log2) => some (p2, log1 ++ log2)

/-- A server with two sessions. -/
def TWO_SESSIONS : Server :=
  { sessions_ := [{ socket_ := 1 }, { socket_ := 2 }] }

/-- A publisher with two sessions and nothing in flight or printed. -/
def TWO_CLIENTS : Publisher :=
  { server := TWO_SESSIONS, inflight := [], output := [] }

/-- A frame to publish. -/
def FRAME_TEXT : List Char :=
  "\x7b\"instrument\":\"RELIANCE\",\"bid\":2850.12,\"ask\":2850.46,\"timestamp_ns\":123456789\x7d".toList

/-- The turns up to the point where `main` is in its publishing loop and
`io_thread` is in `io_context.run()`. -/
def STARTUP : List Turn :=
  [{ thread := Thread.main, event := none }, { thread := Thread.main, event := none },
   { thread := Thread.main, event := none }, { thread := Thread.main, event := none },
   { thread := Thread.io, event := none }, { thread := Thread.main, event := none }]

/-- The program with both threads in their loops and no client connected. -/
def RUNNING : Process :=
  { main_rest := [Stmt.publish_loop], io_rest := [Stmt.io_context_run],
    publisher := { server := { sessions_ := [] }, inflight := [], output := [] } }

/-- A client connects: the accept completes on socket 1. -/
def TURN_ACCEPT : Turn := { thread := Thread.io, event := some (Step.accepted none 1) }

/-- The publishing loop broadcasts a frame. -/
def TURN_PUBLISH : Turn := { thread := Thread.main, event := some (Step.publish FRAME_TEXT) }

/-- The statement `io_context.run()` is not among what `main` has still to
execute, and the publishing loop is not among what `io_thread` has. -/
def Process.Placed (p : Process) : Prop :=
  Stmt.io_context_run ∉ p.main_rest ∧ Stmt.publish_loop ∉ p.io_rest

/-! ## order_book.cpp

A `double` price is its bit pattern. A `std::map` is the list of its entries
in iteration order; a `std::deque` is the list of its elements and an iterator
into it is a position. The C++ rules on iterators are followed: `push_back`
on a deque invalidates every iterator into it, erasing its last or its first
element invalidates only the iterators to the erased element, erasing another
element invalidates every iterator into it. Dereferencing or erasing through an
invalidated iterator, and a NaN key in a map ordered by `<` or `>`, are
undefined behaviour; the embedding returns `none` there. -/

/-- Number of values of a `uint64_t`. -/
def UINT64_SIZE : Nat := 18446744073709551616

/-- Addition of `uint64_t`. -/
def uadd (a b : Nat) : Nat := (a + b) % UINT64_SIZE

/-- Subtraction of `uint64_t`. -/
def usub (a b : Nat) : Nat := (a + UINT64_SIZE - b % UINT64_SIZE) % UINT64_SIZE

/-- Whether a bit pattern is a NaN. -/
def isNaN (bits : Nat) : Bool := expoField bits == 2047 && fracField bits != 0

/-- The position of a double other than NaN on the number line: `a < b` as
doubles exactly when `dkey a < dkey b`; both zeros are at 0. -/
def dkey (bits : Nat) : Int :=
  if signBit bits then -((bits % 2 ^ 63 : Nat) : Int) else ((bits % 2 ^ 63 : Nat) : Int)

/-- Iteration rank of a key in a map ordered by `std::less<double>`. -/
def askOrd (bits : Nat) : Int := dkey bits

/-- Iteration rank of a key in a map ordered by `std::greater<double>`. -/
def bidOrd (bits : Nat) : Int := -dkey bits

/-- The struct `Order`. -/
structure Order where
  orderid : Nat
  isbuy : Bool
  price : Nat
  quantity : Nat
  timestampns : Nat
deriving DecidableEq, Repr

/-- The struct `PriceLevel`. -/
structure PriceLevel where
  price : Nat
  totalquantity : Nat
deriving DecidableEq, Repr

/-- The struct `OrderBook::OrderRef`. The iterator `orderIt` is the position
in the deque of its side and price, together with whether it is still valid. -/
structure OrderRef where
  isbuy : Bool
  price : Nat
  orderIt : Nat
  valid : Bool
deriving DecidableEq, Repr

/-- The method `std::map::find`, by equivalence of keys under the ordering. -/
def mfind {V : Type} (ord : Nat → Int) : List (Nat × V) → Nat → Option V
  | [], _ => none
  | (k, v) :: rest, p => if ord k = ord p then some v else mfind ord rest p

/-- Stores `v` under the key `p`: in the entry of an equivalent key when there
is one (the entry keeps its key), otherwise in a new entry at its place in the
ordering. -/
def mset {V : Type} (ord : Nat → Int) : List (Nat × V) → Nat → V → List (Nat × V)
  | [], p, v => [(p, v)]
  | (k, w) :: rest, p, v =>
    if ord k = ord p then (k, v) :: rest
    else if ord p < ord k then (p, v) :: (k, w) :: rest
    else (k, w) :: mset ord rest p v

/-- The method `std::map::erase(key)`. -/
def merase {V : Type} (ord : Nat → Int) : List (Nat × V) → Nat → List (Nat × V)
  | [], _ => []
  | (k, w) :: rest, p => if ord k = ord p then rest else (k, w) :: merase ord rest p

/-- The value `m[p]` of `std::map::operator[]`: the stored value, or a
value-initialised one for a new key. -/
def mat {V : Type} (ord : Nat → Int) (m : List (Nat × V)) (p : Nat) (dflt : V) : V :=
  (mfind ord m p).getD dflt

/-- The method `std::unordered_map::find`. -/
def alookup : List (Nat × OrderRef) → Nat → Option OrderRef
  | [], _ => none
  | (k, r) :: rest, id => if k = id then some r else alookup rest id

/-- The assignment `order_lookup_[id] = r`. -/
def ainsert : List (Nat × OrderRef) → Nat → OrderRef → List (Nat × OrderRef)
  | [], id, r => [(id, r)]
  | (k, w) :: rest, id, r => if k = id then (k, r) :: rest else (k, w) :: ainsert rest id r

/-- The method `std::unordered_map::erase` of the entry of `id`. -/
def aerase : List (Nat × OrderRef) → Nat → List (Nat × OrderRef)
  | [], _ => []
  | (k, w) :: rest, id => if k = id then rest else (k, w) :: aerase rest id

/-- Whether a reference points into the deque of the given side and price. -/
def OrderRef.into (r : OrderRef) (isbuy : Bool) (price : Nat) : Bool :=
  r.isbuy == isbuy && dkey r.price == dkey price

/-- Invalidates every iterator into the deque of the given side and price. -/
def invalidate (isbuy : Bool) (price : Nat) (l : List (Nat × OrderRef)) :
    List (Nat × OrderRef) :=
  l.map (fun e => if e.2.into isbuy price then (e.1, { e.2 with valid := false }) else e)

/-- The iterators into a deque after its first element was erased: the
elements behind it are one position further to the front. -/
def shiftDown (isbuy : Bool) (price : Nat) (l : List (Nat × OrderRef)) :
    List (Nat × OrderRef) :=
  l.map (fun e =>
    if e.2.into isbuy price then (e.1, { e.2 with orderIt := e.2.orderIt - 1 }) else e)

/-- The iterators after `erase` at position `idx` of a deque of `len`
elements. -/
def afterErase (isbuy : Bool) (price : Nat) (idx len : Nat) (l : List (Nat × OrderRef)) :
    List (Nat × OrderRef) :=
  if idx + 1 = len then l
  else if idx = 0 then shiftDown isbuy price l
  else invalidate isbuy price l

/-- The sum of the quantities of the orders of a queue. -/
def sumQty (dq : List Order) : Nat := (dq.map (fun o => o.quantity)).sum

/-- A value-initialised `PriceLevel`. -/
def PriceLevel.zero : PriceLevel := { price := 0, totalquantity := 0 }

/-- The class `OrderBook`: its five maps. -/
structure OrderBook where
  bids_ : List (Nat × List Order)
  asks_ : List (Nat × List Order)
  bid_levels_ : List (Nat × PriceLevel)
  ask_levels_ : List (Nat × PriceLevel)
  order_lookup_ : List (Nat × OrderRef)
deriving DecidableEq, Repr

/-- The empty book. -/
def OrderBook.empty : OrderBook :=
  { bids_ := [], asks_ := [], bid_levels_ := [], ask_levels_ := [], order_lookup_ := [] }

/-- The three statements of `addorder` on the maps of one side: the queue
`q[price].push_back(order)`, then `l[price].price = price` and
`l[price].totalquantity += quantity`. -/
def pushLevel (ord : Nat → Int) (qs : List (Nat × List Order))
    (ls : List (Nat × PriceLevel)) (order : Order) :
    List (Nat × List Order) × List (Nat × PriceLevel) :=
  let qs1 := mset ord qs order.price (mat ord qs order.price [] ++ [order])
  let ls1 := mset ord ls order.price
    { mat ord ls order.price PriceLevel.zero with price := order.price }
  let l1 := mat ord ls1 order.price PriceLevel.zero
  let ls2 := mset ord ls1 order.price
    { l1 with totalquantity := uadd l1.totalquantity order.quantity }
  (qs1, ls2)

/-- The method `OrderBook::addorder`. -/
def OrderBook.addorder (b : OrderBook) (order : Order) : Option OrderBook :=
  if isNaN order.price then none
  else if order.isbuy then
    let r := pushLevel bidOrd b.bids_ b.bid_levels_ order
    let it := (mat bidOrd r.1 order.price []).length - 1
    some { b with
      bids_ := r.1, bid_levels_ := r.2,
      order_lookup_ := ainsert (invalidate true order.price b.order_lookup_) order.orderid
        { isbuy := true, price := order.price, orderIt := it, valid := true } }
  else
    let r := pushLevel askOrd b.asks_ b.ask_levels_ order
    let it := (mat askOrd r.1 order.price []).length - 1
    some { b with
      asks_ := r.1, ask_levels_ := r.2,
      order_lookup_ := ainsert (invalidate false order.price b.order_lookup_) order.orderid
        { isbuy := false, price := order.price, orderIt := it, valid := true } }

/-- The statements of `cancelorder` on the maps of one side, for a valid
iterator at position `idx`: `dq = q[price]`, the quantity read through the
iterator, `l[price].totalquantity -= removed_qty`, `dq.erase(orderIt)`, and the
removal of both entries when the deque is empty. The result also gives the
length the deque had. `none` when the iterator does not point at an element. -/
def eraseLevel (ord : Nat → Int) (qs : List (Nat × List Order))
    (ls : List (Nat × PriceLevel)) (price idx : Nat) :
    Option (List (Nat × List Order) × List (Nat × PriceLevel) × Nat) :=
  match mfind ord qs price with
  | none => none
  | some dq =>
    match dq[idx]? with
    | none => none
    | some victim =>
      let l0 := mat ord ls price PriceLevel.zero
      let ls1 := mset ord ls price
        { l0 with totalquantity := usub l0.totalquantity victim.quantity }
      let dq1 := dq.eraseIdx idx
      if dq1 = [] then some (merase ord qs price, merase ord ls1 price, dq.length)
      else some (mset ord qs price dq1, ls1, dq.length)

/-- The method `OrderBook::cancelorder`: the returned flag and the book
afterwards. -/
def OrderBook.cancelorder (b : OrderBook) (orderid : Nat) : Option (Bool × OrderBook) :=
  match alookup b.order_lookup_ orderid with
  | none => some (false, b)
  | some ref =>
    if !ref.valid then none
    else if ref.isbuy then
      match eraseLevel bidOrd b.bids_ b.bid_levels_ ref.price ref.orderIt with
      | none => none
      | some (qs, ls, len) =>
        some (true, { b with
          bids_ := qs, bid_levels_ := ls,
          order_lookup_ :=
            aerase (afterErase true ref.price ref.orderIt len b.order_lookup_) orderid })
    else
      match eraseLevel askOrd b.asks_ b.ask_levels_ ref.price ref.orderIt with
      | none => none
      | some (qs, ls, len) =>
        some (true, { b with
          asks_ := qs, ask_levels_ := ls,
          order_lookup_ :=
            aerase (afterErase false ref.price ref.orderIt len b.order_lookup_) orderid })

/-- The order a valid iterator points at. -/
def deref (ord : Nat → Int) (qs : List (Nat × List Order)) (ref : OrderRef) : Option Order :=
  if !ref.valid then none
  else
    match mfind ord qs ref.price with
    | none => none
    | some dq => dq[ref.orderIt]?

/-- The branch of `amendorder` for an unchanged price, on the maps of one
side: the quantity is written through the iterator and the level total is
moved by the difference. -/
def requantify (ord : Nat → Int) (qs : List (Nat × List Order))
    (ls : List (Nat × PriceLevel)) (ref : OrderRef) (old : Order) (newquantity : Nat) :
    List (Nat × List Order) × List (Nat × PriceLevel) :=
  let dq := mat ord qs ref.price []
  let qs1 := mset ord qs ref.price (dq.set ref.orderIt { old with quantity := newquantity })
  let l0 := mat ord ls ref.price PriceLevel.zero
  let ls1 := mset ord ls ref.price
    { l0 with totalquantity := uadd l0.totalquantity (usub newquantity old.quantity) }
  (qs1, ls1)

/-- The method `OrderBook::amendorder`: the returned flag and the book
afterwards. -/
def OrderBook.amendorder (b : OrderBook) (orderid newprice newquantity : Nat) :
    Option (Bool × OrderBook) :=
  match alookup b.order_lookup_ orderid with
  | none => some (false, b)
  | some ref =>
    match deref (if ref.isbuy then bidOrd else askOrd)
        (if ref.isbuy then b.bids_ else b.asks_) ref with
    | none => none
    | some old =>
      if isNaN newprice || isNaN ref.price || dkey newprice != dkey ref.price then
        let amended : Order := { old with price := newprice, quantity := newquantity }
        match b.cancelorder orderid with
        | none => none
        | some (_, b1) =>
          match b1.addorder amended with
          | none => none
          | some b2 => some (true, b2)
      else if ref.isbuy then
        let r := requantify bidOrd b.bids_ b.bid_levels_ ref old newquantity
        some (true, { b with bids_ := r.1, bid_levels_ := r.2 })
      else
        let r := requantify askOrd b.asks_ b.ask_levels_ ref old newquantity
        some (true, { b with asks_ := r.1, ask_levels_ := r.2 })

/-- One loop of `get_snapshot`: walks the levels in iteration order and
appends each `it->second` while `count < depth`. -/
def snapshotLoop : List (Nat × PriceLevel) → Nat → Nat → List PriceLevel → List PriceLevel
  | [], _, _, out => out
  | e :: rest, depth, count, out =>
    if count < depth then snapshotLoop rest depth (count + 1) (out ++ [e.2]) else out

/-- The method `std::vector::clear`. -/
def clear (_v : List PriceLevel) : List PriceLevel := []

/-- The method `OrderBook::get_snapshot`: the two output vectors afterwards.
Both are cleared, then each loop fills one. The method is `const`: it cannot
write the maps of the book. -/
def OrderBook.get_snapshot (b : OrderBook) (depth : Nat) (bids asks : List PriceLevel) :
    List PriceLevel × List PriceLevel :=
  (snapshotLoop b.bid_levels_ depth 0 (clear bids),
   snapshotLoop b.ask_levels_ depth 0 (clear asks))

/-- A call on the book. -/
inductive BookOp where
  | add (order : Order)
  | cancel (orderid : Nat)
  | amend (orderid newprice newquantity : Nat)
deriving DecidableEq, Repr

/-- The book after one call. -/
def OrderBook.apply (b : OrderBook) : BookOp → Option OrderBook
  | BookOp.add order => b.addorder order
  | BookOp.cancel orderid => (b.cancelorder orderid).map (fun r => r.2)
  | BookOp.amend orderid newprice newquantity =>
    (b.amendorder orderid newprice newquantity).map (fun r => r.2)

/-- The book after a sequence of calls. -/
def OrderBook.run : OrderBook → List BookOp → Option OrderBook
  | b, [] => some b
  | b, op :: ops =>
    match b.apply op with
    | none => none
    | some b1 => b1.run ops

/-! ### Vocabulary of the order book claims -/

/-- The ordering of the maps of a side. -/
def sideOrd (isbuy : Bool) : Nat → Int := if isbuy then bidOrd else askOrd

/-- The orders queued at a price on a side; none when the side has no queue
at that price. -/
def OrderBook.queueAt (b : OrderBook) (isbuy : Bool) (price : Nat) : List Order :=
  if isbuy then mat bidOrd b.bids_ price [] else mat askOrd b.asks_ price []

/-- The price level entry at a price on a side. -/
def OrderBook.levelAt (b : OrderBook) (isbuy : Bool) (price : Nat) : Option PriceLevel :=
  if isbuy then mfind bidOrd b.bid_levels_ price else mfind askOrd b.ask_levels_ price

/-- The keys of a map are in strictly increasing iteration rank. -/
def KeysSorted {V : Type} (ord : Nat → Int) (m : List (Nat × V)) : Prop :=
  m.Pairwise (fun a b => ord a.1 < ord b.1)

/-- A queue entry and a level entry belong together: same key, the queue has
an order, the total is the sum of the queued quantities as a `uint64_t`, and
the price stored in the level is equivalent to the key. -/
def LevelOk (ord : Nat → Int) (q : Nat × List Order) (l : Nat × PriceLevel) : Prop :=
  q.1 = l.1 ∧ q.2 ≠ [] ∧ l.2.totalquantity = sumQty q.2 % UINT64_SIZE ∧
    ord l.2.price = ord q.1

/-- The two maps of a side belong together entry by entry. -/
def SideOk (ord : Nat → Int) (qs : List (Nat × List Order))
    (ls : List (Nat × PriceLevel)) : Prop :=
  KeysSorted ord qs ∧ List.Forall₂ (LevelOk ord) qs ls

/-- Both sides of a book are in order. -/
def BookOk (b : OrderBook) : Prop :=
  SideOk bidOrd b.bids_ b.bid_levels_ ∧ SideOk askOrd b.asks_ b.ask_levels_

/-- What an entry of the id lookup stores: the id, the side, the price and the
position the iterator was created at. -/
def refEntry (e : Nat × OrderRef) : Nat × Bool × Nat × Nat :=
  (e.1, e.2.isbuy, e.2.price, e.2.orderIt)

/-- The double 101.5. -/
def PRICE_101_5 : Nat := 0x4059600000000000

/-- The double 102.0. -/
def PRICE_102 : Nat := 0x4059800000000000

/-- The double 101.6. -/
def PRICE_101_6 : Nat := 0x4059666666666666

/-- The calls of `main`. -/
def MAIN_OPS : List BookOp :=
  [BookOp.add ⟨1, true, PRICE_101_5, 10, 100000⟩,
   BookOp.add ⟨2, false, PRICE_102, 25, 100005⟩,
   BookOp.add ⟨3, true, PRICE_101_5, 5, 100007⟩,
   BookOp.add ⟨4, false, PRICE_102, 15, 100010⟩,
   BookOp.cancel 3,
   BookOp.amend 4 PRICE_101_6 30]

/-- The book of `main` after its calls. -/
def MAIN_BOOK : OrderBook :=
  { bids_ := [(PRICE_101_5, [⟨1, true, PRICE_101_5, 10, 100000⟩])],
    asks_ := [(PRICE_101_6, [⟨4, false, PRICE_101_6, 30, 100010⟩]),
              (PRICE_102, [⟨2, false, PRICE_102, 25, 100005⟩])],
    bid_levels_ := [(PRICE_101_5, ⟨PRICE_101_5, 10⟩)],
    ask_levels_ := [(PRICE_101_6, ⟨PRICE_101_6, 30⟩), (PRICE_102, ⟨PRICE_102, 25⟩)],
    order_lookup_ := [(1, ⟨true, PRICE_101_5, 0, false⟩), (2, ⟨false, PRICE_102, 0, false⟩),
                      (4, ⟨false, PRICE_101_6, 0, true⟩)] }

/-- A book holding one buy order with id 1. -/
def ONE_BID_BOOK : OrderBook :=
  { bids_ := [(PRICE_101_5, [⟨1, true, PRICE_101_5, 10, 100000⟩])],
    asks_ := [],
    bid_levels_ := [(PRICE_101_5, ⟨PRICE_101_5, 10⟩)],
    ask_levels_ := [],
    order_lookup_ := [(1, ⟨true, PRICE_101_5, 0, true⟩)] }

/-- A sell order that uses the id 1 again. -/
def SAME_ID_ORDER : Order := ⟨1, false, PRICE_102, 25, 100005⟩

/-- A buy order with a new id at the price of the resting bid. -/
def NEW_BID_ORDER : Order := ⟨3, true, PRICE_101_5, 5, 100007⟩

/-- The call that leads to `ONE_BID_BOOK`. -/
def ONE_BID_OPS : List BookOp := [BookOp.add ⟨1, true, PRICE_101_5, 10, 100000⟩]

/-- The book `ONE_BID_BOOK` without its lookup entry. -/
def ONE_BID_ORPHAN : OrderBook := { ONE_BID_BOOK with order_lookup_ := [] }

/-- An output vector that still holds a level of an earlier call. -/
def STALE_OUTPUT : List PriceLevel := [⟨0, 7⟩]

/-- The double -0.0. -/
def PRICE_NEG_ZERO : Nat := 0x8000000000000000

/-- A book holding one buy order at the price +0.0. -/
def ZERO_BID_BOOK : OrderBook :=
  { bids_ := [(0, [⟨1, true, 0, 10, 100000⟩])],
    asks_ := [],
    bid_levels_ := [(0, ⟨0, 10⟩)],
    ask_levels_ := [],
    order_lookup_ := [(1, ⟨true, 0, 0, true⟩)] }

/-- A buy order with a new id at the price -0.0. -/
def NEG_ZERO_ORDER : Order := ⟨2, true, PRICE_NEG_ZERO, 5, 100001⟩

/-! ### The order book over the deque of libstdc++

The embedding above stops where the C++ rules leave the outcome open. What the
program then does is decided by the library. The definitions below embed the
same three methods over `std::deque` as libstdc++ implements it, for a deque
that stays in its first node: the elements lie in consecutive slots of the
node, `begin()` and `end()` are two slots, an iterator is a slot, `push_back`
writes the slot of `end()` and moves `end()` up, and `erase` copies the shorter
side over the erased slot and gives up one slot at that end. A slot that no
longer belongs to the deque keeps the bytes last written to it. -/

/-- Number of `Order` objects in a node of a `std::deque<Order>`: 512 bytes
over the 40 bytes of an `Order`. -/
def DEQUE_NODE_SIZE : Nat := 12

/-- A `std::deque<Order>` in its first node: the slots written so far, and the
slots of `begin()` and `end()`. -/
structure Deque where
  slots : List Order
  start : Nat
  finish : Nat
deriving DecidableEq, Repr

/-- A default-constructed deque. -/
def Deque.new : Deque := { slots := [], start := 0, finish := 0 }

/-- The elements of the deque, from `begin()` to `end()`. -/
def Deque.elems (d : Deque) : List Order := (d.slots.take d.finish).drop d.start

/-- The method `std::deque::empty`. -/
def Deque.empty (d : Deque) : Bool := d.start == d.finish

/-- The method `std::deque::push_back`, while the slot of `end()` is not the
last slot of the node; `none` when a second node would be needed. -/
def Deque.push_back (d : Deque) (order : Order) : Option Deque :=
  if d.finish + 1 < DEQUE_NODE_SIZE then
    some { d with
      slots := if d.finish < d.slots.length then d.slots.set d.finish order
               else d.slots ++ [order],
      finish := d.finish + 1 }
  else none

/-- The slots after the objects in the slots from `first` up to `last` were
copied to the slots from `dest` on, as `memmove` does. -/
def moveSlots (slots : List Order) (first last dest : Nat) : List Order :=
  (List.range slots.length).filterMap (fun i =>
    if dest ≤ i ∧ i < dest + (last - first) then slots[i - dest + first]? else slots[i]?)

/-- The method `std::deque::erase` at an iterator between `begin()` and
`end()`: when the element lies in the front half, the elements before it move
one slot up and `begin()` moves up; otherwise the elements behind it move one
slot down and `end()` moves down. `none` for an iterator outside the deque. -/
def Deque.erase (d : Deque) (pos : Nat) : Option Deque :=
  if d.start ≤ pos ∧ pos < d.finish then
    if pos - d.start < (d.finish - d.start) / 2 then
      some { d with slots := moveSlots d.slots d.start pos (d.start + 1),
                    start := d.start + 1 }
    else
      some { d with slots := moveSlots d.slots (pos + 1) d.finish pos,
                    finish := d.finish - 1 }
  else none

/-- The class `OrderBook` over this deque. An `OrderRef` holds the slot in
`orderIt`; its `valid` mark is not consulted. -/
structure SlotBook where
  bids_ : List (Nat × Deque)
  asks_ : List (Nat × Deque)
  bid_levels_ : List (Nat × PriceLevel)
  ask_levels_ : List (Nat × PriceLevel)
  order_lookup_ : List (Nat × OrderRef)
deriving DecidableEq, Repr

/-- The empty book. -/
def SlotBook.empty : SlotBook :=
  { bids_ := [], asks_ := [], bid_levels_ := [], ask_levels_ := [], order_lookup_ := [] }

/-- The three statements of `addorder` on the maps of one side, and the slot
of `--q[price].end()`. -/
def pushSlot (ord : Nat → Int) (qs : List (Nat × Deque)) (ls : List (Nat × PriceLevel))
    (order : Order) : Option (List (Nat × Deque) × List (Nat × PriceLevel) × Nat) :=
  match (mat ord qs order.price Deque.new).push_back order with
  | none => none
  | some dq =>
    let ls1 := mset ord ls order.price
      { mat ord ls order.price PriceLevel.zero with price := order.price }
    let l1 := mat ord ls1 order.price PriceLevel.zero
    let ls2 := mset ord ls1 order.price
      { l1 with totalquantity := uadd l1.totalquantity order.quantity }
    some (mset ord qs order.price dq, ls2, dq.finish - 1)

/-- The method `OrderBook::addorder`. -/
def SlotBook.addorder (b : SlotBook) (order : Order) : Option SlotBook :=
  if isNaN order.price then none
  else if order.isbuy then
    match pushSlot bidOrd b.bids_ b.bid_levels_ order with
    | none => none
    | some (qs, ls, it) =>
      some { b with
        bids_ := qs, bid_levels_ := ls,
        order_lookup_ := ainsert b.order_lookup_ order.orderid
          { isbuy := true, price := order.price, orderIt := it, valid := true } }
  else
    match pushSlot askOrd b.asks_ b.ask_levels_ order with
    | none => none
    | some (qs, ls, it) =>
      some { b with
        asks_ := qs, ask_levels_ := ls,
        order_lookup_ := ainsert b.order_lookup_ order.orderid
          { isbuy := false, price := order.price, orderIt := it, valid := true } }

/-- The statements of `cancelorder` on the maps of one side: the quantity is
read from the slot of the iterator, subtracted from the level total, the slot
is erased from the deque, and both entries are removed when the deque is
empty. `none` when the side has no deque at the price, when the slot was never
written, or when the slot lies outside the deque. -/
def eraseSlot (ord : Nat → Int) (qs : List (Nat × Deque)) (ls : List (Nat × PriceLevel))
    (price slot : Nat) : Option (List (Nat × Deque) × List (Nat × PriceLevel)) :=
  match mfind ord qs price with
  | none => none
  | some dq =>
    match dq.slots[slot]? with
    | none => none
    | some victim =>
      let l0 := mat ord ls price PriceLevel.zero
      let ls1 := mset ord ls price
        { l0 with totalquantity := usub l0.totalquantity victim.quantity }
      match dq.erase slot with
      | none => none
      | some dq1 =>
        if dq1.empty then some (merase ord qs price, merase ord ls1 price)
        else some (mset ord qs price dq1, ls1)

/-- The method `OrderBook::cancelorder`: the returned flag and the book
afterwards. -/
def SlotBook.cancelorder (b : SlotBook) (orderid : Nat) : Option (Bool × SlotBook) :=
  match alookup b.order_lookup_ orderid with
  | none => some (false, b)
  | some ref =>
    if ref.isbuy then
      match eraseSlot bidOrd b.bids_ b.bid_levels_ ref.price ref.orderIt with
      | none => none
      | some (qs, ls) =>
        some (true, { b with
          bids_ := qs, bid_levels_ := ls,
          order_lookup_ := aerase b.order_lookup_ orderid })
    else
      match eraseSlot askOrd b.asks_ b.ask_levels_ ref.price ref.orderIt with
      | none => none
      | some (qs, ls) =>
        some (true, { b with
          asks_ := qs, ask_levels_ := ls,
          order_lookup_ := aerase b.order_lookup_ orderid })

/-- The object in the slot an iterator points at. -/
def derefSlot (ord : Nat → Int) (qs : List (Nat × Deque)) (ref : OrderRef) : Option Order :=
  match mfind ord qs ref.price with
  | none => none
  | some dq => dq.slots[ref.orderIt]?

/-- The branch of `amendorder` for an unchanged price, on the maps of one
side: the quantity is written into the slot of the iterator and the level
total is moved by the difference. -/
def requantifySlot (ord : Nat → Int) (qs : List (Nat × Deque))
    (ls : List (Nat × PriceLevel)) (ref : OrderRef) (old : Order) (newquantity : Nat) :
    List (Nat × Deque) × List (Nat × PriceLevel) :=
  let dq := mat ord qs ref.price Deque.new
  let qs1 := mset ord qs ref.price
    { dq with slots := dq.slots.set ref.orderIt { old with quantity := newquantity } }
  let l0 := mat ord ls ref.price PriceLevel.zero
  let ls1 := mset ord ls ref.price
    { l0 with totalquantity := uadd l0.totalquantity (usub newquantity old.quantity) }
  (qs1, ls1)

/-- The method `OrderBook::amendorder`: the returned flag and the book
afterwards. -/
def SlotBook.amendorder (b : SlotBook) (orderid newprice newquantity : Nat) :
    Option (Bool × SlotBook) :=
  match alookup b.order_lookup_ orderid with
  | none => some (false, b)
  | some ref =>
    match derefSlot (if ref.isbuy then bidOrd else askOrd)
        (if ref.isbuy then b.bids_ else b.asks_) ref with
    | none => none
    | some old =>
      if isNaN newprice || isNaN ref.price || dkey newprice != dkey ref.price then
        let amended : Order := { old with price := newprice, quantity := newquantity }
        match b.cancelorder orderid with
        | none => none
        | some (_, b1) =>
          match b1.addorder amended with
          | none => none
          | some b2 => some (true, b2)
      else if ref.isbuy then
        let r := requantifySlot bidOrd b.bids_ b.bid_levels_ ref old newquantity
        some (true, { b with bids_ := r.1, bid_levels_ := r.2 })
      else
        let r := requantifySlot askOrd b.asks_ b.ask_levels_ ref old newquantity
        some (true, { b with asks_ := r.1, ask_levels_ := r.2 })

/-- The book after one call. -/
def SlotBook.apply (b : SlotBook) : BookOp → Option SlotBook
  | BookOp.add order => b.addorder order
  | BookOp.cancel orderid => (b.cancelorder orderid).map (fun r => r.2)
  | BookOp.amend orderid newprice newquantity =>
    (b.amendorder orderid newprice newquantity).map (fun r => r.2)

/-- The book after a sequence of calls. -/
def SlotBook.run : SlotBook → List BookOp → Option SlotBook
  | b, [] => some b
  | b, op :: ops =>
    match b.apply op with
    | none => none
    | some b1 => b1.run ops

/-- The orders queued at a price on a side. -/
def SlotBook.queueAt (b : SlotBook) (isbuy : Bool) (price : Nat) : List Order :=
  if isbuy then (mat bidOrd b.bids_ price Deque.new).elems
  else (mat askOrd b.asks_ price Deque.new).elems

/-- The price level entry at a price on a side. -/
def SlotBook.levelAt (b : SlotBook) (isbuy : Bool) (price : Nat) : Option PriceLevel :=
  if isbuy then mfind bidOrd b.bid_levels_ price else mfind askOrd b.ask_levels_ price

/-- The order queues of a side as lists of orders. -/
def queues (qs : List (Nat × Deque)) : List (Nat × List Order) :=
  qs.map (fun e => (e.1, e.2.elems))

/-- Three buy orders at one price, the second cancelled, the third amended at
the same price. -/
def STALE_AMEND_OPS : List BookOp :=
  [BookOp.add ⟨1, true, PRICE_101_5, 10, 100000⟩,
   BookOp.add ⟨2, true, PRICE_101_5, 5, 100001⟩,
   BookOp.add ⟨3, true, PRICE_101_5, 7, 100002⟩,
   BookOp.cancel 2,
   BookOp.amend 3 PRICE_101_5 20]

/-- The book after `STALE_AMEND_OPS` with the deque of libstdc++: the queue
holds the orders 1 and 3 with the quantities 10 and 7 in the slots 0 and 1,
the slot 2 behind `end()` holds the quantity 20, the level total is 30. -/
def STALE_AMEND_BOOK : SlotBook :=
  { bids_ := [(PRICE_101_5,
      { slots := [⟨1, true, PRICE_101_5, 10, 100000⟩, ⟨3, true, PRICE_101_5, 7, 100002⟩,
                  ⟨3, true, PRICE_101_5, 20, 100002⟩],
        start := 0, finish := 2 })],
    asks_ := [],
    bid_levels_ := [(PRICE_101_5, ⟨PRICE_101_5, 30⟩)],
    ask_levels_ := [],
    order_lookup_ := [(1, ⟨true, PRICE_101_5, 0, true⟩), (3, ⟨true, PRICE_101_5, 2, true⟩)] }

/-- Four orders with the ids and quantities 1 to 4 in the slots 0 to 3. -/
def FOUR_SLOTS : Deque :=
  { slots := [⟨1, true, PRICE_101_5, 1, 0⟩, ⟨2, true, PRICE_101_5, 2, 0⟩,
              ⟨3, true, PRICE_101_5, 3, 0⟩, ⟨4, true, PRICE_101_5, 4, 0⟩],
    start := 0, finish := 4 }

/-! ## Vocabulary of the codec statements -/

/-- An optional sign: nothing, a minus or a plus. -/
def IsSign (sg : List Char) : Prop := sg = [] ∨ sg = ['-'] ∨ sg = ['+']

/-- An integer as `%llu` reads it: white space, an optional sign, one or more
decimal digits. -/
def IntegerToken (tok : List Char) : Prop :=
  ∃ ws sg ds, tok = ws ++ sg ++ ds ∧ (∀ c ∈ ws, isspace c = true) ∧ IsSign sg ∧
    ds ≠ [] ∧ ∀ c ∈ ds, isdigit c = true


/-- A mantissa over the digit class `isd`: digits, optionally a point and more
digits. -/
def IsMantissa (isd : Char → Bool) (m : List Char) : Prop :=
  ∃ ip fp, (m = ip ++ fp ∨ m = ip ++ '.' :: fp) ∧
    (∀ c ∈ ip, isd c = true) ∧ (∀ c ∈ fp, isd c = true)

/-- An exponent part: nothing, or the marker letter in either case, an
optional sign and decimal digits. -/
def IsExponent (marker : Char) (ex : List Char) : Prop :=
  ex = [] ∨ ∃ c sg ds, ex = c :: (sg ++ ds) ∧ tolower c = marker ∧ IsSign sg ∧
    ∀ d ∈ ds, isdigit d = true

/-- The text of a number after white space and sign: `nan`, `inf` or
`infinity` in any case, a decimal mantissa holding a digit with an optional `e`
exponent, or `0x` and a non-empty hexadecimal mantissa with an optional `p`
exponent. -/
def NumberBody (body : List Char) : Prop :=
  body.map tolower = ['n', 'a', 'n'] ∨
  body.map tolower = ['i', 'n', 'f'] ∨
  body.map tolower = ['i', 'n', 'f', 'i', 'n', 'i', 't', 'y'] ∨
  (∃ m ex, body = m ++ ex ∧ IsMantissa isdigit m ∧ (∃ c ∈ m, isdigit c = true) ∧
    IsExponent 'e' ex) ∨
  (∃ x m ex, body = '0' :: x :: (m ++ ex) ∧ tolower x = 'x' ∧ IsMantissa isxdigit m ∧
    m ≠ [] ∧ IsExponent 'p' ex)

/-- A number as `%lf` reads it: white space, an optional sign, a number body. -/
def NumberToken (tok : List Char) : Prop :=
  ∃ ws sg body, tok = ws ++ sg ++ body ∧ (∀ c ∈ ws, isspace c = true) ∧ IsSign sg ∧
    NumberBody body

/-- The keys of a frame in wire order, each value being whatever text stands
between them. -/
def KeysInOrder (line : List Char) : Prop :=
  ∃ i b a t, line = LIT_OPEN ++ i ++ LIT_BID ++ b ++ LIT_ASK ++ a ++ LIT_TS ++ t

/-- The relaxed wire grammar that `from_json` checks: the frame up to the
timestamp, with library-style numbers, followed by anything. -/
def RelaxedFrame (line : List Char) : Prop :=
  ∃ i b a t rest,
    line = LIT_OPEN ++ i ++ LIT_BID ++ b ++ LIT_ASK ++ a ++ LIT_TS ++ t ++ rest ∧
    i ≠ [] ∧ i.length ≤ 15 ∧ DQUOTE ∉ i ∧
    NumberToken b ∧ NumberToken a ∧ IntegerToken t

/-- The timestamp that an optional sign and digits stand for in a frame that
is accepted: the number; under a minus sign its negation modulo `2 ^ 64`; and
`2 ^ 64 - 1` for every number of `2 ^ 64` or more, signed or not. -/
def integerValue (sg ds : List Char) : Nat :=
  if 2 ^ 64 ≤ parseDigits ds then 2 ^ 64 - 1
  else if sg = ['-'] then (2 ^ 64 - parseDigits ds) % 2 ^ 64 else parseDigits ds

/-- A frame as the encoder writes it, with white space `w1`, `w2`, `w3` put in
front of the three values and a sign and digits as the timestamp. -/
def spacedFrame (instr : List Char) (bid ask : Nat) (w1 w2 w3 sg ds : List Char) :
    List Char :=
  LIT_OPEN ++ instr ++ LIT_BID ++ (w1 ++ fmt2f bid) ++ LIT_ASK ++ (w2 ++ fmt2f ask)
    ++ LIT_TS ++ (w3 ++ sg ++ ds) ++ LIT_CLOSE

/-- A frame with a timestamp of minus `2 ^ 64`. -/
def LINE_NEGATIVE_HUGE : List Char :=
  "\x7b\"instrument\":\"RELIANCE\",\"bid\":2850.12,\"ask\":2850.46,\"timestamp_ns\": -18446744073709551616\x7d".toList

/-- The key of the timestamp field, in its quotes. -/
def KEY_TS : List Char := "\"timestamp_ns\"".toList

/-- The line holds a timestamp field: the key, a colon and an integer. -/
def HasTimestampField (line : List Char) : Prop :=
  ∃ pre t rest, line = pre ++ KEY_TS ++ ':' :: (t ++ rest) ∧ IntegerToken t

/-- A frame without the timestamp field. -/
def LINE_NO_TS : List Char :=
  "\x7b\"instrument\":\"RELIANCE\",\"bid\":2850.12,\"ask\":2850.46\x7d".toList

/-- A frame with the bid and instrument fields exchanged. -/
def LINE_SWAPPED : List Char :=
  "\x7b\"bid\":2850.12,\"instrument\":\"RELIANCE\",\"ask\":2850.46,\"timestamp_ns\":123456789\x7d".toList

/-- A frame followed by more text. -/
def LINE_TRAILING : List Char :=
  "\x7b\"instrument\":\"RELIANCE\",\"bid\":2850.12,\"ask\":2850.46,\"timestamp_ns\":123456789\x7d trailing".toList

/-- A frame with white space in front of each number. -/
def LINE_SPACED : List Char :=
  "\x7b\"instrument\":\"RELIANCE\",\"bid\": 2850.12,\"ask\":\t2850.46,\"timestamp_ns\": 123456789\x7d".toList

/-- A frame with a negative timestamp. -/
def LINE_NEGATIVE : List Char :=
  "\x7b\"instrument\":\"RELIANCE\",\"bid\":2850.12,\"ask\":2850.46,\"timestamp_ns\":-1\x7d".toList

/-- A double rounded to two decimal places, as a double: the binary64 value
nearest to the hundredths of the original; an infinity stays what it is and a
NaN becomes the default quiet NaN of the same sign. -/
def round2 (bits : Nat) : Nat :=
  if expoField bits = 2047 then
    if fracField bits = 0 then infBits (signBit bits) else nanBits (signBit bits)
  else ratToDouble (signBit bits) (hundredths bits) 100

/-- The record of the round-trip example: RELIANCE, bid 2850.123, ask
2850.456, timestamp 123456789. -/
def REC_RELIANCE : MarketData :=
  MarketData.make "RELIANCE".toList 0x40a6443ef9db22d1 0x40a644e978d4fdf4 123456789

/-- A record whose bid is the largest finite double. -/
def REC_HUGE : MarketData :=
  MarketData.make "RELIANCE".toList 0x7fefffffffffffff 0x40a644e978d4fdf4 123456789

/-- The frame of the default-constructed record. -/
def FRAME_EMPTY : List Char :=
  "\x7b\"instrument\":\"\",\"bid\":0.00,\"ask\":0.00,\"timestamp_ns\":0\x7d".toList

/-- A record with the longest frame: a 15-character instrument, bid and ask
the most negative finite double, the largest timestamp. -/
def REC_WORST : MarketData :=
  MarketData.make "ABCDEFGHIJKLMNO".toList 0xffefffffffffffff 0xffefffffffffffff
    18446744073709551615

/-- A record whose instrument field holds the string `A`, its zero byte, and a
further non-zero byte behind it. -/
def REC_TAIL : MarketData :=
  { instrument := ['A', NUL, 'B'] ++ List.replicate 13 NUL,
    bid := 0x40a6443ef9db22d1, ask := 0x40a644e978d4fdf4, timestamp_ns := 123456789 }
/-! ## Ring buffer: single steps -/

theorem next_eq (p : Nat) :
    (p + 1) % UINT32_SIZE % RING_BUFFER_CAPACITY = (p + 1) % 1024 := by
  simp only [UINT32_SIZE, RING_BUFFER_CAPACITY]; omega

theorem size_eq (rb : RingBuffer) (h : rb.InRange) :
    rb.size = (rb.pushPtr + 1024 - rb.popPtr) % 1024 := by
  obtain ⟨h1, h2, _⟩ := h
  simp only [RingBuffer.size, UINT32_SIZE, RING_BUFFER_CAPACITY]; omega

theorem push_full (rb : RingBuffer) (data : MarketData)
    (h : (rb.pushPtr + 1) % 1024 = rb.popPtr) :
    rb.push data = some (false, rb) := by
  simp only [RingBuffer.push, next_eq, h, if_true]

theorem push_ok (rb : RingBuffer) (data : MarketData) (hr : rb.InRange)
    (h : (rb.pushPtr + 1) % 1024 ≠ rb.popPtr) :
    rb.push data = some (true,
      { rb with buffer := rb.buffer.set rb.pushPtr data,
                pushPtr := (rb.pushPtr + 1) % 1024 }) := by
  obtain ⟨h1, _, h3⟩ := hr
  simp only [RingBuffer.push, next_eq, h, if_false, h3, h1, if_true]

theorem pop_empty (rb : RingBuffer) (data : MarketData)
    (h : rb.popPtr = rb.pushPtr) :
    rb.pop data = some (false, data, rb) := by
  simp only [RingBuffer.pop, h, if_true]

theorem pop_ok (rb : RingBuffer) (data : MarketData) (hr : rb.InRange)
    (h : rb.popPtr ≠ rb.pushPtr) :
    ∃ v, rb.buffer[rb.popPtr]? = some v ∧
      rb.pop data = some (true, v, { rb with popPtr := (rb.popPtr + 1) % 1024 }) := by
  obtain ⟨_, h2, h3⟩ := hr
  have hlt : rb.popPtr < rb.buffer.length := by omega
  refine ⟨rb.buffer[rb.popPtr], List.getElem?_eq_getElem hlt, ?_⟩
  simp only [RingBuffer.pop, h, if_false, List.getElem?_eq_getElem hlt, next_eq]

/-- Claim C2. In a state with both cursors below 1024, `push` returns false
exactly when `(pushPtr + 1) mod 1024 = popPtr`, which is exactly when `full()`
is true, and then the whole state (both cursors and every slot) is returned
unchanged. -/
theorem push_full_atomic (rb : RingBuffer) (data : MarketData) (hr : rb.InRange) :
    (∃ b rb', rb.push data = some (b, rb')) ∧
    ((∃ rb', rb.push data = some (false, rb')) ↔ (rb.pushPtr + 1) % 1024 = rb.popPtr) ∧
    (rb.full = true ↔ (rb.pushPtr + 1) % 1024 = rb.popPtr) ∧
    ((rb.pushPtr + 1) % 1024 = rb.popPtr → rb.push data = some (false, rb)) := by
  refine ⟨?_, ?_, ?_, push_full rb data⟩
  · by_cases h : (rb.pushPtr + 1) % 1024 = rb.popPtr
    · exact ⟨_, _, push_full rb data h⟩
    · exact ⟨_, _, push_ok rb data hr h⟩
  · constructor
    · rintro ⟨rb', h'⟩
      by_contra h
      rw [push_ok rb data hr h] at h'
      simp at h'
    · intro h
      exact ⟨rb, push_full rb data h⟩
  · simp only [RingBuffer.full, next_eq, beq_iff_eq]

set_option maxRecDepth 100000 in
/-- Witness for C2: a buffer whose write cursor is one slot behind the read cursor. -/
theorem push_full_atomic_witness :
    ({ RingBuffer.fresh with pushPtr := 1023 } : RingBuffer).InRange ∧
    ({ RingBuffer.fresh with pushPtr := 1023 } : RingBuffer).push
        (MarketData.make "RELIANCE".toList 1 2 3)
      = some (false, { RingBuffer.fresh with pushPtr := 1023 }) :=
  ⟨by decide,
   (push_full_atomic { RingBuffer.fresh with pushPtr := 1023 }
      (MarketData.make "RELIANCE".toList 1 2 3) (by decide)).2.2.2 (by decide)⟩

/-- Claim C4. When `popPtr = pushPtr`, `pop` returns false and leaves both
cursors, every slot and the caller's output record as they were; and `pop`
returns false only when `popPtr = pushPtr`. -/
theorem pop_empty_no_effect (rb : RingBuffer) (data : MarketData) :
    (rb.popPtr = rb.pushPtr → rb.pop data = some (false, data, rb)) ∧
    (∀ out rb', rb.pop data = some (false, out, rb') → rb.popPtr = rb.pushPtr) := by
  refine ⟨pop_empty rb data, ?_⟩
  intro out rb' h
  by_contra hne
  simp only [RingBuffer.pop, hne, if_false] at h
  cases hb : rb.buffer[rb.popPtr]? with
  | none => simp [hb] at h
  | some v => simp [hb] at h

set_option maxRecDepth 100000 in
/-- Witness for C4: the fresh buffer is empty. -/
theorem pop_empty_no_effect_witness :
    RingBuffer.fresh.popPtr = RingBuffer.fresh.pushPtr ∧
    RingBuffer.fresh.pop (MarketData.make "TCS".toList 5 6 7)
      = some (false, MarketData.make "TCS".toList 5 6 7, RingBuffer.fresh) :=
  ⟨by decide,
   (pop_empty_no_effect RingBuffer.fresh (MarketData.make "TCS".toList 5 6 7)).1
     (by decide)⟩

/-- Claim C9. In a state with both cursors below 1024 that is not full, `push`
returns true, the slot at the old `pushPtr` holds the record, `pushPtr` has
advanced by one modulo 1024, and `popPtr` and every other slot are as before. -/
theorem push_success_frame (rb : RingBuffer) (data : MarketData) (hr : rb.InRange)
    (h : (rb.pushPtr + 1) % 1024 ≠ rb.popPtr) :
    ∃ rb', rb.push data = some (true, rb') ∧
      rb'.buffer[rb.pushPtr]? = some data ∧
      rb'.pushPtr = (rb.pushPtr + 1) % 1024 ∧
      rb'.popPtr = rb.popPtr ∧
      rb'.buffer.length = 1024 ∧
      ∀ i, i ≠ rb.pushPtr → rb'.buffer[i]? = rb.buffer[i]? := by
  refine ⟨_, push_ok rb data hr h, ?_, rfl, rfl, ?_, ?_⟩
  · have hlt : rb.pushPtr < rb.buffer.length := by have := hr.2.2; have := hr.1; omega
    simp [List.getElem?_set_self, hlt]
  · simpa using hr.2.2
  · intro i hi
    simp [List.getElem?_set_ne (Ne.symm hi)]

set_option maxRecDepth 100000 in
/-- Witness for C9: the first push into the fresh buffer. -/
theorem push_success_frame_witness :
    RingBuffer.fresh.InRange ∧
    (RingBuffer.fresh.pushPtr + 1) % 1024 ≠ RingBuffer.fresh.popPtr ∧
    ∃ rb', RingBuffer.fresh.push (MarketData.make "INFY".toList 1 2 3) = some (true, rb') ∧
      rb'.buffer[RingBuffer.fresh.pushPtr]? = some (MarketData.make "INFY".toList 1 2 3) ∧
      rb'.pushPtr = (RingBuffer.fresh.pushPtr + 1) % 1024 ∧
      rb'.popPtr = RingBuffer.fresh.popPtr ∧
      rb'.buffer.length = 1024 ∧
      ∀ i, i ≠ RingBuffer.fresh.pushPtr → rb'.buffer[i]? = RingBuffer.fresh.buffer[i]? :=
  ⟨by decide, by decide,
   push_success_frame RingBuffer.fresh (MarketData.make "INFY".toList 1 2 3)
     (by decide) (by decide)⟩

/-- Claim C10. In a state with both cursors below 1024 that is not empty, `pop`
returns true, the output record is the slot at the old `popPtr`, `popPtr` has
advanced by one modulo 1024, and `pushPtr` and all slots are as before. -/
theorem pop_success_frame (rb : RingBuffer) (data : MarketData) (hr : rb.InRange)
    (h : rb.popPtr ≠ rb.pushPtr) :
    ∃ v, rb.buffer[rb.popPtr]? = some v ∧
      rb.pop data = some (true, v,
        { pushPtr := rb.pushPtr, popPtr := (rb.popPtr + 1) % 1024, buffer := rb.buffer }) :=
  pop_ok rb data hr h

set_option maxRecDepth 100000 in
/-- Witness for C10: a buffer holding one record. -/
theorem pop_success_frame_witness :
    ({ RingBuffer.fresh with pushPtr := 1 } : RingBuffer).InRange ∧
    ({ RingBuffer.fresh with pushPtr := 1 } : RingBuffer).popPtr
      ≠ ({ RingBuffer.fresh with pushPtr := 1 } : RingBuffer).pushPtr ∧
    ∃ v, ({ RingBuffer.fresh with pushPtr := 1 } : RingBuffer).buffer[0]? = some v ∧
      ({ RingBuffer.fresh with pushPtr := 1 } : RingBuffer).pop (MarketData.make "X".toList 9 9 9)
        = some (true, v, { pushPtr := 1, popPtr := 1, buffer := RingBuffer.fresh.buffer }) :=
  ⟨by decide, by decide,
   pop_success_frame { RingBuffer.fresh with pushPtr := 1 }
     (MarketData.make "X".toList 9 9 9) (by decide) (by decide)⟩

/-! ## Ring buffer: runs -/

theorem fresh_inRange : RingBuffer.fresh.InRange := by
  refine ⟨by decide, by decide, ?_⟩
  exact List.length_replicate _ _

theorem push_ok_inRange (rb : RingBuffer) (data : MarketData) (hr : rb.InRange) :
    ({ rb with buffer := rb.buffer.set rb.pushPtr data,
               pushPtr := (rb.pushPtr + 1) % 1024 } : RingBuffer).InRange := by
  obtain ⟨h1, h2, h3⟩ := hr
  refine ⟨?_, h2, ?_⟩
  · show (rb.pushPtr + 1) % 1024 < 1024
    omega
  · show (rb.buffer.set rb.pushPtr data).length = 1024
    simpa using h3

theorem pop_ok_inRange (rb : RingBuffer) (hr : rb.InRange) :
    ({ rb with popPtr := (rb.popPtr + 1) % 1024 } : RingBuffer).InRange := by
  obtain ⟨h1, h2, h3⟩ := hr
  refine ⟨h1, ?_, h3⟩
  show (rb.popPtr + 1) % 1024 < 1024
  omega

theorem resident_push (rb : RingBuffer) (data : MarketData) (hr : rb.InRange)
    (h : (rb.pushPtr + 1) % 1024 ≠ rb.popPtr) :
    ({ rb with buffer := rb.buffer.set rb.pushPtr data,
               pushPtr := (rb.pushPtr + 1) % 1024 } : RingBuffer).resident
      = rb.resident ++ [data] := by
  have hr' := push_ok_inRange rb data hr
  have hs := size_eq rb hr
  have hs' := size_eq _ hr'
  obtain ⟨h1, h2, h3⟩ := hr
  simp only at hs'
  have hsz : (rb.pushPtr + 1) % 1024 + 1024 - rb.popPtr = rb.size + 1
      ∨ (rb.pushPtr + 1) % 1024 + 1024 - rb.popPtr = rb.size + 1 + 1024 := by omega
  have hsz' : ((rb.pushPtr + 1) % 1024 + 1024 - rb.popPtr) % 1024 = rb.size + 1 := by omega
  unfold RingBuffer.resident
  rw [hs', hsz', List.range_succ, List.map_append]
  congr 1
  · apply List.map_congr_left
    intro i hi
    have hi' : i < rb.size := List.mem_range.mp hi
    have hne : rb.pushPtr ≠ (rb.popPtr + i) % RING_BUFFER_CAPACITY := by
      simp only [RING_BUFFER_CAPACITY]; omega
    simp only [List.getD_eq_getElem?_getD, List.getElem?_set_ne hne]
  · have heq : (rb.popPtr + rb.size) % RING_BUFFER_CAPACITY = rb.pushPtr := by
      simp only [RING_BUFFER_CAPACITY]; omega
    have hlt : rb.pushPtr < rb.buffer.length := by omega
    simp [List.getD_eq_getElem?_getD, heq, List.getElem?_set_self, hlt]

theorem resident_pop (rb : RingBuffer) (v : MarketData) (hr : rb.InRange)
    (h : rb.popPtr ≠ rb.pushPtr) (hv : rb.buffer[rb.popPtr]? = some v) :
    rb.resident
      = v :: ({ rb with popPtr := (rb.popPtr + 1) % 1024 } : RingBuffer).resident := by
  have hr' := pop_ok_inRange rb hr
  have hs := size_eq rb hr
  have hs' := size_eq _ hr'
  obtain ⟨h1, h2, h3⟩ := hr
  simp only at hs'
  have hsz : rb.size
      = ({ rb with popPtr := (rb.popPtr + 1) % 1024 } : RingBuffer).size + 1 := by omega
  unfold RingBuffer.resident
  rw [hsz, List.range_succ_eq_map, List.map_cons, List.map_map]
  congr 1
  · have h0 : (rb.popPtr + 0) % RING_BUFFER_CAPACITY = rb.popPtr := by
      simp only [RING_BUFFER_CAPACITY]; omega
    rw [List.getD_eq_getElem?_getD, h0, hv]
    rfl
  · apply List.map_congr_left
    intro i _
    have hidx : (rb.popPtr + (i + 1)) % RING_BUFFER_CAPACITY
        = ((rb.popPtr + 1) % 1024 + i) % RING_BUFFER_CAPACITY := by
      simp only [RING_BUFFER_CAPACITY]; omega
    simp only [Function.comp, Nat.succ_eq_add_one, hidx]

theorem resident_fresh : RingBuffer.fresh.resident = [] := by
  have : RingBuffer.fresh.size = 0 := by decide
  simp [RingBuffer.resident, this]

theorem runOps_fifo (ops : List Op) :
    ∀ (rb : RingBuffer) (t : Trace), rb.InRange →
      t.accepted = t.popped ++ rb.resident →
      ∃ t' rb', runOps rb t ops = some (t', rb') ∧ rb'.InRange ∧
        t'.accepted = t'.popped ++ rb'.resident := by
  induction ops with
  | nil => intro rb t hr ht; exact ⟨t, rb, rfl, hr, ht⟩
  | cons op ops ih =>
    intro rb t hr ht
    cases op with
    | push v =>
      by_cases h : (rb.pushPtr + 1) % 1024 = rb.popPtr
      · simp only [runOps, push_full rb v h]
        exact ih rb t hr ht
      · simp only [runOps, push_ok rb v hr h]
        apply ih _ _ (push_ok_inRange rb v hr)
        rw [resident_push rb v hr h]
        simp [ht]
    | pop =>
      by_cases h : rb.popPtr = rb.pushPtr
      · simp only [runOps, pop_empty rb _ h]
        exact ih rb t hr ht
      · obtain ⟨v, hv, hp⟩ := pop_ok rb MarketData.new hr h
        simp only [runOps, hp]
        apply ih _ _ (pop_ok_inRange rb hr)
        rw [ht, resident_pop rb v hr h hv]
        simp

/-- Claim C1. FIFO. Every finite sequence of `push` and `pop` calls run one at a
time on a fresh buffer completes, and the records returned by the successful
pops followed by the records still resident are exactly the records whose push
returned true, in push order; in particular the popped records are a prefix of
the accepted ones. -/
theorem ring_buffer_fifo (ops : List Op) :
    ∃ t rb, runOps RingBuffer.fresh { accepted := [], popped := [] } ops = some (t, rb) ∧
      t.accepted = t.popped ++ rb.resident ∧
      t.popped <+: t.accepted := by
  obtain ⟨t, rb, h1, _, h3⟩ :=
    runOps_fifo ops RingBuffer.fresh { accepted := [], popped := [] } fresh_inRange
      (by simp [resident_fresh])
  exact ⟨t, rb, h1, h3, ⟨rb.resident, h3.symm⟩⟩

theorem pushAll_append (xs ys : List MarketData) :
    ∀ rb : RingBuffer, pushAll rb (xs ++ ys) =
      match pushAll rb xs with
      | none => none
      | some (bs, rb') =>
        match pushAll rb' ys with
        | none => none
        | some (cs, rb'') => some (bs ++ cs, rb'') := by
  induction xs with
  | nil =>
    intro rb
    simp only [List.nil_append, pushAll]
    cases pushAll rb ys with
    | none => rfl
    | some p => rfl
  | cons x xs ih =>
    intro rb
    rw [List.cons_append]
    simp only [pushAll]
    cases hp : rb.push x with
    | none => rfl
    | some p =>
      obtain ⟨b, rb1⟩ := p
      simp only [ih rb1]
      cases pushAll rb1 xs with
      | none => rfl
      | some q =>
        obtain ⟨bs, rb2⟩ := q
        simp only
        cases pushAll rb2 ys with
        | none => rfl
        | some r => rfl

theorem pushAll_room (xs : List MarketData) :
    ∀ rb : RingBuffer, rb.InRange → rb.popPtr = 0 → rb.pushPtr + xs.length ≤ 1023 →
      ∃ rb', pushAll rb xs = some (List.replicate xs.length true, rb') ∧ rb'.InRange ∧
        rb'.popPtr = 0 ∧ rb'.pushPtr = rb.pushPtr + xs.length := by
  induction xs with
  | nil => intro rb hr h0 _; exact ⟨rb, rfl, hr, h0, rfl⟩
  | cons x xs ih =>
    intro rb hr h0 hlen
    simp only [List.length_cons] at hlen
    have hne : (rb.pushPtr + 1) % 1024 ≠ rb.popPtr := by omega
    have hmod : (rb.pushPtr + 1) % 1024 = rb.pushPtr + 1 := by omega
    obtain ⟨rb', h1, h2, h3, h4⟩ := ih _ (push_ok_inRange rb x hr) h0
      (by show (rb.pushPtr + 1) % 1024 + xs.length ≤ 1023; omega)
    refine ⟨rb', ?_, h2, h3, ?_⟩
    · simp only [pushAll, push_ok rb x hr hne, h1, List.length_cons, List.replicate_succ]
    · rw [h4]; show (rb.pushPtr + 1) % 1024 + xs.length = _
      simp only [List.length_cons]; omega

theorem pushAll_full (ys : List MarketData) (rb : RingBuffer)
    (h : (rb.pushPtr + 1) % 1024 = rb.popPtr) :
    pushAll rb ys = some (List.replicate ys.length false, rb) := by
  induction ys with
  | nil => rfl
  | cons y ys ih =>
    simp only [pushAll, push_full rb y h, ih, List.length_cons, List.replicate_succ]

/-- Claim C3. Usable capacity is 1023. Pushing any sequence of records into a
fresh buffer with no pop in between, the first 1023 pushes return true and the
1024th and every later push returns false; the state after all of them is the
state after the first 1023, and once 1023 records are in, any further push
returns false with cursors and slots unchanged. -/
theorem usable_capacity (ds : List MarketData) :
    ∃ rb, pushAll RingBuffer.fresh (ds.take 1023)
          = some (List.replicate (min ds.length 1023) true, rb) ∧
      pushAll RingBuffer.fresh ds
          = some (List.replicate (min ds.length 1023) true
                    ++ List.replicate (ds.length - 1023) false, rb) ∧
      rb.pushPtr = min ds.length 1023 ∧ rb.popPtr = 0 ∧
      (1023 ≤ ds.length → ∀ d, rb.push d = some (false, rb)) := by
  have hlen : (ds.take 1023).length = min ds.length 1023 := by
    simp [List.length_take, Nat.min_comm]
  obtain ⟨rb, h1, _, h3, h4⟩ := pushAll_room (ds.take 1023) RingBuffer.fresh
    fresh_inRange rfl (by rw [hlen]; show 0 + _ ≤ _; omega)
  rw [hlen] at h1
  have h4' : rb.pushPtr = min ds.length 1023 := by
    rw [h4, hlen]; show 0 + _ = _; omega
  refine ⟨rb, h1, ?_, h4', h3, ?_⟩
  · conv_lhs => rw [← List.take_append_drop 1023 ds]
    rw [pushAll_append, h1]
    simp only
    by_cases hn : 1023 ≤ ds.length
    · have hfull : (rb.pushPtr + 1) % 1024 = rb.popPtr := by rw [h4', h3]; omega
      rw [pushAll_full _ rb hfull]
      simp [List.length_drop]
    · have hd : ds.drop 1023 = [] := List.drop_eq_nil_of_le (by omega)
      have hz : ds.length - 1023 = 0 := by omega
      simp [hd, hz, pushAll]
  · intro hn d
    exact push_full rb d (by rw [h4', h3]; omega)

/-! ## Codec: decimal digits -/

theorem digitChar_toNat (d : Nat) (h : d < 10) : (digitChar d).toNat = 48 + d := by
  interval_cases d <;> rfl

theorem isdigit_digitChar (d : Nat) (h : d < 10) : isdigit (digitChar d) = true := by
  interval_cases d <;> rfl

theorem parseDigits_snoc (cs : List Char) (c : Char) :
    parseDigits (cs ++ [c]) = parseDigits cs * 10 + (c.toNat - 48) := by
  simp [parseDigits, List.foldl_append]

theorem decimalFuel_spec (fuel : Nat) :
    ∀ n, n < fuel →
      decimalFuel fuel n ≠ [] ∧ (∀ c ∈ decimalFuel fuel n, isdigit c = true) ∧
        parseDigits (decimalFuel fuel n) = n := by
  induction fuel with
  | zero => intro n h; omega
  | succ fuel ih =>
    intro n h
    by_cases h10 : n < 10
    · simp only [decimalFuel, h10, if_true]
      refine ⟨by simp, ?_, ?_⟩
      · intro c hc
        rw [List.mem_singleton] at hc
        rw [hc]; exact isdigit_digitChar n h10
      · simp [parseDigits, digitChar_toNat n h10]
    · simp only [decimalFuel, h10, if_false]
      obtain ⟨_, h2, h3⟩ := ih (n / 10) (by omega)
      refine ⟨by simp, ?_, ?_⟩
      · intro c hc
        rw [List.mem_append, List.mem_singleton] at hc
        rcases hc with hc | hc
        · exact h2 c hc
        · rw [hc]; exact isdigit_digitChar _ (Nat.mod_lt _ (by decide))
      · rw [parseDigits_snoc, h3, digitChar_toNat _ (Nat.mod_lt _ (by decide))]
        omega

theorem decimal_ne_nil (n : Nat) : decimal n ≠ [] :=
  (decimalFuel_spec (n + 1) n (Nat.lt_succ_self n)).1

theorem decimal_isdigit (n : Nat) : ∀ c ∈ decimal n, isdigit c = true :=
  (decimalFuel_spec (n + 1) n (Nat.lt_succ_self n)).2.1

theorem parseDigits_decimal (n : Nat) : parseDigits (decimal n) = n :=
  (decimalFuel_spec (n + 1) n (Nat.lt_succ_self n)).2.2

/-! ## Codec: what each conversion consumes -/

theorem expect_some (lit : List Char) :
    ∀ inp r, expect lit inp = some r → inp = lit ++ r := by
  induction lit with
  | nil => intro inp r h; simp only [expect, Option.some.injEq] at h; simp [h]
  | cons c cs ih =>
    intro inp r h
    cases inp with
    | nil => simp [expect] at h
    | cons i inp =>
      by_cases hci : c = i
      · simp only [expect, hci, if_true] at h
        rw [hci, ih inp r h]; rfl
      · simp [expect, hci] at h

theorem expect_append (lit r : List Char) : expect lit (lit ++ r) = some r := by
  induction lit with
  | nil => cases r <;> rfl
  | cons c cs ih => simp [expect, ih]

theorem scanSet15_some (inp m r : List Char) (h : scanSet15 inp = some (m, r)) :
    inp = m ++ r ∧ m ≠ [] ∧ m.length ≤ 15 ∧ DQUOTE ∉ m := by
  unfold scanSet15 at h
  simp only at h
  split at h
  · exact absurd h (by simp)
  · rename_i hne
    simp only [Option.some.injEq, Prod.mk.injEq] at h
    obtain ⟨hm, hr⟩ := h
    have hpre : m <+: inp := by
      rw [← hm]
      exact (List.take_prefix _ _).trans (List.takeWhile_prefix _)
    obtain ⟨t, ht⟩ := hpre
    refine ⟨?_, by rw [← hm]; exact hne, ?_, ?_⟩
    · rw [← hr, hm, ← ht, List.drop_left]
    · rw [← hm]; simp [List.length_take]
    · intro hq
      rw [← hm] at hq
      have := List.mem_takeWhile_imp (List.mem_of_mem_take hq)
      simp at this

theorem takeSign_some (s : List Char) :
    ∃ sg, s = sg ++ (takeSign s).2 ∧ IsSign sg := by
  cases s with
  | nil => exact ⟨[], rfl, Or.inl rfl⟩
  | cons c t =>
    by_cases h1 : c = '-'
    · exact ⟨['-'], by simp [takeSign, h1], Or.inr (Or.inl rfl)⟩
    · by_cases h2 : c = '+'
      · refine ⟨['+'], ?_, Or.inr (Or.inr rfl)⟩
        simp only [takeSign, h2]; rfl
      · exact ⟨[], by simp [takeSign, h1, h2], Or.inl rfl⟩

theorem scanLlu_some (inp : List Char) (v : Nat) (r : List Char)
    (h : scanLlu inp = some (v, r)) :
    ∃ tok, inp = tok ++ r ∧ IntegerToken tok := by
  unfold scanLlu at h
  obtain ⟨sg, hsg, hs⟩ := takeSign_some (inp.dropWhile isspace)
  cases hts : takeSign (inp.dropWhile isspace) with
  | mk neg s1 =>
    rw [hts] at hsg
    simp only [hts] at h
    split at h
    · exact absurd h (by simp)
    · rename_i hne
      simp only [Option.some.injEq, Prod.mk.injEq] at h
      refine ⟨inp.takeWhile isspace ++ sg ++ s1.takeWhile isdigit, ?_,
        inp.takeWhile isspace, sg, s1.takeWhile isdigit, rfl, ?_, hs, hne, ?_⟩
      · rw [← h.2, List.append_assoc, List.append_assoc, List.takeWhile_append_dropWhile,
          ← hsg, List.takeWhile_append_dropWhile]
      · intro c hc; exact List.mem_takeWhile_imp hc
      · intro c hc; exact List.mem_takeWhile_imp hc

theorem scanMantissa_spec (isd : Char → Bool) (inp ip fp r : List Char) (dot : Bool)
    (h : scanMantissa isd inp = (ip, dot, fp, r)) :
    inp = (ip ++ (if dot then ['.'] else []) ++ fp) ++ r ∧
      (∀ c ∈ ip, isd c = true) ∧ (∀ c ∈ fp, isd c = true) := by
  have hsplit := List.takeWhile_append_dropWhile isd inp
  have hip : ∀ c ∈ inp.takeWhile isd, isd c = true := fun c hc => List.mem_takeWhile_imp hc
  unfold scanMantissa at h
  cases hd : inp.dropWhile isd with
  | nil =>
    rw [hd] at h hsplit
    simp only [Prod.mk.injEq] at h
    obtain ⟨h1, h2, h3, h4⟩ := h
    subst h1 h2 h3 h4
    exact ⟨by simpa using hsplit.symm, hip, by simp⟩
  | cons c t =>
    rw [hd] at h hsplit
    have hsplit2 := List.takeWhile_append_dropWhile isd t
    have hfp : ∀ c ∈ t.takeWhile isd, isd c = true := fun c hc => List.mem_takeWhile_imp hc
    by_cases hc : c = '.'
    · simp only [hc, if_true, Prod.mk.injEq] at h
      obtain ⟨h1, h2, h3, h4⟩ := h
      subst h1 h2 h3 h4
      refine ⟨?_, hip, hfp⟩
      simp only [if_true, List.append_assoc, List.singleton_append, List.cons_append, hsplit2]
      rw [← hc]; exact hsplit.symm
    · simp only [hc, if_false, Prod.mk.injEq] at h
      obtain ⟨h1, h2, h3, h4⟩ := h
      subst h1 h2 h3 h4
      exact ⟨by simpa using hsplit.symm, hip, by simp⟩

theorem isMantissa_of_parts (isd : Char → Bool) (ip fp : List Char) (dot : Bool)
    (h1 : ∀ c ∈ ip, isd c = true) (h2 : ∀ c ∈ fp, isd c = true) :
    IsMantissa isd (ip ++ (if dot then ['.'] else []) ++ fp) := by
  refine ⟨ip, fp, ?_, h1, h2⟩
  cases dot
  · left; simp
  · right; simp

theorem scanExponent_spec (marker : Char) (inp : List Char) :
    ∃ ex, inp = ex ++ (scanExponent marker inp).2 ∧ IsExponent marker ex := by
  cases inp with
  | nil => exact ⟨[], rfl, Or.inl rfl⟩
  | cons c t =>
    by_cases hm : tolower c = marker
    · obtain ⟨sg, hsg, hs⟩ := takeSign_some t
      cases hts : takeSign t with
      | mk neg t1 =>
        rw [hts] at hsg
        simp only [scanExponent, hm, if_true, hts]
        refine ⟨c :: (sg ++ t1.takeWhile isdigit), ?_, Or.inr ⟨c, sg, t1.takeWhile isdigit,
          rfl, hm, hs, fun d hd => List.mem_takeWhile_imp hd⟩⟩
        simp only at hsg
        rw [List.cons_append, List.append_assoc, List.takeWhile_append_dropWhile, ← hsg]
    · exact ⟨[], by simp [scanExponent, hm], Or.inl rfl⟩

theorem scanDec_some (neg : Bool) (inp : List Char) (v : Nat) (r : List Char)
    (h : scanDec neg inp = some (v, r)) :
    ∃ m ex, inp = (m ++ ex) ++ r ∧ IsMantissa isdigit m ∧ (∃ c ∈ m, isdigit c = true) ∧
      IsExponent 'e' ex := by
  unfold scanDec at h
  rcases hm : scanMantissa isdigit inp with ⟨ip, dot, fp, r1⟩
  obtain ⟨h1, h2, h3⟩ := scanMantissa_spec isdigit inp ip fp r1 dot hm
  rw [hm] at h
  simp only at h
  split at h
  · exact absurd h (by simp)
  · rename_i hne
    obtain ⟨ex, hex, hie⟩ := scanExponent_spec 'e' r1
    rcases he : scanExponent 'e' r1 with ⟨x, r2⟩
    rw [he] at h hex
    simp only [Option.some.injEq, Prod.mk.injEq] at h
    obtain ⟨_, hr⟩ := h
    subst hr
    refine ⟨_, ex, ?_, isMantissa_of_parts isdigit ip fp dot h2 h3, ?_, hie⟩
    · rw [List.append_assoc, ← hex]; exact h1
    · simp only [not_and_or] at hne
      rcases hne with hne | hne
      · obtain ⟨c, t, hct⟩ := List.exists_cons_of_ne_nil hne
        exact ⟨c, by rw [hct]; simp, h2 c (by rw [hct]; simp)⟩
      · obtain ⟨c, t, hct⟩ := List.exists_cons_of_ne_nil hne
        exact ⟨c, by rw [hct]; simp, h3 c (by rw [hct]; simp)⟩

theorem scanHex_some (neg : Bool) (inp : List Char) (v : Nat) (r : List Char)
    (h : scanHex neg inp = some (v, r)) :
    ∃ m ex, inp = (m ++ ex) ++ r ∧ IsMantissa isxdigit m ∧ m ≠ [] ∧ IsExponent 'p' ex := by
  unfold scanHex at h
  rcases hm : scanMantissa isxdigit inp with ⟨ip, dot, fp, r1⟩
  obtain ⟨h1, h2, h3⟩ := scanMantissa_spec isxdigit inp ip fp r1 dot hm
  rw [hm] at h
  simp only at h
  split at h
  · rename_i hnil
    cases dot with
    | false => simp at h
    | true =>
      simp only [if_true, Option.some.injEq, Prod.mk.injEq] at h
      obtain ⟨_, hr⟩ := h
      subst hr
      exact ⟨_, [], by simpa using h1, isMantissa_of_parts isxdigit ip fp true h2 h3,
        by simp, Or.inl rfl⟩
  · rename_i hne
    obtain ⟨ex, hex, hie⟩ := scanExponent_spec 'p' r1
    rcases he : scanExponent 'p' r1 with ⟨x, r2⟩
    rw [he] at h hex
    simp only [Option.some.injEq, Prod.mk.injEq] at h
    obtain ⟨_, hr⟩ := h
    subst hr
    refine ⟨_, ex, ?_, isMantissa_of_parts isxdigit ip fp dot h2 h3, ?_, hie⟩
    · rw [List.append_assoc, ← hex]; exact h1
    · intro hnil
      apply hne
      simp only [List.append_eq_nil] at hnil
      exact ⟨hnil.1.1, hnil.2⟩

theorem isHexPrefix_some (inp : List Char) (h : isHexPrefix inp = true) :
    ∃ x, inp = '0' :: x :: inp.drop 2 ∧ tolower x = 'x' := by
  match inp, h with
  | c0 :: x :: t, h =>
    simp only [isHexPrefix, Bool.and_eq_true, beq_iff_eq] at h
    exact ⟨x, by rw [h.1]; rfl, h.2⟩

theorem scanNumber_some (neg : Bool) (inp : List Char) (v : Nat) (r : List Char)
    (h : scanNumber neg inp = some (v, r)) :
    ∃ body, inp = body ++ r ∧ NumberBody body := by
  unfold scanNumber at h
  split at h
  · rename_i hx
    obtain ⟨x, hinp, hxx⟩ := isHexPrefix_some inp hx
    obtain ⟨m, ex, h1, h2, h3, h4⟩ := scanHex_some neg _ v r h
    refine ⟨'0' :: x :: (m ++ ex), ?_, Or.inr (Or.inr (Or.inr (Or.inr
      ⟨x, m, ex, rfl, hxx, h2, h3, h4⟩)))⟩
    rw [hinp, List.cons_append, List.cons_append, ← h1]
  · obtain ⟨m, ex, h1, h2, h3, h4⟩ := scanDec_some neg inp v r h
    exact ⟨m ++ ex, h1, Or.inr (Or.inr (Or.inr (Or.inl ⟨m, ex, rfl, h2, h3, h4⟩)))⟩

theorem take_of_expect (lit t r : List Char)
    (h : expect lit (t.map tolower) = some r) :
    (t.take lit.length).map tolower = lit := by
  have h1 := expect_some lit _ r h
  rw [List.map_take, h1, List.take_left]

theorem scanLf_some (inp : List Char) (v : Nat) (r : List Char)
    (h : scanLf inp = some (v, r)) :
    ∃ tok, inp = tok ++ r ∧ NumberToken tok := by
  have hws : ∀ c ∈ inp.takeWhile isspace, isspace c = true :=
    fun c hc => List.mem_takeWhile_imp hc
  have hsplit := List.takeWhile_append_dropWhile isspace inp
  obtain ⟨sg, hsg, hs⟩ := takeSign_some (inp.dropWhile isspace)
  -- it suffices to find the body after white space and sign
  suffices hbody : ∃ body, (takeSign (inp.dropWhile isspace)).2 = body ++ r ∧ NumberBody body by
    obtain ⟨body, hb1, hb2⟩ := hbody
    refine ⟨inp.takeWhile isspace ++ sg ++ body, ?_, _, sg, body, rfl, hws, hs, hb2⟩
    simp only [List.append_assoc]
    rw [← hb1, ← hsg, hsplit]
  unfold scanLf at h
  rcases hts : takeSign (inp.dropWhile isspace) with ⟨neg, s1⟩
  simp only [hts] at h ⊢
  cases s1 with
  | nil => simp at h
  | cons c t =>
    simp only at h
    have htd := List.take_append_drop 2 t
    split at h
    · -- nan
      rename_i hn
      cases he : expect ['a', 'n'] (t.map tolower) with
      | none => rw [he] at h; simp at h
      | some r' =>
        rw [he] at h
        simp only [Option.some.injEq, Prod.mk.injEq] at h
        have htk := take_of_expect _ t r' he
        refine ⟨c :: t.take 2, ?_, Or.inl ?_⟩
        · rw [← h.2, List.cons_append, htd]
        · rw [List.map_cons, hn]
          exact congrArg _ htk
    · split at h
      · -- inf
        rename_i hi
        cases he : expect ['n', 'f'] (t.map tolower) with
        | none => rw [he] at h; simp at h
        | some r' =>
          rw [he] at h
          simp only at h
          have htk := take_of_expect _ t r' he
          have hinf : (c :: t.take 2).map tolower = ['i', 'n', 'f'] := by
            rw [List.map_cons, hi]
            exact congrArg _ htk
          cases hd : t.drop 2 with
          | nil =>
            rw [hd] at h
            simp only [Option.some.injEq, Prod.mk.injEq] at h
            refine ⟨c :: t.take 2, ?_, Or.inr (Or.inl hinf)⟩
            rw [← h.2, List.cons_append, ← hd, htd]
          | cons c1 t1 =>
            rw [hd] at h
            simp only at h
            split at h
            · rename_i hi2
              cases he2 : expect ['n', 'i', 't', 'y'] (t1.map tolower) with
              | none => rw [he2] at h; simp at h
              | some r'' =>
                rw [he2] at h
                simp only [Option.some.injEq, Prod.mk.injEq] at h
                have htk2 := take_of_expect _ t1 r'' he2
                refine ⟨c :: (t.take 2 ++ c1 :: t1.take 4), ?_, Or.inr (Or.inr (Or.inl ?_))⟩
                · rw [← h.2, List.cons_append, List.append_assoc, List.cons_append,
                    List.take_append_drop, ← hd, htd]
                · rw [List.map_cons, List.map_append, List.map_cons, hi, hi2]
                  have e1 : List.map tolower (List.take 2 t) = ['n', 'f'] := htk
                  have e2 : List.map tolower (List.take 4 t1) = ['n', 'i', 't', 'y'] := htk2
                  rw [e1, e2]
                  rfl
            · simp only [Option.some.injEq, Prod.mk.injEq] at h
              refine ⟨c :: t.take 2, ?_, Or.inr (Or.inl hinf)⟩
              rw [← h.2, List.cons_append, ← hd, htd]
      · exact scanNumber_some neg (c :: t) v r h

theorem sscanf_frame_some (inp : List Char) (res : List Char × Nat × Nat × Nat)
    (h : sscanf_frame inp = some res) : RelaxedFrame inp := by
  unfold sscanf_frame at h
  cases h0 : expect LIT_OPEN inp with
  | none => rw [h0] at h; simp at h
  | some r0 =>
  rw [h0] at h; simp only at h
  cases h1 : scanSet15 r0 with
  | none => rw [h1] at h; simp at h
  | some p1 =>
  obtain ⟨instrument, r1⟩ := p1
  rw [h1] at h; simp only at h
  cases h2 : expect LIT_BID r1 with
  | none => rw [h2] at h; simp at h
  | some r2 =>
  rw [h2] at h; simp only at h
  cases h3 : scanLf r2 with
  | none => rw [h3] at h; simp at h
  | some p3 =>
  obtain ⟨bid, r3⟩ := p3
  rw [h3] at h; simp only at h
  cases h4 : expect LIT_ASK r3 with
  | none => rw [h4] at h; simp at h
  | some r4 =>
  rw [h4] at h; simp only at h
  cases h5 : scanLf r4 with
  | none => rw [h5] at h; simp at h
  | some p5 =>
  obtain ⟨ask, r5⟩ := p5
  rw [h5] at h; simp only at h
  cases h6 : expect LIT_TS r5 with
  | none => rw [h6] at h; simp at h
  | some r6 =>
  rw [h6] at h; simp only at h
  cases h7 : scanLlu r6 with
  | none => rw [h7] at h; simp at h
  | some p7 =>
  obtain ⟨ts, r7⟩ := p7
  obtain ⟨e1, e2, e3, e4⟩ := scanSet15_some r0 instrument r1 h1
  obtain ⟨b, eb, hb⟩ := scanLf_some r2 bid r3 h3
  obtain ⟨a, ea, ha⟩ := scanLf_some r4 ask r5 h5
  obtain ⟨t, et, ht⟩ := scanLlu_some r6 ts r7 h7
  refine ⟨instrument, b, a, t, r7, ?_, e2, e3, e4, hb, ha, ht⟩
  rw [expect_some _ _ _ h0, e1, expect_some _ _ _ h2, eb, expect_some _ _ _ h4, ea,
    expect_some _ _ _ h6, et]
  simp only [List.append_assoc]

/-! ## Codec: decoding -/

theorem from_json_true (json : List Char) (data : MarketData)
    (h : (from_json json data).1 = true) : RelaxedFrame (c_str json) := by
  unfold from_json at h
  cases hs : sscanf_frame (c_str json) with
  | none => rw [hs] at h; simp at h
  | some res => exact sscanf_frame_some _ res hs

theorem from_json_false (json : List Char) (data : MarketData)
    (h : (from_json json data).1 = false) : from_json json data = (false, data) := by
  unfold from_json at h ⊢
  cases hs : sscanf_frame (c_str json) with
  | none => rfl
  | some res => rw [hs] at h; simp at h

theorem c_str_append (json : List Char) :
    json = c_str json ++ json.dropWhile (fun c => c != NUL) :=
  (List.takeWhile_append_dropWhile _ json).symm

theorem keysInOrder_of_true (json : List Char) (data : MarketData)
    (h : (from_json json data).1 = true) : KeysInOrder json := by
  obtain ⟨i, b, a, t, rest, hl, _⟩ := from_json_true json data h
  refine ⟨i, b, a, t ++ rest ++ json.dropWhile (fun c => c != NUL), ?_⟩
  conv_lhs => rw [c_str_append json, hl]
  simp only [List.append_assoc]

theorem hasTimestampField_of_true (json : List Char) (data : MarketData)
    (h : (from_json json data).1 = true) : HasTimestampField json := by
  obtain ⟨i, b, a, t, rest, hl, _, _, _, _, _, ht⟩ := from_json_true json data h
  refine ⟨LIT_OPEN ++ i ++ LIT_BID ++ b ++ LIT_ASK ++ a ++ [','], t,
    rest ++ json.dropWhile (fun c => c != NUL), ?_, ht⟩
  conv_lhs => rw [c_str_append json, hl]
  have : LIT_TS = [','] ++ KEY_TS ++ [':'] := by decide
  rw [this]
  simp only [List.append_assoc, List.singleton_append, List.cons_append, List.nil_append]

theorem key_ts_of_hasTimestampField (json : List Char) (h : HasTimestampField json) :
    KEY_TS <:+: json := by
  obtain ⟨pre, t, rest, hl, _⟩ := h
  exact ⟨pre, ':' :: (t ++ rest), hl.symm⟩

/-- Claim C7. A line that lacks the `timestamp_ns` field (the key is absent, or
no integer follows it), or whose keys are not in the order instrument, bid,
ask, timestamp_ns, makes `from_json` return false; and whenever `from_json`
returns false the output record is exactly what it was before the call. -/
theorem from_json_reject_atomic (json : List Char) (data : MarketData) :
    (¬ KEY_TS <:+: json → (from_json json data).1 = false) ∧
    (¬ HasTimestampField json → (from_json json data).1 = false) ∧
    (¬ KeysInOrder json → (from_json json data).1 = false) ∧
    ((from_json json data).1 = false → (from_json json data).2 = data) := by
  have hts : ¬ HasTimestampField json → (from_json json data).1 = false := by
    intro hk
    cases hf : (from_json json data).1 with
    | false => rfl
    | true => exact absurd (hasTimestampField_of_true json data hf) hk
  refine ⟨?_, hts, ?_, ?_⟩
  · intro hk
    exact hts (fun h => hk (key_ts_of_hasTimestampField json h))
  · intro hk
    cases hf : (from_json json data).1 with
    | false => rfl
    | true => exact absurd (keysInOrder_of_true json data hf) hk
  · intro hf
    rw [from_json_false json data hf]

theorem line_swapped_not_in_order : ¬ KeysInOrder LINE_SWAPPED := by
  rintro ⟨i, b, a, t, h⟩
  have h2 := congrArg (fun l => l.take 3) h
  simp [LINE_SWAPPED, LIT_OPEN] at h2

set_option maxRecDepth 100000 in
/-- Witness for C7: a frame without timestamp and a frame with exchanged
fields are rejected, and the output record keeps its old contents. -/
theorem from_json_reject_atomic_witness :
    ¬ KEY_TS <:+: LINE_NO_TS ∧ ¬ KeysInOrder LINE_SWAPPED ∧
    (from_json LINE_NO_TS (MarketData.make "TCS".toList 5 6 7)).1 = false ∧
    (from_json LINE_SWAPPED (MarketData.make "TCS".toList 5 6 7)).1 = false ∧
    (from_json LINE_NO_TS (MarketData.make "TCS".toList 5 6 7)).2
      = MarketData.make "TCS".toList 5 6 7 :=
  ⟨by decide, line_swapped_not_in_order,
   (from_json_reject_atomic LINE_NO_TS (MarketData.make "TCS".toList 5 6 7)).1 (by decide),
   (from_json_reject_atomic LINE_SWAPPED (MarketData.make "TCS".toList 5 6 7)).2.2.1
     line_swapped_not_in_order,
   (from_json_reject_atomic LINE_NO_TS (MarketData.make "TCS".toList 5 6 7)).2.2.2 (by decide)⟩

set_option maxRecDepth 100000 in
/-- Counterexample to C6 as stated: a frame followed by more text, a frame
with white space before each number and a frame with a negative timestamp are
all accepted; the last decodes to `2 ^ 64 - 1`. -/
theorem from_json_not_strict :
    (from_json LINE_TRAILING MarketData.new).1 = true ∧
    (from_json LINE_SPACED MarketData.new).1 = true ∧
    (from_json LINE_NEGATIVE MarketData.new).1 = true ∧
    (from_json LINE_NEGATIVE MarketData.new).2.timestamp_ns = 18446744073709551615 := by
  decide


/-! ## Codec: scanning what the encoder wrote -/

theorem isdigit_not_isspace (c : Char) (h : isdigit c = true) : isspace c = false := by
  simp only [isdigit, Bool.and_eq_true, decide_eq_true_eq] at h
  simp only [isspace, Bool.or_eq_false_iff, Bool.and_eq_false_iff, beq_eq_false_iff_ne,
    decide_eq_false_iff_not]
  omega

theorem isdigit_tolower (c : Char) (h : isdigit c = true) : tolower c = c := by
  simp only [isdigit, Bool.and_eq_true, decide_eq_true_eq] at h
  unfold tolower
  rw [if_neg (by omega)]

theorem isdigit_ne (c x : Char) (h : isdigit c = true) (hx : isdigit x = false) : c ≠ x := by
  intro hc
  rw [hc, hx] at h
  exact absurd h (by decide)

theorem takeWhile_append_stop (p : Char → Bool) (D t : List Char) (x : Char)
    (hD : ∀ c ∈ D, p c = true) (hx : p x = false) :
    (D ++ x :: t).takeWhile p = D := by
  induction D with
  | nil => simp [List.takeWhile, hx]
  | cons c D ih =>
    have hc : p c = true := hD c (by simp)
    simp only [List.cons_append, List.takeWhile_cons, hc, if_true]
    rw [ih (fun d hd => hD d (by simp [hd]))]

theorem dropWhile_append_stop (p : Char → Bool) (D t : List Char) (x : Char)
    (hD : ∀ c ∈ D, p c = true) (hx : p x = false) :
    (D ++ x :: t).dropWhile p = x :: t := by
  induction D with
  | nil => simp [List.dropWhile, hx]
  | cons c D ih =>
    have hc : p c = true := hD c (by simp)
    simp only [List.cons_append, List.dropWhile_cons, hc, if_true]
    rw [ih (fun d hd => hD d (by simp [hd]))]

theorem scanDec_fixed (neg : Bool) (D rest : List Char) (d1 d2 : Char)
    (hne : D ≠ []) (hD : ∀ c ∈ D, isdigit c = true)
    (h1 : isdigit d1 = true) (h2 : isdigit d2 = true) :
    scanDec neg (D ++ '.' :: d1 :: d2 :: ',' :: rest)
      = some (ratToDouble neg (parseDigits (D ++ [d1, d2])) 100, ',' :: rest) := by
  have hdot : isdigit '.' = false := by decide
  have hcomma : isdigit ',' = false := by decide
  have hm : scanMantissa isdigit (D ++ '.' :: d1 :: d2 :: ',' :: rest)
      = (D, true, [d1, d2], ',' :: rest) := by
    unfold scanMantissa
    rw [takeWhile_append_stop isdigit D _ '.' hD hdot,
      dropWhile_append_stop isdigit D _ '.' hD hdot]
    simp only [if_true]
    have e1 : (d1 :: d2 :: ',' :: rest) = [d1, d2] ++ ',' :: rest := rfl
    rw [e1, takeWhile_append_stop isdigit [d1, d2] rest ',' (by simp [h1, h2]) hcomma,
      dropWhile_append_stop isdigit [d1, d2] rest ',' (by simp [h1, h2]) hcomma]
  have he : scanExponent 'e' (',' :: rest) = (0, ',' :: rest) := by
    have : tolower ',' ≠ 'e' := by decide
    simp only [scanExponent, this, if_false]
  unfold scanDec
  rw [hm]
  simp only [hne, false_and, if_false, he]
  have hv : decValue neg (D ++ [d1, d2]) 2 0
      = ratToDouble neg (parseDigits (D ++ [d1, d2])) 100 := by
    unfold decValue
    simp only
    rw [if_neg (by decide)]
    rfl
  simp only [List.length_cons, List.length_nil, Nat.zero_add, Nat.reduceAdd]
  rw [hv]

theorem isHexPrefix_digits (D t : List Char) (hne : D ≠ [])
    (hD : ∀ c ∈ D, isdigit c = true) : isHexPrefix (D ++ '.' :: t) = false := by
  match D, hne, hD with
  | [c0], _, _ =>
    have : tolower '.' ≠ 'x' := by decide
    simp [isHexPrefix, this]
  | c0 :: c1 :: D', _, hD =>
    have h1 : isdigit c1 = true := hD c1 (by simp)
    have : tolower c1 ≠ 'x' := by
      rw [isdigit_tolower c1 h1]
      exact isdigit_ne c1 'x' h1 (by decide)
    simp [isHexPrefix, this]

theorem scanLf_fixed (neg : Bool) (D rest : List Char) (d1 d2 : Char)
    (hne : D ≠ []) (hD : ∀ c ∈ D, isdigit c = true)
    (h1 : isdigit d1 = true) (h2 : isdigit d2 = true) :
    scanLf ((if neg then ['-'] else []) ++ D ++ '.' :: d1 :: d2 :: ',' :: rest)
      = some (ratToDouble neg (parseDigits (D ++ [d1, d2])) 100, ',' :: rest) := by
  obtain ⟨c0, D', hcD⟩ := List.exists_cons_of_ne_nil hne
  have h0 : isdigit c0 = true := hD c0 (by rw [hcD]; simp)
  have hsp : isspace c0 = false := isdigit_not_isspace c0 h0
  have hm : c0 ≠ '-' := isdigit_ne c0 '-' h0 (by decide)
  have hp : c0 ≠ '+' := isdigit_ne c0 '+' h0 (by decide)
  have hn : tolower c0 ≠ 'n' := by
    rw [isdigit_tolower c0 h0]; exact isdigit_ne c0 'n' h0 (by decide)
  have hi : tolower c0 ≠ 'i' := by
    rw [isdigit_tolower c0 h0]; exact isdigit_ne c0 'i' h0 (by decide)
  have hnum : scanNumber neg (D ++ '.' :: d1 :: d2 :: ',' :: rest)
      = some (ratToDouble neg (parseDigits (D ++ [d1, d2])) 100, ',' :: rest) := by
    unfold scanNumber
    rw [isHexPrefix_digits D _ hne hD]
    simp only [Bool.false_eq_true, if_false]
    exact scanDec_fixed neg D rest d1 d2 hne hD h1 h2
  have hsm : isspace '-' = false := by decide
  rw [← hnum, hcD]
  cases neg with
  | false =>
    simp only [Bool.false_eq_true, if_false, List.nil_append, List.cons_append]
    unfold scanLf
    simp only [List.dropWhile_cons, hsp, Bool.false_eq_true, if_false, takeSign, hm, hp, hn, hi]
  | true =>
    simp only [if_true, List.cons_append, List.nil_append]
    unfold scanLf
    simp only [List.dropWhile_cons, hsm, Bool.false_eq_true, if_false, takeSign, if_true,
      hn, hi]

theorem hundredths_digits (h : Nat) :
    parseDigits (decimal (h / 100) ++ [digitChar (h / 10 % 10), digitChar (h % 10)]) = h := by
  have e : decimal (h / 100) ++ [digitChar (h / 10 % 10), digitChar (h % 10)]
      = (decimal (h / 100) ++ [digitChar (h / 10 % 10)]) ++ [digitChar (h % 10)] := by simp
  rw [e, parseDigits_snoc, parseDigits_snoc, parseDigits_decimal,
    digitChar_toNat _ (Nat.mod_lt _ (by decide)), digitChar_toNat _ (Nat.mod_lt _ (by decide))]
  omega

theorem scanLf_fmt2f (bits : Nat) (rest : List Char) :
    scanLf (fmt2f bits ++ ',' :: rest) = some (round2 bits, ',' :: rest) := by
  unfold fmt2f round2
  by_cases he : expoField bits = 2047
  · simp only [he, if_true]
    by_cases hf : fracField bits = 0
    · simp only [hf, if_true]
      cases signBit bits <;> rfl
    · simp only [hf, if_false]
      cases signBit bits <;> rfl
  · simp only [he, if_false]
    have := scanLf_fixed (signBit bits) (decimal (hundredths bits / 100)) rest
      (digitChar (hundredths bits / 10 % 10)) (digitChar (hundredths bits % 10))
      (decimal_ne_nil _) (decimal_isdigit _)
      (isdigit_digitChar _ (Nat.mod_lt _ (by decide)))
      (isdigit_digitChar _ (Nat.mod_lt _ (by decide)))
    rw [hundredths_digits] at this
    rw [← this]
    simp only [List.append_assoc, List.cons_append, List.nil_append]

theorem scanLlu_decimal (ts : Nat) (rest : List Char) (hts : ts < 2 ^ 64) :
    scanLlu (decimal ts ++ '\x7d' :: rest) = some (ts, '\x7d' :: rest) := by
  obtain ⟨c0, D', hcD⟩ := List.exists_cons_of_ne_nil (decimal_ne_nil ts)
  have hD := decimal_isdigit ts
  have h0 : isdigit c0 = true := hD c0 (by rw [hcD]; simp)
  have hsp : isspace c0 = false := isdigit_not_isspace c0 h0
  have hm : c0 ≠ '-' := isdigit_ne c0 '-' h0 (by decide)
  have hp : c0 ≠ '+' := isdigit_ne c0 '+' h0 (by decide)
  have hb : isdigit '\x7d' = false := by decide
  have htk := takeWhile_append_stop isdigit (decimal ts) rest '\x7d' hD hb
  have hdr := dropWhile_append_stop isdigit (decimal ts) rest '\x7d' hD hb
  have hsign : takeSign ((decimal ts ++ '\x7d' :: rest).dropWhile isspace)
      = (false, decimal ts ++ '\x7d' :: rest) := by
    rw [hcD]
    simp only [List.cons_append, List.dropWhile_cons, hsp, Bool.false_eq_true, if_false,
      takeSign, hm, hp]
  unfold scanLlu
  simp only [hsign, htk, hdr, decimal_ne_nil, if_false, parseDigits_decimal]
  rw [if_neg (by omega)]
  simp

theorem scanSet15_fixed (instr rest : List Char) (hne : instr ≠ [])
    (hlen : instr.length ≤ 15) (hq : DQUOTE ∉ instr) :
    scanSet15 (instr ++ DQUOTE :: rest) = some (instr, DQUOTE :: rest) := by
  have hall : ∀ c ∈ instr, (fun c => c != DQUOTE) c = true := by
    intro c hc
    simp only [bne_iff_ne, ne_eq]
    intro h; exact hq (h ▸ hc)
  have htk := takeWhile_append_stop (fun c => c != DQUOTE) instr rest DQUOTE hall (by simp)
  unfold scanSet15
  simp only [htk, List.take_of_length_le hlen, hne, if_false, List.drop_left]

/-! ## Codec: round trip -/

theorem isdigit_ne_nul (c : Char) (h : isdigit c = true) : c ≠ NUL :=
  isdigit_ne c NUL h (by decide)

theorem fmt2f_no_nul (bits : Nat) : ∀ c ∈ fmt2f bits, c ≠ NUL := by
  intro c hc
  unfold fmt2f at hc
  have hsign : ∀ c ∈ (if signBit bits then ['-'] else [] : List Char), c ≠ NUL := by
    intro c hc
    by_cases hs : signBit bits = true
    · simp only [hs, if_true, List.mem_singleton] at hc
      rw [hc]; decide
    · simp [hs] at hc
  by_cases he : expoField bits = 2047
  · simp only [he, if_true, List.mem_append] at hc
    rcases hc with hc | hc
    · exact hsign c hc
    · by_cases hf : fracField bits = 0
      · simp only [hf, if_true] at hc
        revert c; decide
      · simp only [hf, if_false] at hc
        revert c; decide
  · simp only [he, if_false, List.mem_append, List.mem_cons, List.mem_singleton,
      List.not_mem_nil, or_false] at hc
    rcases hc with (hc | hc) | hc | hc | hc
    · exact hsign c hc
    · exact isdigit_ne_nul c (decimal_isdigit _ c hc)
    · rw [hc]; decide
    · rw [hc]; exact isdigit_ne_nul _ (isdigit_digitChar _ (Nat.mod_lt _ (by decide)))
    · rw [hc]; exact isdigit_ne_nul _ (isdigit_digitChar _ (Nat.mod_lt _ (by decide)))

theorem frame_no_nul (instr : List Char) (r : MarketData) (hi : NUL ∉ instr) :
    ∀ c ∈ frame instr r, c ≠ NUL := by
  intro c hc
  unfold frame at hc
  simp only [List.mem_append] at hc
  have hlit : ∀ l : List Char, (∀ c ∈ l, c ≠ NUL) → c ∈ l → c ≠ NUL := fun l h hc => h c hc
  rcases hc with (((((((hc | hc) | hc) | hc) | hc) | hc) | hc) | hc) | hc
  · exact hlit LIT_OPEN (by decide) hc
  · intro h; exact hi (h ▸ hc)
  · exact hlit LIT_BID (by decide) hc
  · exact fmt2f_no_nul _ c hc
  · exact hlit LIT_ASK (by decide) hc
  · exact fmt2f_no_nul _ c hc
  · exact hlit LIT_TS (by decide) hc
  · exact isdigit_ne_nul c (decimal_isdigit _ c hc)
  · exact hlit LIT_CLOSE (by decide) hc

theorem takeWhile_no_nul (l : List Char) (h : ∀ c ∈ l, c ≠ NUL) :
    l.takeWhile (fun c => c != NUL) = l := by
  rw [List.takeWhile_eq_self_iff]
  intro c hc
  simpa using h c hc

theorem cstr_some (field instr : List Char) (h : cstr field = some instr) :
    NUL ∉ instr ∧ instr.length < field.length ∧
      instr = field.takeWhile (fun c => c != NUL) := by
  unfold cstr at h
  split at h
  · rename_i hmem
    simp only [Option.some.injEq] at h
    refine ⟨?_, ?_, h.symm⟩
    · rw [← h]
      intro hn
      have := List.mem_takeWhile_imp hn
      simp at this
    · rw [← h]
      rcases Nat.lt_or_ge (field.takeWhile (fun c => c != NUL)).length field.length with hl | hl
      · exact hl
      · exfalso
        have hpre : field.takeWhile (fun c => c != NUL) <+: field := List.takeWhile_prefix _
        have heq := hpre.eq_of_length_le hl
        rw [← heq] at hmem
        have := List.mem_takeWhile_imp hmem
        simp at this
  · exact absurd h (by simp)

theorem strncpy15_short (instr : List Char) (hn : NUL ∉ instr) (hlen : instr.length ≤ 15) :
    strncpy15 instr = instr ++ List.replicate (16 - instr.length) NUL := by
  unfold strncpy15
  simp only
  rw [takeWhile_no_nul instr (fun c hc h => hn (h ▸ hc)), List.take_of_length_le hlen]

theorem sscanf_frame_frame_append (instr extra : List Char) (r : MarketData)
    (hne : instr ≠ []) (hlen : instr.length ≤ 15) (hq : DQUOTE ∉ instr)
    (hts : r.timestamp_ns < 2 ^ 64) :
    sscanf_frame (frame instr r ++ extra)
      = some (instr, round2 r.bid, round2 r.ask, r.timestamp_ns) := by
  have eB : ∀ X, LIT_BID ++ X = DQUOTE :: (LIT_BID.tail ++ X) := fun _ => rfl
  have eA : ∀ X, LIT_ASK ++ X = ',' :: (LIT_ASK.tail ++ X) := fun _ => rfl
  have eT : ∀ X, LIT_TS ++ X = ',' :: (LIT_TS.tail ++ X) := fun _ => rfl
  have eC : ∀ X, LIT_CLOSE ++ X = '\x7d' :: X := fun _ => rfl
  have s1 : ∀ X, scanSet15 (instr ++ (LIT_BID ++ X)) = some (instr, LIT_BID ++ X) := by
    intro X; rw [eB]; exact scanSet15_fixed instr _ hne hlen hq
  have s2 : ∀ b X, scanLf (fmt2f b ++ (LIT_ASK ++ X)) = some (round2 b, LIT_ASK ++ X) := by
    intro b X; rw [eA]; exact scanLf_fmt2f b _
  have s3 : ∀ b X, scanLf (fmt2f b ++ (LIT_TS ++ X)) = some (round2 b, LIT_TS ++ X) := by
    intro b X; rw [eT]; exact scanLf_fmt2f b _
  have s4 : ∀ X, scanLlu (decimal r.timestamp_ns ++ (LIT_CLOSE ++ X))
      = some (r.timestamp_ns, LIT_CLOSE ++ X) := by
    intro X; rw [eC]; exact scanLlu_decimal _ _ hts
  unfold frame sscanf_frame
  simp only [List.append_assoc, expect_append, s1, s2, s3, s4]

theorem sscanf_frame_frame (instr : List Char) (r : MarketData) (hne : instr ≠ [])
    (hlen : instr.length ≤ 15) (hq : DQUOTE ∉ instr) (hts : r.timestamp_ns < 2 ^ 64) :
    sscanf_frame (frame instr r)
      = some (instr, round2 r.bid, round2 r.ask, r.timestamp_ns) := by
  have := sscanf_frame_frame_append instr [] r hne hlen hq hts
  rwa [List.append_nil] at this

theorem c_str_frame_append (instr extra : List Char) (r : MarketData) (hn : NUL ∉ instr) :
    c_str (frame instr r ++ extra) = frame instr r ++ c_str extra := by
  unfold c_str
  rw [List.takeWhile_append, takeWhile_no_nul _ (frame_no_nul instr r hn)]
  simp

theorem from_json_frame_append (instr extra : List Char) (r data : MarketData)
    (hne : instr ≠ []) (hlen : instr.length ≤ 15) (hq : DQUOTE ∉ instr) (hn : NUL ∉ instr)
    (hts : r.timestamp_ns < 2 ^ 64) :
    from_json (frame instr r ++ extra) data
      = (true, MarketData.mk (strncpy15 instr) (round2 r.bid) (round2 r.ask)
          r.timestamp_ns) := by
  unfold from_json
  rw [c_str_frame_append instr extra r hn,
    sscanf_frame_frame_append instr (c_str extra) r hne hlen hq hts]

set_option maxRecDepth 100000 in
set_option exponentiation.threshold 2000 in
/-- Counterexample to C5 as stated: the default-constructed record encodes to
a frame with an empty instrument, and decoding that frame fails. -/
theorem codec_round_trip_fails_on_empty_instrument :
    to_json MarketData.new = some FRAME_EMPTY ∧
    from_json FRAME_EMPTY MarketData.new = (false, MarketData.new) := by
  decide

/-- Claim C5, amended. For every Tick Record whose 16-byte instrument field
holds a zero byte, with a non-empty instrument free of double quotes before
it, a timestamp below `2 ^ 64` and a frame shorter than 256 characters,
`to_json` returns the frame and `from_json` of it succeeds, yielding the same
instrument (at most 15 characters, zero padded), bid and ask rounded to two
decimal places, and the same timestamp. -/
theorem codec_round_trip (r data : MarketData) (instr : List Char)
    (hfield : r.instrument.length = 16)
    (hz : cstr r.instrument = some instr)
    (hne : instr ≠ []) (hq : DQUOTE ∉ instr)
    (hts : r.timestamp_ns < 2 ^ 64)
    (hlen : (frame instr r).length < 256) :
    ∃ json out, to_json r = some json ∧ from_json json data = (true, out) ∧
      instr.length ≤ 15 ∧
      out.instrument = instr ++ List.replicate (16 - instr.length) NUL ∧
      cstr out.instrument = cstr r.instrument ∧
      out.bid = round2 r.bid ∧ out.ask = round2 r.ask ∧
      out.timestamp_ns = r.timestamp_ns := by
  obtain ⟨hn, hl, _⟩ := cstr_some r.instrument instr hz
  have hl15 : instr.length ≤ 15 := by omega
  have hc : c_str (frame instr r) = frame instr r :=
    takeWhile_no_nul _ (frame_no_nul instr r hn)
  have hpad := strncpy15_short instr hn hl15
  refine ⟨frame instr r,
    MarketData.mk (strncpy15 instr) (round2 r.bid) (round2 r.ask) r.timestamp_ns,
    ?_, ?_, hl15, hpad, ?_, rfl, rfl, rfl⟩
  · unfold to_json
    simp only [hz, hlen, if_true]
  · unfold from_json
    rw [hc, sscanf_frame_frame instr r hne hl15 hq hts]
  · show cstr (strncpy15 instr) = cstr r.instrument
    rw [hz, hpad]
    unfold cstr
    have hmem : NUL ∈ instr ++ List.replicate (16 - instr.length) NUL := by
      apply List.mem_append_right
      rw [List.mem_replicate]
      exact ⟨by omega, rfl⟩
    rw [if_pos hmem]
    have hrep : List.replicate (16 - instr.length) NUL
        = NUL :: List.replicate (15 - instr.length) NUL := by
      have : 16 - instr.length = (15 - instr.length) + 1 := by omega
      rw [this, List.replicate_succ]
    have hall : ∀ c ∈ instr, (fun c => c != NUL) c = true := by
      intro c hc
      simp only [bne_iff_ne, ne_eq]
      intro h; exact hn (h ▸ hc)
    rw [hrep, takeWhile_append_stop (fun c => c != NUL) instr _ NUL hall (by simp)]

set_option maxRecDepth 100000 in
set_option exponentiation.threshold 2000 in
/-- Witness for C5 (amended): the record RELIANCE, 2850.123, 2850.456,
123456789 decodes to bid 2850.12, ask 2850.46, timestamp 123456789. -/
theorem codec_round_trip_witness :
    round2 REC_RELIANCE.bid = 0x40a6443d70a3d70a ∧
    round2 REC_RELIANCE.ask = 0x40a644eb851eb852 ∧
    ∃ json out, to_json REC_RELIANCE = some json ∧
      from_json json MarketData.new = (true, out) ∧
      "RELIANCE".toList.length ≤ 15 ∧
      out.instrument = "RELIANCE".toList ++ List.replicate (16 - "RELIANCE".toList.length) NUL ∧
      cstr out.instrument = cstr REC_RELIANCE.instrument ∧
      out.bid = round2 REC_RELIANCE.bid ∧ out.ask = round2 REC_RELIANCE.ask ∧
      out.timestamp_ns = REC_RELIANCE.timestamp_ns :=
  ⟨by decide, by decide,
   codec_round_trip REC_RELIANCE MarketData.new "RELIANCE".toList
     (by decide) (by decide) (by decide) (by decide) (by decide) (by decide)⟩

set_option maxRecDepth 100000 in
set_option exponentiation.threshold 2000 in
/-- Claim C8, failing input. For a record whose bid is the largest finite
double the frame is 383 characters long, more than the 256-byte buffer holds,
and `to_json` reads outside the buffer instead of returning the frame. -/
theorem to_json_long_frame :
    cstr REC_HUGE.instrument = some "RELIANCE".toList ∧
    (frame "RELIANCE".toList REC_HUGE).length = 383 ∧
    to_json REC_HUGE = none := by
  decide

/-! ## Codec: white space and signs in an accepted frame -/

theorem dropWhile_space_append (ws X : List Char) (h : ∀ c ∈ ws, isspace c = true) :
    (ws ++ X).dropWhile isspace = X.dropWhile isspace := by
  induction ws with
  | nil => rfl
  | cons c ws ih =>
    have hc : isspace c = true := h c (by simp)
    simp only [List.cons_append, List.dropWhile_cons, hc, if_true]
    exact ih (fun d hd => h d (by simp [hd]))

theorem scanLf_space (ws X : List Char) (h : ∀ c ∈ ws, isspace c = true) :
    scanLf (ws ++ X) = scanLf X := by
  unfold scanLf
  simp only [dropWhile_space_append ws X h]

theorem scanLlu_space (ws X : List Char) (h : ∀ c ∈ ws, isspace c = true) :
    scanLlu (ws ++ X) = scanLlu X := by
  unfold scanLlu
  simp only [dropWhile_space_append ws X h]

theorem scanLlu_signed (sg ds rest : List Char) (hs : IsSign sg) (hne : ds ≠ [])
    (hD : ∀ c ∈ ds, isdigit c = true) :
    scanLlu (sg ++ ds ++ '\x7d' :: rest) = some (integerValue sg ds, '\x7d' :: rest) := by
  obtain ⟨c0, D', hcD⟩ := List.exists_cons_of_ne_nil hne
  have h0 : isdigit c0 = true := hD c0 (by rw [hcD]; simp)
  have hsp : isspace c0 = false := isdigit_not_isspace c0 h0
  have hm : c0 ≠ '-' := isdigit_ne c0 '-' h0 (by decide)
  have hp : c0 ≠ '+' := isdigit_ne c0 '+' h0 (by decide)
  have hb : isdigit '\x7d' = false := by decide
  have htk := takeWhile_append_stop isdigit ds rest '\x7d' hD hb
  have hdr := dropWhile_append_stop isdigit ds rest '\x7d' hD hb
  have hsign : takeSign ((sg ++ ds ++ '\x7d' :: rest).dropWhile isspace)
      = (decide (sg = ['-']), ds ++ '\x7d' :: rest) := by
    rcases hs with rfl | rfl | rfl
    · rw [hcD]
      simp only [List.nil_append, List.cons_append, List.dropWhile_cons, hsp,
        Bool.false_eq_true, if_false, takeSign, hm, hp]
      simp
    · have : isspace '-' = false := by decide
      simp only [List.cons_append, List.nil_append, List.dropWhile_cons, this,
        Bool.false_eq_true, if_false, takeSign, if_true]
      simp
    · have : isspace '+' = false := by decide
      have hpm : ('+' : Char) ≠ '-' := by decide
      simp only [List.cons_append, List.nil_append, List.dropWhile_cons, this,
        Bool.false_eq_true, if_false, takeSign, hpm, if_true]
      simp
  unfold scanLlu integerValue
  simp only [hsign, htk, hdr, hne, if_false, decide_eq_true_eq]

theorem isspace_ne_nul (c : Char) (h : isspace c = true) : c ≠ NUL := by
  intro hc
  rw [hc] at h
  exact absurd h (by decide)

theorem sscanf_frame_spaced (instr : List Char) (bid ask : Nat)
    (w1 w2 w3 sg ds extra : List Char)
    (hne : instr ≠ []) (hlen : instr.length ≤ 15) (hq : DQUOTE ∉ instr)
    (h1 : ∀ c ∈ w1, isspace c = true) (h2 : ∀ c ∈ w2, isspace c = true)
    (h3 : ∀ c ∈ w3, isspace c = true) (hs : IsSign sg) (hd : ds ≠ [])
    (hD : ∀ c ∈ ds, isdigit c = true) :
    sscanf_frame (spacedFrame instr bid ask w1 w2 w3 sg ds ++ extra)
      = some (instr, round2 bid, round2 ask, integerValue sg ds) := by
  have eB : ∀ X, LIT_BID ++ X = DQUOTE :: (LIT_BID.tail ++ X) := fun _ => rfl
  have eA : ∀ X, LIT_ASK ++ X = ',' :: (LIT_ASK.tail ++ X) := fun _ => rfl
  have eT : ∀ X, LIT_TS ++ X = ',' :: (LIT_TS.tail ++ X) := fun _ => rfl
  have eC : ∀ X, LIT_CLOSE ++ X = '\x7d' :: X := fun _ => rfl
  have s1 : ∀ X, scanSet15 (instr ++ (LIT_BID ++ X)) = some (instr, LIT_BID ++ X) := by
    intro X; rw [eB]; exact scanSet15_fixed instr _ hne hlen hq
  have s2 : ∀ X, scanLf (w1 ++ (fmt2f bid ++ (LIT_ASK ++ X)))
      = some (round2 bid, LIT_ASK ++ X) := by
    intro X; rw [scanLf_space _ _ h1, eA]; exact scanLf_fmt2f bid _
  have s3 : ∀ X, scanLf (w2 ++ (fmt2f ask ++ (LIT_TS ++ X)))
      = some (round2 ask, LIT_TS ++ X) := by
    intro X; rw [scanLf_space _ _ h2, eT]; exact scanLf_fmt2f ask _
  have s4 : ∀ X, scanLlu (w3 ++ (sg ++ (ds ++ (LIT_CLOSE ++ X))))
      = some (integerValue sg ds, LIT_CLOSE ++ X) := by
    intro X
    rw [scanLlu_space _ _ h3, eC]
    have := scanLlu_signed sg ds X hs hd hD
    rwa [List.append_assoc] at this
  unfold spacedFrame sscanf_frame
  simp only [List.append_assoc, expect_append, s1, s2, s3, s4]

theorem spacedFrame_no_nul (instr : List Char) (bid ask : Nat) (w1 w2 w3 sg ds : List Char)
    (hi : NUL ∉ instr)
    (h1 : ∀ c ∈ w1, isspace c = true) (h2 : ∀ c ∈ w2, isspace c = true)
    (h3 : ∀ c ∈ w3, isspace c = true) (hs : IsSign sg)
    (hD : ∀ c ∈ ds, isdigit c = true) :
    ∀ c ∈ spacedFrame instr bid ask w1 w2 w3 sg ds, c ≠ NUL := by
  intro c hc
  unfold spacedFrame at hc
  simp only [List.mem_append] at hc
  have hlit : ∀ l : List Char, (∀ c ∈ l, c ≠ NUL) → c ∈ l → c ≠ NUL := fun l h hc => h c hc
  have hsg : ∀ c ∈ sg, c ≠ NUL := by
    rcases hs with rfl | rfl | rfl <;> decide
  rcases hc with (((((((hc | hc) | hc) | hc | hc) | hc) | hc | hc) | hc) | (hc | hc) | hc) | hc
  · exact hlit LIT_OPEN (by decide) hc
  · intro h; exact hi (h ▸ hc)
  · exact hlit LIT_BID (by decide) hc
  · exact isspace_ne_nul c (h1 c hc)
  · exact fmt2f_no_nul _ c hc
  · exact hlit LIT_ASK (by decide) hc
  · exact isspace_ne_nul c (h2 c hc)
  · exact fmt2f_no_nul _ c hc
  · exact hlit LIT_TS (by decide) hc
  · exact isspace_ne_nul c (h3 c hc)
  · exact hsg c hc
  · exact isdigit_ne_nul c (hD c hc)
  · exact hlit LIT_CLOSE (by decide) hc

theorem from_json_spaced (instr : List Char) (bid ask : Nat)
    (w1 w2 w3 sg ds extra : List Char) (data : MarketData)
    (hne : instr ≠ []) (hlen : instr.length ≤ 15) (hq : DQUOTE ∉ instr) (hn : NUL ∉ instr)
    (h1 : ∀ c ∈ w1, isspace c = true) (h2 : ∀ c ∈ w2, isspace c = true)
    (h3 : ∀ c ∈ w3, isspace c = true) (hs : IsSign sg) (hd : ds ≠ [])
    (hD : ∀ c ∈ ds, isdigit c = true) :
    from_json (spacedFrame instr bid ask w1 w2 w3 sg ds ++ extra) data
      = (true, MarketData.mk (strncpy15 instr) (round2 bid) (round2 ask)
          (integerValue sg ds)) := by
  have hc : c_str (spacedFrame instr bid ask w1 w2 w3 sg ds ++ extra)
      = spacedFrame instr bid ask w1 w2 w3 sg ds ++ c_str extra := by
    unfold c_str
    rw [List.takeWhile_append,
      takeWhile_no_nul _ (spacedFrame_no_nul instr bid ask w1 w2 w3 sg ds hn h1 h2 h3 hs hD)]
    simp
  unfold from_json
  rw [hc, sscanf_frame_spaced instr bid ask w1 w2 w3 sg ds (c_str extra) hne hlen hq
    h1 h2 h3 hs hd hD]

/-- Claim C6, amended. `from_json` returns true only if the line, read up to
its first zero byte, begins with the opening brace and instrument key, an
instrument of 1 to 15 characters other than the double quote, the bid key and
a number, the ask key and a number, the timestamp key and an integer, in that
order; a number and an integer may start with white space and a sign. What
follows the integer is not examined: for an instrument of 1 to 15 characters
without double quote and zero byte, the frame the encoder writes is accepted,
and decodes to the same record, whatever text is appended to it. It is also
accepted when white space stands in front of any of the three values and when
the timestamp is a sign and any digits; bid and ask decode as before and the
timestamp decodes to `integerValue`: the number, its negation modulo `2 ^ 64`
under a minus sign, and `2 ^ 64 - 1` for a number of `2 ^ 64` or more. -/
theorem from_json_relaxed_grammar (json : List Char) (data : MarketData) :
    ((from_json json data).1 = true → RelaxedFrame (c_str json)) ∧
    (∀ (r : MarketData) (instr extra : List Char),
      json = frame instr r ++ extra →
      instr ≠ [] → instr.length ≤ 15 → DQUOTE ∉ instr → NUL ∉ instr →
      r.timestamp_ns < 2 ^ 64 →
      (from_json json data).1 = true ∧
        from_json json data = from_json (frame instr r) data) ∧
    (∀ (instr : List Char) (bid ask : Nat) (w1 w2 w3 sg ds extra : List Char),
      json = spacedFrame instr bid ask w1 w2 w3 sg ds ++ extra →
      instr ≠ [] → instr.length ≤ 15 → DQUOTE ∉ instr → NUL ∉ instr →
      (∀ c ∈ w1 ++ w2 ++ w3, isspace c = true) → IsSign sg → ds ≠ [] →
      (∀ c ∈ ds, isdigit c = true) →
      from_json json data
        = (true, MarketData.mk (strncpy15 instr) (round2 bid) (round2 ask)
            (integerValue sg ds))) := by
  refine ⟨from_json_true json data, ?_, ?_⟩
  · intro r instr extra hj hne hlen hq hn hts
    have h1 := from_json_frame_append instr extra r data hne hlen hq hn hts
    have h2 := from_json_frame_append instr [] r data hne hlen hq hn hts
    rw [List.append_nil] at h2
    rw [hj, h1, h2]
    exact ⟨rfl, rfl⟩
  · intro instr bid ask w1 w2 w3 sg ds extra hj hne hlen hq hn hw hs hd hD
    rw [hj]
    exact from_json_spaced instr bid ask w1 w2 w3 sg ds extra data hne hlen hq hn
      (fun c hc => hw c (by simp [hc])) (fun c hc => hw c (by simp [hc]))
      (fun c hc => hw c (by simp [hc])) hs hd hD

set_option maxRecDepth 100000 in
set_option exponentiation.threshold 2000 in
/-- Witness for C6 (amended): the RELIANCE frame followed by trailing text, and
the RELIANCE frame with a blank and the timestamp `-18446744073709551616`, which
decodes to `2 ^ 64 - 1`. -/
theorem from_json_relaxed_grammar_witness :
    LINE_TRAILING = frame "RELIANCE".toList REC_RELIANCE ++ " trailing".toList ∧
    (from_json LINE_TRAILING MarketData.new).1 = true ∧
    RelaxedFrame (c_str LINE_TRAILING) ∧
    from_json LINE_TRAILING MarketData.new
      = from_json (frame "RELIANCE".toList REC_RELIANCE) MarketData.new ∧
    LINE_NEGATIVE_HUGE = spacedFrame "RELIANCE".toList REC_RELIANCE.bid REC_RELIANCE.ask
      [] [] [' '] ['-'] "18446744073709551616".toList ++ [] ∧
    integerValue ['-'] "18446744073709551616".toList = 18446744073709551615 ∧
    from_json LINE_NEGATIVE_HUGE MarketData.new
      = (true, MarketData.mk (strncpy15 "RELIANCE".toList) (round2 REC_RELIANCE.bid)
          (round2 REC_RELIANCE.ask)
          (integerValue ['-'] "18446744073709551616".toList)) :=
  ⟨by decide,
   ((from_json_relaxed_grammar LINE_TRAILING MarketData.new).2.1 REC_RELIANCE
      "RELIANCE".toList " trailing".toList (by decide) (by decide) (by decide) (by decide)
      (by decide) (by decide)).1,
   (from_json_relaxed_grammar LINE_TRAILING MarketData.new).1 (by decide),
   ((from_json_relaxed_grammar LINE_TRAILING MarketData.new).2.1 REC_RELIANCE
      "RELIANCE".toList " trailing".toList (by decide) (by decide) (by decide) (by decide)
      (by decide) (by decide)).2,
   by decide, by decide,
   (from_json_relaxed_grammar LINE_NEGATIVE_HUGE MarketData.new).2.2 "RELIANCE".toList
      REC_RELIANCE.bid REC_RELIANCE.ask [] [] [' '] ['-'] "18446744073709551616".toList []
      (by decide) (by decide) (by decide) (by decide) (by decide) (by decide)
      (Or.inr (Or.inl rfl)) (by decide) (by decide)⟩

/-! ## Ring buffer: occupancy, recovery and cursor range -/

theorem runOps_fresh_inv (ops : List Op) (t : Trace) (rb : RingBuffer)
    (h : runOps RingBuffer.fresh { accepted := [], popped := [] } ops = some (t, rb)) :
    rb.InRange ∧ t.accepted = t.popped ++ rb.resident := by
  obtain ⟨t', rb', h1, h2, h3⟩ :=
    runOps_fifo ops RingBuffer.fresh { accepted := [], popped := [] } fresh_inRange
      (by simp [resident_fresh])
  rw [h1] at h
  simp only [Option.some.injEq, Prod.mk.injEq] at h
  rw [← h.1, ← h.2]
  exact ⟨h2, h3⟩

theorem resident_length (rb : RingBuffer) : rb.resident.length = rb.size := by
  simp [RingBuffer.resident]

theorem full_iff_size (rb : RingBuffer) (hr : rb.InRange) :
    rb.full = true ↔ rb.size = 1023 := by
  have hs := size_eq rb hr
  obtain ⟨h1, h2, _⟩ := hr
  simp only [RingBuffer.full, next_eq, beq_iff_eq]
  omega

theorem empty_iff_size (rb : RingBuffer) (hr : rb.InRange) :
    rb.empty = true ↔ rb.size = 0 := by
  have hs := size_eq rb hr
  obtain ⟨h1, h2, _⟩ := hr
  simp only [RingBuffer.empty, beq_iff_eq]
  omega

/-- Claim C11. Occupancy accounting. After any sequence of `push` and `pop`
calls on a fresh buffer, `size()` is the number of successful pushes minus the
number of successful pops, it lies between 0 and 1023, `empty()` holds exactly
when it is 0 and `full()` exactly when it is 1023, and the two never hold
together. -/
theorem occupancy_accounting (ops : List Op) :
    ∃ t rb, runOps RingBuffer.fresh { accepted := [], popped := [] } ops = some (t, rb) ∧
      t.popped.length ≤ t.accepted.length ∧
      rb.size = t.accepted.length - t.popped.length ∧
      rb.size ≤ 1023 ∧
      (rb.empty = true ↔ rb.size = 0) ∧
      (rb.full = true ↔ rb.size = 1023) ∧
      ¬ (rb.full = true ∧ rb.empty = true) := by
  obtain ⟨t, rb, h1, h2, h3⟩ :=
    runOps_fifo ops RingBuffer.fresh { accepted := [], popped := [] } fresh_inRange
      (by simp [resident_fresh])
  have hlen : t.accepted.length = t.popped.length + rb.size := by
    rw [h3, List.length_append, resident_length]
  have hs := size_eq rb h2
  have hf := full_iff_size rb h2
  have he := empty_iff_size rb h2
  refine ⟨t, rb, h1, by omega, by omega, by omega, he, hf, ?_⟩
  rintro ⟨a, b⟩
  have := hf.mp a
  have := he.mp b
  omega

/-- Claim C19. Cursor range. After any sequence of `push` and `pop` calls on a
fresh buffer (the run itself never leaves the slot array), both cursors are
below 1024 and the array has its 1024 slots, so the next `push` and the next
`pop` access a slot inside the array. -/
theorem cursor_range (ops : List Op) :
    ∃ t rb, runOps RingBuffer.fresh { accepted := [], popped := [] } ops = some (t, rb) ∧
      rb.pushPtr < 1024 ∧ rb.popPtr < 1024 ∧ rb.buffer.length = 1024 ∧
      (∀ d, ∃ b rb', rb.push d = some (b, rb')) ∧
      (∀ d, ∃ b out rb', rb.pop d = some (b, out, rb')) := by
  obtain ⟨t, rb, h1, h2, _⟩ :=
    runOps_fifo ops RingBuffer.fresh { accepted := [], popped := [] } fresh_inRange
      (by simp [resident_fresh])
  refine ⟨t, rb, h1, h2.1, h2.2.1, h2.2.2, ?_, ?_⟩
  · intro d
    by_cases h : (rb.pushPtr + 1) % 1024 = rb.popPtr
    · exact ⟨_, _, push_full rb d h⟩
    · exact ⟨_, _, push_ok rb d h2 h⟩
  · intro d
    by_cases h : rb.popPtr = rb.pushPtr
    · exact ⟨_, _, _, pop_empty rb d h⟩
    · obtain ⟨v, _, hv⟩ := pop_ok rb d h2 h
      exact ⟨_, _, _, hv⟩

/-- Claim C12. Recovery from full. In every full state reached from a fresh
buffer there are 1023 resident records; a `pop` succeeds and returns the
oldest of them, the `push` that follows succeeds, and afterwards the buffer is
full again, holding the other 1022 records followed by the new one. -/
theorem recovery_from_full (ops : List Op) (t : Trace) (rb : RingBuffer)
    (hrun : runOps RingBuffer.fresh { accepted := [], popped := [] } ops = some (t, rb))
    (hfull : rb.full = true) (d out : MarketData) :
    rb.resident.length = 1023 ∧
    ∃ v rb1 rb2, rb.pop out = some (true, v, rb1) ∧ rb.resident = v :: rb1.resident ∧
      rb1.push d = some (true, rb2) ∧ rb2.full = true ∧
      rb2.resident = rb1.resident ++ [d] := by
  obtain ⟨hr, _⟩ := runOps_fresh_inv ops t rb hrun
  have hsz := (full_iff_size rb hr).mp hfull
  have hf : (rb.pushPtr + 1) % 1024 = rb.popPtr := by
    simpa only [RingBuffer.full, next_eq, beq_iff_eq] using hfull
  have hne : rb.popPtr ≠ rb.pushPtr := by
    have := hr.1; omega
  obtain ⟨v, hv, hp⟩ := pop_ok rb out hr hne
  have hr1 := pop_ok_inRange rb hr
  have hne1 : (rb.pushPtr + 1) % 1024 ≠ (rb.popPtr + 1) % 1024 := by
    have := hr.1; have := hr.2.1; omega
  refine ⟨by rw [resident_length, hsz], v, _, _, hp, resident_pop rb v hr hne hv,
    push_ok _ d hr1 hne1, ?_, resident_push _ d hr1 hne1⟩
  simp only [RingBuffer.full, next_eq, beq_iff_eq]
  have := hr.1; have := hr.2.1
  omega

theorem runOps_pushes (ds : List MarketData) :
    ∀ (rb : RingBuffer) (t : Trace), rb.InRange → rb.popPtr = 0 →
      rb.pushPtr + ds.length ≤ 1023 →
      ∃ rb', runOps rb t (ds.map Op.push)
          = some ({ accepted := t.accepted ++ ds, popped := t.popped }, rb') ∧
        rb'.InRange ∧ rb'.popPtr = 0 ∧ rb'.pushPtr = rb.pushPtr + ds.length := by
  induction ds with
  | nil =>
    intro rb t hr h0 _
    exact ⟨rb, by simp [runOps], hr, h0, rfl⟩
  | cons x xs ih =>
    intro rb t hr h0 hlen
    simp only [List.length_cons] at hlen
    have hne : (rb.pushPtr + 1) % 1024 ≠ rb.popPtr := by omega
    obtain ⟨rb', h1, h2, h3, h4⟩ := ih _ { t with accepted := t.accepted ++ [x] }
      (push_ok_inRange rb x hr) h0
      (by show (rb.pushPtr + 1) % 1024 + xs.length ≤ 1023; omega)
    refine ⟨rb', ?_, h2, h3, ?_⟩
    · simp only [List.map_cons, runOps, push_ok rb x hr hne, h1, List.append_assoc,
        List.singleton_append]
    · rw [h4]; show (rb.pushPtr + 1) % 1024 + xs.length = _
      simp only [List.length_cons]; omega

/-- Witness for C12: the buffer filled by 1023 pushes. -/
theorem recovery_from_full_witness :
    ∃ t rb,
      runOps RingBuffer.fresh { accepted := [], popped := [] }
        ((List.replicate 1023 REC_RELIANCE).map Op.push) = some (t, rb) ∧
      rb.full = true ∧ rb.resident.length = 1023 ∧
      ∃ v rb1 rb2, rb.pop MarketData.new = some (true, v, rb1) ∧
        rb.resident = v :: rb1.resident ∧
        rb1.push REC_RELIANCE = some (true, rb2) ∧ rb2.full = true ∧
        rb2.resident = rb1.resident ++ [REC_RELIANCE] := by
  obtain ⟨rb, h1, _, h3, h4⟩ := runOps_pushes (List.replicate 1023 REC_RELIANCE)
    RingBuffer.fresh { accepted := [], popped := [] } fresh_inRange rfl
    (by rw [List.length_replicate]; decide)
  have hfull : rb.full = true := by
    rw [List.length_replicate] at h4
    simp only [RingBuffer.full, next_eq, beq_iff_eq, h3, h4]
    decide
  exact ⟨_, rb, h1, hfull, recovery_from_full _ _ rb h1 hfull REC_RELIANCE MarketData.new⟩

/-! ## Records and the codec on its supported domain -/

/-- Claim C13. Instrument truncation and padding. For every input string (the
bytes of `src` before its first zero byte), the constructor stores its first
`min(len, 15)` bytes followed by zero bytes up to 16, so byte 15 is zero, and
stores bid, ask and timestamp unchanged; the default constructor gives an
all-zero instrument, zero bid and ask and timestamp 0. -/
theorem make_instrument_padding (src : List Char) (b a ts : Nat) :
    (MarketData.make src b a ts).instrument.length = 16 ∧
    (MarketData.make src b a ts).instrument
      = (c_str src).take 15 ++ List.replicate (16 - min (c_str src).length 15) NUL ∧
    (∀ i, i < min (c_str src).length 15 →
      (MarketData.make src b a ts).instrument[i]? = (c_str src)[i]?) ∧
    (∀ i, min (c_str src).length 15 ≤ i → i < 16 →
      (MarketData.make src b a ts).instrument[i]? = some NUL) ∧
    (MarketData.make src b a ts).instrument[15]? = some NUL ∧
    (MarketData.make src b a ts).bid = b ∧
    (MarketData.make src b a ts).ask = a ∧
    (MarketData.make src b a ts).timestamp_ns = ts ∧
    MarketData.new.instrument = List.replicate 16 NUL ∧
    (∀ i, i < 16 → MarketData.new.instrument[i]? = some NUL) ∧
    MarketData.new.bid = 0 ∧ MarketData.new.ask = 0 ∧ MarketData.new.timestamp_ns = 0 := by
  have htl : ((c_str src).take 15).length = min (c_str src).length 15 := by
    rw [List.length_take, Nat.min_comm]
  have heq : (MarketData.make src b a ts).instrument
      = (c_str src).take 15 ++ List.replicate (16 - min (c_str src).length 15) NUL := by
    show strncpy15 src = _
    unfold strncpy15 c_str
    simp only
    rw [List.length_take, Nat.min_comm]
  have hle : min (c_str src).length 15 ≤ 15 := Nat.min_le_right _ _
  have hpad : ∀ i, min (c_str src).length 15 ≤ i → i < 16 →
      (MarketData.make src b a ts).instrument[i]? = some NUL := by
    intro i h1 h2
    rw [heq, List.getElem?_append_right (by rw [htl]; exact h1), htl,
      List.getElem?_replicate]
    rw [if_pos (by omega)]
  refine ⟨?_, heq, ?_, hpad, hpad 15 hle (by decide), rfl, rfl, rfl, rfl, ?_, rfl, rfl, rfl⟩
  · rw [heq, List.length_append, htl, List.length_replicate]
    omega
  · intro i hi
    rw [heq, List.getElem?_append_left (by rw [htl]; exact hi),
      List.getElem?_take_of_lt (by omega)]
  · intro i hi
    show (List.replicate 16 NUL)[i]? = some NUL
    rw [List.getElem?_replicate, if_pos hi]

set_option maxRecDepth 100000 in
set_option exponentiation.threshold 2000 in
/-- Claim C20, failing input. For a record with a 15-character instrument,
bid and ask the most negative finite double and the largest timestamp, the
length the formatting step reports is 708, far above 255, and `to_json` reads
outside the 256-byte buffer. -/
theorem frame_exceeds_buffer :
    cstr REC_WORST.instrument = some "ABCDEFGHIJKLMNO".toList ∧
    (frame "ABCDEFGHIJKLMNO".toList REC_WORST).length = 708 ∧
    to_json REC_WORST = none := by
  decide

set_option maxRecDepth 100000 in
set_option exponentiation.threshold 2000 in
/-- Counterexample to C16 as stated: the record is in the stated domain
(non-empty instrument, zero byte inside the 16 bytes, no double quote, finite
bid and ask, frame shorter than 256), encoding and decoding succeed, and the
decoded 16-byte instrument field differs from the original one. -/
theorem codec_round_trip_field_differs :
    REC_TAIL.instrument.length = 16 ∧ NUL ∈ REC_TAIL.instrument ∧
    REC_TAIL.instrument.head? ≠ some NUL ∧ DQUOTE ∉ REC_TAIL.instrument ∧
    expoField REC_TAIL.bid ≠ 2047 ∧ expoField REC_TAIL.ask ≠ 2047 ∧
    (frame (c_str REC_TAIL.instrument) REC_TAIL).length < 256 ∧
    to_json REC_TAIL = some (frame (c_str REC_TAIL.instrument) REC_TAIL) ∧
    (from_json (frame (c_str REC_TAIL.instrument) REC_TAIL) MarketData.new).1 = true ∧
    (from_json (frame (c_str REC_TAIL.instrument) REC_TAIL) MarketData.new).2.instrument
      ≠ REC_TAIL.instrument := by
  decide

/-- Claim C16, amended. For every Tick Record whose 16-byte instrument field
is non-empty, holds a zero byte and no double quote, whose timestamp is below
`2 ^ 64` and whose frame is shorter than 256 characters, `from_json` of
`to_json` returns true, the decoded timestamp is the original one, and the
decoded instrument field is the original instrument string padded with zero
bytes: it is the original 16-byte field exactly when every byte of the
original field from its first zero byte on is zero. -/
theorem codec_round_trip_domain (r data : MarketData)
    (hfield : r.instrument.length = 16)
    (hz : NUL ∈ r.instrument)
    (hne : r.instrument.head? ≠ some NUL)
    (hq : DQUOTE ∉ r.instrument)
    (hts : r.timestamp_ns < 2 ^ 64)
    (hlen : (frame (c_str r.instrument) r).length < 256) :
    ∃ json out, to_json r = some json ∧ from_json json data = (true, out) ∧
      out.timestamp_ns = r.timestamp_ns ∧
      out.instrument = c_str r.instrument
        ++ List.replicate (16 - (c_str r.instrument).length) NUL ∧
      (out.instrument = r.instrument ↔
        ∀ c ∈ r.instrument.dropWhile (fun c => c != NUL), c = NUL) := by
  have hcs : cstr r.instrument = some (c_str r.instrument) := by
    unfold cstr c_str
    rw [if_pos hz]
  obtain ⟨hn, hl, _⟩ := cstr_some r.instrument _ hcs
  have hl15 : (c_str r.instrument).length ≤ 15 := by omega
  have hne' : c_str r.instrument ≠ [] := by
    intro h
    cases hi : r.instrument with
    | nil => rw [hi] at hfield; simp at hfield
    | cons c t =>
      rw [hi] at h hne
      unfold c_str at h
      simp only [List.head?_cons, ne_eq, Option.some.injEq] at hne
      simp [List.takeWhile_cons, hne] at h
  have hq' : DQUOTE ∉ c_str r.instrument :=
    fun h => hq ((List.takeWhile_prefix _).subset h)
  have hsplit : c_str r.instrument ++ r.instrument.dropWhile (fun c => c != NUL)
      = r.instrument := List.takeWhile_append_dropWhile _ _
  have hdl : (r.instrument.dropWhile (fun c => c != NUL)).length
      = 16 - (c_str r.instrument).length := by
    have := congrArg List.length hsplit
    rw [List.length_append, hfield] at this
    omega
  refine ⟨frame (c_str r.instrument) r,
    MarketData.mk (strncpy15 (c_str r.instrument)) (round2 r.bid) (round2 r.ask)
      r.timestamp_ns, ?_, ?_, rfl, strncpy15_short _ hn hl15, ?_⟩
  · unfold to_json
    simp only [hcs, hlen, if_true]
  · have := from_json_frame_append (c_str r.instrument) [] r data hne' hl15 hq' hn hts
    rwa [List.append_nil] at this
  · show strncpy15 (c_str r.instrument) = r.instrument ↔ _
    rw [strncpy15_short _ hn hl15, ← hdl]
    constructor
    · intro h c hc
      have h2 := List.append_cancel_left (h.trans hsplit.symm)
      rw [← h2] at hc
      exact (List.mem_replicate.mp hc).2
    · intro h
      rw [← List.eq_replicate_of_mem h, hsplit]

set_option maxRecDepth 100000 in
set_option exponentiation.threshold 2000 in
/-- Witness for C16 (amended): the RELIANCE record, whose field is zero padded,
comes back with the same 16-byte instrument field and the same timestamp. -/
theorem codec_round_trip_domain_witness :
    ∃ json out, to_json REC_RELIANCE = some json ∧
      from_json json MarketData.new = (true, out) ∧
      out.timestamp_ns = REC_RELIANCE.timestamp_ns ∧
      out.instrument = c_str REC_RELIANCE.instrument
        ++ List.replicate (16 - (c_str REC_RELIANCE.instrument).length) NUL ∧
      (out.instrument = REC_RELIANCE.instrument ↔
        ∀ c ∈ REC_RELIANCE.instrument.dropWhile (fun c => c != NUL), c = NUL) :=
  codec_round_trip_domain REC_RELIANCE MarketData.new
    (by decide) (by decide) (by decide) (by decide) (by decide) (by decide)

/-! ## Broadcast server -/

theorem run_cons (p : Publisher) (s : Step) (steps : List Step) :
    p.run (s :: steps) = (p.step s).run steps := rfl

theorem run_written (ecs : List (Option String)) :
    ∀ p : Publisher, ecs.length = p.inflight.length →
      p.run (ecs.map Step.written)
        = { server := p.server, inflight := [],
            output := p.output ++ ecs.flatMap Session.send_data_handler } := by
  induction ecs with
  | nil =>
    intro p h
    have h0 : p.inflight = [] := List.length_eq_zero.mp h.symm
    cases p
    simp only at h0
    simp [Publisher.run, h0]
  | cons ec ecs ih =>
    intro p h
    cases hi : p.inflight with
    | nil => rw [hi] at h; simp at h
    | cons w rest =>
      rw [hi] at h
      simp only [List.length_cons, Nat.add_right_cancel_iff] at h
      rw [List.map_cons, run_cons]
      have hstep : p.step (Step.written ec)
          = { p with inflight := rest, output := p.output ++ Session.send_data_handler ec } := by
        simp only [Publisher.step, hi]
      rw [hstep, ih _ h]
      simp [List.flatMap_cons, List.append_assoc]

/-- Claim C15. Broadcast fan-out. For every session vector and every frame,
`broadcast` issues exactly one write of the frame followed by one newline to
every session of the vector, in order, and changes neither the vector nor the
printed text; the writes do not depend on how any of them completes. When they
complete, each failure prints one line and nothing else happens: the server is
as before and no error reaches the caller. -/
theorem broadcast_fan_out (p : Publisher) (message : List Char) :
    p.server.broadcast message
      = p.server.sessions_.map (fun s => { socket := s.socket_, data := message ++ ['\n'] }) ∧
    (p.server.broadcast message).length = p.server.sessions_.length ∧
    (p.step (Step.publish message)).server = p.server ∧
    (p.step (Step.publish message)).output = p.output ∧
    (p.step (Step.publish message)).inflight = p.inflight ++ p.server.broadcast message ∧
    (∀ ecs : List (Option String), p.inflight = [] →
      ecs.length = p.server.sessions_.length →
      (p.step (Step.publish message)).run (ecs.map Step.written)
        = { server := p.server, inflight := [],
            output := p.output ++ ecs.flatMap Session.send_data_handler }) := by
  refine ⟨rfl, by simp [Server.broadcast], rfl, rfl, rfl, ?_⟩
  intro ecs hin hlen
  have := run_written ecs (p.step (Step.publish message))
    (by simp [Publisher.step, hin, Server.broadcast, hlen])
  rw [this]
  rfl

/-- Witness for C15: two sessions, the first closed by its peer. Both get the
frame and a newline; the failed write prints one line, the vector keeps both
sessions. -/
theorem broadcast_fan_out_witness :
    TWO_SESSIONS.broadcast FRAME_TEXT
      = [{ socket := 1, data := FRAME_TEXT ++ ['\n'] },
         { socket := 2, data := FRAME_TEXT ++ ['\n'] }] ∧
    (TWO_CLIENTS.step (Step.publish FRAME_TEXT)).run
        ([some "Broken pipe", none].map Step.written)
      = { server := TWO_SESSIONS, inflight := [],
          output := ["Error sending data: Broken pipe\n"] } :=
  ⟨(broadcast_fan_out TWO_CLIENTS FRAME_TEXT).1,
   (broadcast_fan_out TWO_CLIENTS FRAME_TEXT).2.2.2.2.2 [some "Broken pipe", none] rfl rfl⟩

theorem step_keeps_sessions (p : Publisher) (s : Step) :
    p.server.sessions_ <+: (p.step s).server.sessions_ := by
  cases s with
  | accepted ec socket =>
    cases ec with
    | none => exact ⟨[{ socket_ := socket }], rfl⟩
    | some m => exact List.prefix_refl _
  | written ec =>
    simp only [Publisher.step]
    cases p.inflight <;> exact List.prefix_refl _
  | publish message => exact List.prefix_refl _

/-- Claim C17. Sessions are never removed. A successful accept appends exactly
one session; a failed accept, a completed write (failed or not) and a
broadcast leave the vector as it is; so the vector of any state is a prefix of
the vector of every state reached from it. -/
theorem sessions_never_removed (p : Publisher) (steps : List Step) :
    p.server.sessions_ <+: (p.run steps).server.sessions_ ∧
    (∀ socket, (p.step (Step.accepted none socket)).server.sessions_
      = p.server.sessions_ ++ [{ socket_ := socket }]) ∧
    (∀ m socket, (p.step (Step.accepted (some m) socket)).server.sessions_
      = p.server.sessions_) ∧
    (∀ ec, (p.step (Step.written ec)).server.sessions_ = p.server.sessions_) ∧
    (∀ message, (p.step (Step.publish message)).server.sessions_ = p.server.sessions_) := by
  refine ⟨?_, fun _ => rfl, fun _ _ => rfl, ?_, fun _ => rfl⟩
  · induction steps generalizing p with
    | nil => exact List.prefix_refl _
    | cons s steps ih =>
      rw [run_cons]
      exact (step_keeps_sessions p s).trans (ih (p.step s))
  · intro ec
    simp only [Publisher.step]
    cases p.inflight <;> rfl

/-! ## The session vector and the two threads of `main` -/

theorem stmt_exec_cases (s : Stmt) (t : Thread) (event : Option Step) (p pub : Publisher)
    (log : List Access) (finished : Bool)
    (h : s.exec t event p = some (pub, log, finished)) :
    log = [] ∨ (s = Stmt.io_context_run ∧ log = [{ thread := t, mutates := true }]) ∨
      (s = Stmt.publish_loop ∧ log = [{ thread := t, mutates := false }]) := by
  rcases event with _ | (⟨ec, socket⟩ | ec | message) <;> cases s <;>
    simp only [Stmt.exec, Option.some.injEq, Prod.mk.injEq, reduceCtorEq] at h
  all_goals
    obtain ⟨_, rfl, _⟩ := h
    first
      | (left; rfl)
      | (right; right; exact ⟨rfl, rfl⟩)
      | (cases ec
         · right; left; exact ⟨rfl, rfl⟩
         · left; rfl)

theorem stmt_exec_log (s : Stmt) (t : Thread) (event : Option Step) (p pub : Publisher)
    (log : List Access) (finished : Bool)
    (h : s.exec t event p = some (pub, log, finished)) :
    ∀ a ∈ log, a.thread = t ∧ (a.mutates = true → s = Stmt.io_context_run) ∧
      (a.mutates = false → s = Stmt.publish_loop) := by
  intro a ha
  rcases stmt_exec_cases s t event p pub log finished h with h1 | ⟨h1, h2⟩ | ⟨h1, h2⟩
  · rw [h1] at ha; simp at ha
  · rw [h2, List.mem_singleton] at ha
    subst ha
    exact ⟨rfl, fun _ => h1, fun hf => by simp at hf⟩
  · rw [h2, List.mem_singleton] at ha
    subst ha
    exact ⟨rfl, fun hf => by simp at hf, fun _ => h1⟩

theorem placed_start : Process.start.Placed := by
  simp [Process.Placed, Process.start, MAIN_BODY]

theorem exec_placed (p p1 : Process) (turn : Turn) (log : List Access) (hp : p.Placed)
    (h : p.exec turn = some (p1, log)) :
    p1.Placed ∧ ∀ a ∈ log, (a.mutates = true → a.thread = Thread.io) ∧
      (a.mutates = false → a.thread = Thread.main) := by
  unfold Process.exec at h
  cases ht : turn.thread with
  | main =>
    rw [ht] at h
    simp only at h
    cases hm : p.main_rest with
    | nil => rw [hm] at h; simp at h
    | cons s rest =>
      rw [hm] at h
      simp only at h
      cases he : s.exec Thread.main turn.event p.publisher with
      | none => rw [he] at h; simp at h
      | some r =>
        obtain ⟨pub, lg, fin⟩ := r
        rw [he] at h
        simp only [Option.some.injEq, Prod.mk.injEq] at h
        obtain ⟨rfl, rfl⟩ := h
        have hs : s ≠ Stmt.io_context_run := by
          intro hs
          exact hp.1 (by rw [hm, hs]; exact List.mem_cons_self _ _)
        have hrest : Stmt.io_context_run ∉ rest := by
          intro hr
          exact hp.1 (by rw [hm]; exact List.mem_cons_of_mem _ hr)
        refine ⟨⟨?_, ?_⟩, ?_⟩
        · show Stmt.io_context_run ∉ (if fin = true then rest else s :: rest)
          split_ifs
          · exact hrest
          · rw [← hm]; exact hp.1
        · show Stmt.publish_loop ∉ (if s = Stmt.start_io_thread then IO_THREAD_BODY else p.io_rest)
          split_ifs
          · simp [IO_THREAD_BODY]
          · exact hp.2
        · intro a ha
          obtain ⟨h1, h2, _⟩ := stmt_exec_log s Thread.main turn.event p.publisher pub lg fin he a ha
          exact ⟨fun hmut => absurd (h2 hmut) hs, fun _ => h1⟩
  | io =>
    rw [ht] at h
    simp only at h
    cases hm : p.io_rest with
    | nil => rw [hm] at h; simp at h
    | cons s rest =>
      rw [hm] at h
      simp only at h
      cases he : s.exec Thread.io turn.event p.publisher with
      | none => rw [he] at h; simp at h
      | some r =>
        obtain ⟨pub, lg, fin⟩ := r
        rw [he] at h
        simp only [Option.some.injEq, Prod.mk.injEq] at h
        obtain ⟨rfl, rfl⟩ := h
        have hs : s ≠ Stmt.publish_loop := by
          intro hs
          exact hp.2 (by rw [hm, hs]; exact List.mem_cons_self _ _)
        have hrest : Stmt.publish_loop ∉ rest := by
          intro hr
          exact hp.2 (by rw [hm]; exact List.mem_cons_of_mem _ hr)
        refine ⟨⟨hp.1, ?_⟩, ?_⟩
        · show Stmt.publish_loop ∉ (if fin = true then rest else s :: rest)
          split_ifs
          · exact hrest
          · rw [← hm]; exact hp.2
        · intro a ha
          obtain ⟨h1, _, h3⟩ := stmt_exec_log s Thread.io turn.event p.publisher pub lg fin he a ha
          refine ⟨fun _ => h1, fun hmut => absurd (h3 ?_) hs⟩
          exact hmut

theorem run_placed (turns : List Turn) (p p1 : Process) (log : List Access) (hp : p.Placed)
    (h : p.run turns = some (p1, log)) :
    ∀ a ∈ log, (a.mutates = true → a.thread = Thread.io) ∧
      (a.mutates = false → a.thread = Thread.main) := by
  induction turns generalizing p log with
  | nil =>
    simp only [Process.run, Option.some.injEq, Prod.mk.injEq] at h
    obtain ⟨_, rfl⟩ := h
    simp
  | cons turn rest ih =>
    simp only [Process.run] at h
    cases he : p.exec turn with
    | none => rw [he] at h; simp at h
    | some r =>
      obtain ⟨p2, log1⟩ := r
      rw [he] at h
      simp only at h
      cases hr : p2.run rest with
      | none => rw [hr] at h; simp at h
      | some r2 =>
        obtain ⟨p3, log2⟩ := r2
        rw [hr] at h
        simp only [Option.some.injEq, Prod.mk.injEq] at h
        obtain ⟨rfl, rfl⟩ := h
        obtain ⟨hp2, hl1⟩ := exec_placed p p2 turn log1 hp he
        intro a ha
        rcases List.mem_append.1 ha with ha | ha
        · exact hl1 a ha
        · exact ih p2 log2 hp2 hr a ha

/-- In every run of `main`, every change of the session vector (the
`push_back` of the accept handler) is made on `io_thread`, the thread that
called `io_context.run()`, and every walk over it (the loop of `broadcast`) is
made on the main thread. -/
theorem session_set_threads (turns : List Turn) (p : Process) (log : List Access)
    (h : Process.start.run turns = some (p, log)) :
    ∀ a ∈ log, (a.mutates = true → a.thread = Thread.io) ∧
      (a.mutates = false → a.thread = Thread.main) :=
  run_placed turns Process.start p log placed_start h

/-- Claim C18, failing input. A client connects while `main` is in its
publishing loop. After the start-up `main` is in the loop and `io_thread` in
`io_context.run()`. From that state the accept handler can run, on
`io_thread`, and change the session vector, and a round of the loop can run,
on the main thread, and walk the vector; either can come first, since the
program has nothing that orders the two. The vector is used by two threads,
one of them changing it. -/
theorem session_set_data_race :
    Process.start.run STARTUP = some (RUNNING, []) ∧
    (RUNNING.exec TURN_ACCEPT).map (fun r => r.2)
      = some [{ thread := Thread.io, mutates := true }] ∧
    (RUNNING.exec TURN_PUBLISH).map (fun r => r.2)
      = some [{ thread := Thread.main, mutates := false }] ∧
    (RUNNING.run [TURN_ACCEPT, TURN_PUBLISH]).map (fun r => r.2)
      = some [{ thread := Thread.io, mutates := true },
              { thread := Thread.main, mutates := false }] ∧
    (RUNNING.run [TURN_PUBLISH, TURN_ACCEPT]).map (fun r => r.2)
      = some [{ thread := Thread.main, mutates := false },
              { thread := Thread.io, mutates := true }] ∧
    Thread.io ≠ Thread.main := by
  decide

/-! ## order_book.cpp: the maps -/

theorem uadd_lt (a b : Nat) : uadd a b < UINT64_SIZE := by
  simp only [uadd, UINT64_SIZE]; omega

theorem usub_uadd (t q : Nat) (ht : t < UINT64_SIZE) : usub (uadd t q) q = t := by
  simp only [usub, uadd, UINT64_SIZE] at *; omega

theorem uadd_mod_sum (s q : Nat) : uadd (s % UINT64_SIZE) q = (s + q) % UINT64_SIZE := by
  simp only [uadd, UINT64_SIZE]; omega

theorem usub_mod_sum (s q : Nat) : usub ((s + q) % UINT64_SIZE) q = s % UINT64_SIZE := by
  simp only [usub, UINT64_SIZE]; omega

theorem uadd_usub_mod (s s1 a b : Nat) (h : s1 + b = s + a) :
    uadd (s % UINT64_SIZE) (usub a b) = s1 % UINT64_SIZE := by
  simp only [uadd, usub, UINT64_SIZE]; omega

theorem mfind_mset {V : Type} (ord : Nat → Int) (m : List (Nat × V)) (p p' : Nat) (v : V) :
    mfind ord (mset ord m p v) p' = if ord p = ord p' then some v else mfind ord m p' := by
  induction m with
  | nil => simp [mset, mfind]
  | cons e rest ih =>
    obtain ⟨k, w⟩ := e
    simp only [mset]
    split_ifs with h1 h2 h3 h3 h3
    all_goals simp only [mfind, ih]
    all_goals split_ifs <;> first | rfl | omega

theorem mfind_mset_self {V : Type} (ord : Nat → Int) (m : List (Nat × V)) (p : Nat) (v : V) :
    mfind ord (mset ord m p v) p = some v := by
  rw [mfind_mset]; simp

theorem mat_mset_self {V : Type} (ord : Nat → Int) (m : List (Nat × V)) (p : Nat) (v d : V) :
    mat ord (mset ord m p v) p d = v := by
  simp [mat, mfind_mset_self]

theorem mset_mset {V : Type} (ord : Nat → Int) (m : List (Nat × V)) (p : Nat) (v w : V) :
    mset ord (mset ord m p v) p w = mset ord m p w := by
  induction m with
  | nil => simp [mset]
  | cons e rest ih =>
    obtain ⟨k, u⟩ := e
    simp only [mset]
    split_ifs with h1 h2
    · simp [mset, h1]
    · simp [mset]
    · simp [mset, h1, h2, ih]

theorem merase_mset_fresh {V : Type} (ord : Nat → Int) (m : List (Nat × V)) (p : Nat) (v : V)
    (h : mfind ord m p = none) : merase ord (mset ord m p v) p = m := by
  induction m with
  | nil => simp [mset, merase]
  | cons e rest ih =>
    obtain ⟨k, u⟩ := e
    simp only [mfind] at h
    split_ifs at h with h1
    simp only [mset, h1, if_false]
    split_ifs with h2
    · simp [merase]
    · simp [merase, h1, ih h]

theorem mem_mset {V : Type} (ord : Nat → Int) (m : List (Nat × V)) (p : Nat) (v : V)
    (e : Nat × V) (h : e ∈ mset ord m p v) : ord e.1 = ord p ∨ ∃ e' ∈ m, e'.1 = e.1 := by
  induction m with
  | nil => simp [mset] at h; left; rw [h]
  | cons a rest ih =>
    obtain ⟨k, u⟩ := a
    simp only [mset] at h
    split_ifs at h with h1 h2
    · rcases List.mem_cons.1 h with h | h
      · left; rw [h]; exact h1
      · right; exact ⟨e, List.mem_cons_of_mem _ h, rfl⟩
    · rcases List.mem_cons.1 h with h | h
      · left; rw [h]
      · right; exact ⟨e, h, rfl⟩
    · rcases List.mem_cons.1 h with h | h
      · right; exact ⟨(k, u), List.mem_cons_self _ _, by rw [h]⟩
      · rcases ih h with h | ⟨e', he', h⟩
        · left; exact h
        · right; exact ⟨e', List.mem_cons_of_mem _ he', h⟩

theorem keysSorted_mset {V : Type} (ord : Nat → Int) (m : List (Nat × V)) (p : Nat) (v : V)
    (h : KeysSorted ord m) : KeysSorted ord (mset ord m p v) := by
  induction m with
  | nil => simp [mset, KeysSorted]
  | cons a rest ih =>
    obtain ⟨k, u⟩ := a
    simp only [KeysSorted, List.pairwise_cons] at h
    simp only [mset]
    split_ifs with h1 h2
    · simp only [KeysSorted, List.pairwise_cons]
      exact ⟨h.1, h.2⟩
    · simp only [KeysSorted, List.pairwise_cons]
      refine ⟨?_, h.1, h.2⟩
      intro b hb
      rcases List.mem_cons.1 hb with hb | hb
      · rw [hb]; exact h2
      · have := h.1 b hb
        simp only at this
        omega
    · simp only [KeysSorted, List.pairwise_cons]
      refine ⟨?_, ih h.2⟩
      intro b hb
      rcases mem_mset ord rest p v b hb with hb | ⟨e', he', hb⟩
      · show ord k < ord b.1
        omega
      · have := h.1 e' he'
        show ord k < ord b.1
        rw [← hb]; exact this

theorem merase_sublist {V : Type} (ord : Nat → Int) (m : List (Nat × V)) (p : Nat) :
    (merase ord m p).Sublist m := by
  induction m with
  | nil => simp [merase]
  | cons a rest ih =>
    obtain ⟨k, u⟩ := a
    simp only [merase]
    split_ifs
    · exact List.sublist_cons_self _ _
    · exact ih.cons₂ _

theorem keysSorted_merase {V : Type} (ord : Nat → Int) (m : List (Nat × V)) (p : Nat)
    (h : KeysSorted ord m) : KeysSorted ord (merase ord m p) :=
  List.Pairwise.sublist (merase_sublist ord m p) h

theorem merase_of_lt {V : Type} (ord : Nat → Int) (m : List (Nat × V)) (p : Nat)
    (h : ∀ e ∈ m, ord p < ord e.1) : merase ord m p = m := by
  induction m with
  | nil => simp [merase]
  | cons a rest ih =>
    obtain ⟨k, u⟩ := a
    have hk := h (k, u) (List.mem_cons_self _ _)
    simp only at hk
    simp only [merase]
    rw [if_neg (by omega), ih (fun e he => h e (List.mem_cons_of_mem _ he))]

theorem mfind_of_lt {V : Type} (ord : Nat → Int) (m : List (Nat × V)) (p : Nat)
    (h : ∀ e ∈ m, ord p < ord e.1) : mfind ord m p = none := by
  induction m with
  | nil => simp [mfind]
  | cons a rest ih =>
    obtain ⟨k, u⟩ := a
    have hk := h (k, u) (List.mem_cons_self _ _)
    simp only at hk
    simp only [mfind]
    rw [if_neg (by omega), ih (fun e he => h e (List.mem_cons_of_mem _ he))]

theorem mset_same {V : Type} (ord : Nat → Int) (m : List (Nat × V)) (p : Nat) (v : V)
    (hs : KeysSorted ord m) (h : mfind ord m p = some v) : mset ord m p v = m := by
  induction m with
  | nil => simp [mfind] at h
  | cons a rest ih =>
    obtain ⟨k, u⟩ := a
    simp only [KeysSorted, List.pairwise_cons] at hs
    simp only [mfind] at h
    simp only [mset]
    split_ifs at h with h1
    · rw [if_pos h1]; simp only [Option.some.injEq] at h; rw [h]
    · rw [if_neg h1]
      split_ifs with h2
      · exfalso
        rw [mfind_of_lt ord rest p] at h
        · simp at h
        · intro e he
          have := hs.1 e he
          simp only at this
          omega
      · rw [ih hs.2 h]

theorem mfind_merase {V : Type} (ord : Nat → Int) (m : List (Nat × V)) (p p' : Nat)
    (hs : KeysSorted ord m) :
    mfind ord (merase ord m p) p' = if ord p = ord p' then none else mfind ord m p' := by
  induction m with
  | nil => simp [merase, mfind]
  | cons a rest ih =>
    obtain ⟨k, u⟩ := a
    simp only [KeysSorted, List.pairwise_cons] at hs
    simp only [merase]
    split_ifs with h1 h2 h2
    · rw [mfind_of_lt]
      intro e he
      have := hs.1 e he
      simp only at this
      omega
    · simp only [mfind]; rw [if_neg (by omega)]
    · simp only [mfind, ih hs.2, if_pos h2]; rw [if_neg (by omega)]
    · simp only [mfind, ih hs.2, if_neg h2]

theorem mfind_mem {V : Type} (ord : Nat → Int) (m : List (Nat × V)) (e : Nat × V) (p : Nat)
    (hs : KeysSorted ord m) (he : e ∈ m) (hp : ord p = ord e.1) : mfind ord m p = some e.2 := by
  induction m with
  | nil => simp at he
  | cons a rest ih =>
    obtain ⟨k, u⟩ := a
    simp only [KeysSorted, List.pairwise_cons] at hs
    simp only [mfind]
    rcases List.mem_cons.1 he with h | h
    · rw [h] at hp ⊢; simp only at hp; rw [if_pos hp.symm]
    · have := hs.1 e h
      simp only at this
      rw [if_neg (by omega)]
      exact ih hs.2 h

theorem mem_of_mfind {V : Type} (ord : Nat → Int) (m : List (Nat × V)) (p : Nat) (v : V)
    (h : mfind ord m p = some v) : ∃ k, (k, v) ∈ m ∧ ord k = ord p := by
  induction m with
  | nil => simp [mfind] at h
  | cons a rest ih =>
    obtain ⟨k, u⟩ := a
    simp only [mfind] at h
    split_ifs at h with h1
    · simp only [Option.some.injEq] at h
      exact ⟨k, by rw [h]; exact List.mem_cons_self _ _, h1⟩
    · obtain ⟨k', hk', h'⟩ := ih h
      exact ⟨k', List.mem_cons_of_mem _ hk', h'⟩

/-! ## order_book.cpp: queues and levels in step -/

theorem sumQty_append (dq : List Order) (o : Order) :
    sumQty (dq ++ [o]) = sumQty dq + o.quantity := by
  simp [sumQty]

theorem sumQty_eraseIdx (dq : List Order) (idx : Nat) (v : Order) (h : dq[idx]? = some v) :
    sumQty (dq.eraseIdx idx) + v.quantity = sumQty dq := by
  induction dq generalizing idx with
  | nil => simp at h
  | cons a rest ih =>
    cases idx with
    | zero =>
      simp only [List.getElem?_cons_zero, Option.some.injEq] at h
      subst h
      simp [sumQty, List.eraseIdx]; omega
    | succ n =>
      simp only [List.getElem?_cons_succ] at h
      have := ih n h
      simp only [sumQty, List.eraseIdx, List.map_cons, List.sum_cons] at this ⊢
      omega

theorem sumQty_set (dq : List Order) (idx : Nat) (old new : Order) (h : dq[idx]? = some old) :
    sumQty (dq.set idx new) + old.quantity = sumQty dq + new.quantity := by
  induction dq generalizing idx with
  | nil => simp at h
  | cons a rest ih =>
    cases idx with
    | zero =>
      simp only [List.getElem?_cons_zero, Option.some.injEq] at h
      subst h
      simp [sumQty, List.set]; omega
    | succ n =>
      simp only [List.getElem?_cons_succ] at h
      have := ih n h
      simp only [sumQty, List.set, List.map_cons, List.sum_cons] at this ⊢
      omega

theorem forall2_find (ord : Nat → Int) {qs : List (Nat × List Order)}
    {ls : List (Nat × PriceLevel)} (h : List.Forall₂ (LevelOk ord) qs ls) (p : Nat) :
    (mfind ord qs p = none ∧ mfind ord ls p = none) ∨
    ∃ dq l, mfind ord qs p = some dq ∧ mfind ord ls p = some l ∧ dq ≠ [] ∧
      l.totalquantity = sumQty dq % UINT64_SIZE ∧ ord l.price = ord p := by
  induction h with
  | nil => left; simp [mfind]
  | @cons q l qs' ls' hql _ ih =>
    obtain ⟨k, dq⟩ := q
    obtain ⟨k', lv⟩ := l
    obtain ⟨hk, hne, ht, hp⟩ := hql
    simp only at hk hne ht hp
    subst hk
    simp only [mfind]
    by_cases h1 : ord k = ord p
    · right
      exact ⟨dq, lv, by simp [h1], by simp [h1], hne, ht, by omega⟩
    · simp only [if_neg h1]; exact ih

theorem forall2_mset (ord : Nat → Int) {qs : List (Nat × List Order)}
    {ls : List (Nat × PriceLevel)} (h : List.Forall₂ (LevelOk ord) qs ls) (p : Nat)
    (dq : List Order) (l : PriceLevel)
    (hnew : ∀ k, ord k = ord p → LevelOk ord (k, dq) (k, l)) :
    List.Forall₂ (LevelOk ord) (mset ord qs p dq) (mset ord ls p l) := by
  induction h with
  | nil => simp only [mset]; exact List.Forall₂.cons (hnew p rfl) List.Forall₂.nil
  | @cons q lv qs' ls' hql htail ih =>
    obtain ⟨k, d⟩ := q
    obtain ⟨k', v⟩ := lv
    have hk : k = k' := hql.1
    subst hk
    simp only [mset]
    split_ifs with h1 h2
    · exact List.Forall₂.cons (hnew k h1) htail
    · exact List.Forall₂.cons (hnew p rfl) (List.Forall₂.cons hql htail)
    · exact List.Forall₂.cons hql ih

theorem forall2_keys (ord : Nat → Int) {qs : List (Nat × List Order)}
    {ls : List (Nat × PriceLevel)} (h : List.Forall₂ (LevelOk ord) qs ls) :
    qs.map (fun e => e.1) = ls.map (fun e => e.1) := by
  induction h with
  | nil => rfl
  | cons hql _ ih => simp only [List.map_cons, ih, hql.1]

theorem keysSorted_iff_keys {V : Type} (ord : Nat → Int) (m : List (Nat × V)) :
    KeysSorted ord m ↔ (m.map (fun e => e.1)).Pairwise (fun a b => ord a < ord b) := by
  simp only [KeysSorted, List.pairwise_map]

theorem keysSorted_levels (ord : Nat → Int) {qs : List (Nat × List Order)}
    {ls : List (Nat × PriceLevel)} (h : SideOk ord qs ls) : KeysSorted ord ls := by
  rw [keysSorted_iff_keys, ← forall2_keys ord h.2, ← keysSorted_iff_keys]
  exact h.1

theorem forall2_merase (ord : Nat → Int) {qs : List (Nat × List Order)}
    {ls : List (Nat × PriceLevel)} (h : List.Forall₂ (LevelOk ord) qs ls)
    (hs : KeysSorted ord qs) (p : Nat) (l : PriceLevel) :
    List.Forall₂ (LevelOk ord) (merase ord qs p) (merase ord (mset ord ls p l) p) := by
  induction h with
  | nil => simp [merase, mset]
  | @cons q lv qs' ls' hql htail ih =>
    obtain ⟨k, d⟩ := q
    obtain ⟨k', v⟩ := lv
    have hk : k = k' := hql.1
    subst hk
    simp only [KeysSorted, List.pairwise_cons] at hs
    simp only [mset, merase]
    split_ifs with h1 h2
    · simp only [merase, if_pos h1]; exact htail
    · simp only [merase, if_true]
      rw [merase_of_lt]
      · exact List.Forall₂.cons hql htail
      · intro e he
        have := hs.1 e he
        simp only at this
        omega
    · simp only [merase, if_neg h1]
      exact List.Forall₂.cons hql (ih hs.2)

theorem pushLevel_eq (ord : Nat → Int) (qs : List (Nat × List Order))
    (ls : List (Nat × PriceLevel)) (o : Order) :
    pushLevel ord qs ls o =
      (mset ord qs o.price (mat ord qs o.price [] ++ [o]),
       mset ord ls o.price
        ⟨o.price, uadd (mat ord ls o.price PriceLevel.zero).totalquantity o.quantity⟩) := by
  simp only [pushLevel, mat_mset_self, mset_mset]

theorem mat_total (ord : Nat → Int) {qs : List (Nat × List Order)}
    {ls : List (Nat × PriceLevel)} (h : List.Forall₂ (LevelOk ord) qs ls) (p : Nat) :
    (mat ord ls p PriceLevel.zero).totalquantity = sumQty (mat ord qs p []) % UINT64_SIZE := by
  rcases forall2_find ord h p with ⟨h1, h2⟩ | ⟨dq, l, h1, h2, _, ht, _⟩
  · simp [mat, h1, h2, PriceLevel.zero, sumQty]
  · simp [mat, h1, h2, ht]

theorem sideOk_pushLevel (ord : Nat → Int) {qs : List (Nat × List Order)}
    {ls : List (Nat × PriceLevel)} (h : SideOk ord qs ls) (o : Order) :
    SideOk ord (pushLevel ord qs ls o).1 (pushLevel ord qs ls o).2 := by
  rw [pushLevel_eq]
  refine ⟨keysSorted_mset ord _ _ _ h.1, forall2_mset ord h.2 _ _ _ ?_⟩
  intro k hk
  refine ⟨rfl, by simp, ?_, hk.symm⟩
  show uadd _ _ = _
  rw [mat_total ord h.2, uadd_mod_sum, sumQty_append]

theorem sideOk_eraseLevel (ord : Nat → Int) {qs : List (Nat × List Order)}
    {ls : List (Nat × PriceLevel)} (h : SideOk ord qs ls) (p idx : Nat)
    (r : List (Nat × List Order) × List (Nat × PriceLevel) × Nat)
    (hr : eraseLevel ord qs ls p idx = some r) : SideOk ord r.1 r.2.1 := by
  unfold eraseLevel at hr
  rcases forall2_find ord h.2 p with ⟨h1, _⟩ | ⟨dq, l, h1, h2, hne, ht, hp⟩
  · rw [h1] at hr; simp at hr
  · rw [h1] at hr
    simp only at hr
    cases hv : dq[idx]? with
    | none => rw [hv] at hr; simp at hr
    | some victim =>
      rw [hv] at hr
      simp only at hr
      have hsum := sumQty_eraseIdx dq idx victim hv
      split_ifs at hr with he
      · simp only [Option.some.injEq] at hr
        subst hr
        exact ⟨keysSorted_merase ord _ _ h.1, forall2_merase ord h.2 h.1 _ _⟩
      · simp only [Option.some.injEq] at hr
        subst hr
        refine ⟨keysSorted_mset ord _ _ _ h.1, forall2_mset ord h.2 _ _ _ ?_⟩
        intro k hk
        refine ⟨rfl, he, ?_, ?_⟩
        · show usub _ _ = _
          simp only [mat, h2, Option.getD_some]
          rw [ht, ← hsum, usub_mod_sum]
        · show ord (mat ord ls p PriceLevel.zero).price = ord k
          simp only [mat, h2, Option.getD_some]
          omega

theorem sideOk_requantify (ord : Nat → Int) {qs : List (Nat × List Order)}
    {ls : List (Nat × PriceLevel)} (h : SideOk ord qs ls) (ref : OrderRef) (old : Order)
    (newquantity : Nat) (hd : deref ord qs ref = some old) :
    SideOk ord (requantify ord qs ls ref old newquantity).1
      (requantify ord qs ls ref old newquantity).2 := by
  unfold deref at hd
  split_ifs at hd with hv
  rcases forall2_find ord h.2 ref.price with ⟨h1, _⟩ | ⟨dq, l, h1, h2, hne, ht, hp⟩
  · rw [h1] at hd; simp at hd
  · rw [h1] at hd
    simp only at hd
    have hsum := sumQty_set dq ref.orderIt old { old with quantity := newquantity } hd
    simp only [requantify]
    refine ⟨keysSorted_mset ord _ _ _ h.1, forall2_mset ord h.2 _ _ _ ?_⟩
    intro k hk
    refine ⟨rfl, ?_, ?_, ?_⟩
    · simp only [mat, h1, Option.getD_some]
      intro hnil
      have := congrArg List.length hnil
      simp only [List.length_set, List.length_nil] at this
      exact hne (List.length_eq_zero.1 this)
    · show uadd _ _ = _
      simp only [mat, h1, h2, Option.getD_some]
      rw [ht]
      exact uadd_usub_mod _ _ _ _ hsum
    · show ord (mat ord ls ref.price PriceLevel.zero).price = ord k
      simp only [mat, h2, Option.getD_some]
      omega

/-! ## order_book.cpp: every call keeps queues and levels in step -/

theorem bookOk_empty : BookOk OrderBook.empty := by
  simp [BookOk, SideOk, KeysSorted, OrderBook.empty]

theorem bookOk_addorder (b b1 : OrderBook) (o : Order) (h : BookOk b)
    (ha : b.addorder o = some b1) : BookOk b1 := by
  unfold OrderBook.addorder at ha
  split_ifs at ha with hn hb
  · simp only [Option.some.injEq] at ha
    subst ha
    exact ⟨sideOk_pushLevel bidOrd h.1 o, h.2⟩
  · simp only [Option.some.injEq] at ha
    subst ha
    exact ⟨h.1, sideOk_pushLevel askOrd h.2 o⟩

theorem bookOk_cancelorder (b : OrderBook) (orderid : Nat) (r : Bool × OrderBook)
    (h : BookOk b) (hc : b.cancelorder orderid = some r) : BookOk r.2 := by
  unfold OrderBook.cancelorder at hc
  cases hl : alookup b.order_lookup_ orderid with
  | none =>
    rw [hl] at hc
    simp only [Option.some.injEq] at hc
    subst hc
    exact h
  | some ref =>
    rw [hl] at hc
    simp only at hc
    split_ifs at hc with hv hb
    · cases he : eraseLevel bidOrd b.bids_ b.bid_levels_ ref.price ref.orderIt with
      | none => rw [he] at hc; simp at hc
      | some t =>
        rw [he] at hc
        simp only [Option.some.injEq] at hc
        subst hc
        exact ⟨sideOk_eraseLevel bidOrd h.1 _ _ _ he, h.2⟩
    · cases he : eraseLevel askOrd b.asks_ b.ask_levels_ ref.price ref.orderIt with
      | none => rw [he] at hc; simp at hc
      | some t =>
        rw [he] at hc
        simp only [Option.some.injEq] at hc
        subst hc
        exact ⟨h.1, sideOk_eraseLevel askOrd h.2 _ _ _ he⟩

theorem bookOk_amendorder (b : OrderBook) (orderid newprice newquantity : Nat)
    (r : Bool × OrderBook) (h : BookOk b)
    (hc : b.amendorder orderid newprice newquantity = some r) : BookOk r.2 := by
  unfold OrderBook.amendorder at hc
  cases hl : alookup b.order_lookup_ orderid with
  | none =>
    rw [hl] at hc
    simp only [Option.some.injEq] at hc
    subst hc
    exact h
  | some ref =>
    rw [hl] at hc
    simp only at hc
    cases hd : deref (if ref.isbuy then bidOrd else askOrd)
        (if ref.isbuy then b.bids_ else b.asks_) ref with
    | none => rw [hd] at hc; simp at hc
    | some old =>
      rw [hd] at hc
      simp only at hc
      split_ifs at hc with hp hb
      · cases hx : b.cancelorder orderid with
        | none => rw [hx] at hc; simp at hc
        | some x =>
          rw [hx] at hc
          simp only at hc
          have h1 := bookOk_cancelorder b orderid x h hx
          cases hy : x.2.addorder
              { old with price := newprice, quantity := newquantity } with
          | none => rw [hy] at hc; simp at hc
          | some y =>
            rw [hy] at hc
            simp only [Option.some.injEq] at hc
            subst hc
            exact bookOk_addorder _ _ _ h1 hy
      · simp only [Option.some.injEq] at hc
        subst hc
        rw [if_pos hb, if_pos hb] at hd
        exact ⟨sideOk_requantify bidOrd h.1 ref old newquantity hd, h.2⟩
      · simp only [Option.some.injEq] at hc
        subst hc
        rw [if_neg hb, if_neg hb] at hd
        exact ⟨h.1, sideOk_requantify askOrd h.2 ref old newquantity hd⟩

theorem bookOk_apply (b b1 : OrderBook) (op : BookOp) (h : BookOk b)
    (ha : b.apply op = some b1) : BookOk b1 := by
  cases op with
  | add order => exact bookOk_addorder b b1 order h ha
  | cancel orderid =>
    simp only [OrderBook.apply, Option.map_eq_some'] at ha
    obtain ⟨r, hr, rfl⟩ := ha
    exact bookOk_cancelorder b orderid r h hr
  | amend orderid newprice newquantity =>
    simp only [OrderBook.apply, Option.map_eq_some'] at ha
    obtain ⟨r, hr, rfl⟩ := ha
    exact bookOk_amendorder b orderid newprice newquantity r h hr

theorem bookOk_run (ops : List BookOp) (b b1 : OrderBook) (h : BookOk b)
    (hr : b.run ops = some b1) : BookOk b1 := by
  induction ops generalizing b with
  | nil =>
    simp only [OrderBook.run, Option.some.injEq] at hr
    subst hr
    exact h
  | cons op rest ih =>
    simp only [OrderBook.run] at hr
    cases ha : b.apply op with
    | none => rw [ha] at hr; simp at hr
    | some b2 =>
      rw [ha] at hr
      exact ih b2 (bookOk_apply b b2 op h ha) hr

theorem bookOk_reachable (ops : List BookOp) (b : OrderBook)
    (hr : OrderBook.empty.run ops = some b) : BookOk b :=
  bookOk_run ops _ b bookOk_empty hr

theorem sideOk_side (b : OrderBook) (h : BookOk b) (isbuy : Bool) :
    SideOk (sideOrd isbuy) (if isbuy then b.bids_ else b.asks_)
      (if isbuy then b.bid_levels_ else b.ask_levels_) := by
  cases isbuy
  · exact h.2
  · exact h.1

theorem queueAt_eq (b : OrderBook) (isbuy : Bool) (price : Nat) :
    b.queueAt isbuy price =
      mat (sideOrd isbuy) (if isbuy then b.bids_ else b.asks_) price [] := by
  cases isbuy <;> rfl

theorem levelAt_eq (b : OrderBook) (isbuy : Bool) (price : Nat) :
    b.levelAt isbuy price =
      mfind (sideOrd isbuy) (if isbuy then b.bid_levels_ else b.ask_levels_) price := by
  cases isbuy <;> rfl

/-- Level aggregates within the C++ container rules. In every book reached
from the empty book by calls of `addorder`, `cancelorder` and `amendorder` none
of which uses an invalidated iterator, for each side and each price a price
level entry exists exactly when orders are queued at that price on that side,
and its `totalquantity` is the sum of the quantities of those orders modulo
2^64. -/
theorem level_aggregates (ops : List BookOp) (B : OrderBook)
    (h : OrderBook.empty.run ops = some B) (isbuy : Bool) (price : Nat) :
    ((B.levelAt isbuy price).isSome ↔ B.queueAt isbuy price ≠ []) ∧
    ∀ l, B.levelAt isbuy price = some l →
      l.totalquantity = sumQty (B.queueAt isbuy price) % UINT64_SIZE := by
  have hs := sideOk_side B (bookOk_reachable ops B h) isbuy
  rw [queueAt_eq, levelAt_eq]
  rcases forall2_find _ hs.2 price with ⟨h1, h2⟩ | ⟨dq, l, h1, h2, hne, ht, _⟩
  · simp [mat, h1, h2]
  · simp only [mat, h1, h2, Option.isSome_some, Option.getD_some, ne_eq, true_iff,
      Option.some.injEq]
    exact ⟨hne, fun l' hl' => hl' ▸ ht⟩

set_option maxRecDepth 100000 in
theorem level_aggregates_witness :
    OrderBook.empty.run MAIN_OPS = some MAIN_BOOK ∧
    (((MAIN_BOOK.levelAt false PRICE_101_6).isSome ↔
        MAIN_BOOK.queueAt false PRICE_101_6 ≠ []) ∧
      ∀ l, MAIN_BOOK.levelAt false PRICE_101_6 = some l →
        l.totalquantity = sumQty (MAIN_BOOK.queueAt false PRICE_101_6) % UINT64_SIZE) :=
  ⟨by decide, level_aggregates MAIN_OPS MAIN_BOOK (by decide) false PRICE_101_6⟩

/-! ## order_book.cpp: a stored iterator after `erase` -/

/-- The layout follows libstdc++: erasing the second of four elements moves the
first one slot up and `begin()` with it; erasing the third moves the fourth one
slot down and `end()` with it. The slot given up keeps its bytes. -/
theorem deque_erase_layout :
    (FOUR_SLOTS.erase 1).map (fun d => (d.slots.map (fun o => o.orderid), d.start, d.finish))
      = some ([1, 1, 3, 4], 1, 4) ∧
    (FOUR_SLOTS.erase 2).map (fun d => (d.slots.map (fun o => o.orderid), d.start, d.finish))
      = some ([1, 2, 4, 4], 0, 3) ∧
    ((FOUR_SLOTS.erase 1).map (fun d => d.elems.map (fun o => o.orderid))) = some [1, 3, 4] ∧
    ((FOUR_SLOTS.erase 2).map (fun d => d.elems.map (fun o => o.orderid))) = some [1, 2, 4] := by
  decide

set_option maxRecDepth 100000 in
/-- On the calls of `main` both embeddings give the same queues and levels. -/
theorem slotBook_main :
    (SlotBook.empty.run MAIN_OPS).map (fun b => queues b.bids_) = some MAIN_BOOK.bids_ ∧
    (SlotBook.empty.run MAIN_OPS).map (fun b => queues b.asks_) = some MAIN_BOOK.asks_ ∧
    (SlotBook.empty.run MAIN_OPS).map (fun b => b.bid_levels_) = some MAIN_BOOK.bid_levels_ ∧
    (SlotBook.empty.run MAIN_OPS).map (fun b => b.ask_levels_) = some MAIN_BOOK.ask_levels_ := by
  decide

set_option maxRecDepth 100000 in
/-- Claim C21, failing input. Three buy orders are added at one price, the
second is cancelled and the third is amended at the same price. The three
`addorder` calls are within the C++ container rules; `cancelorder(2)` uses an
iterator that the third `push_back` invalidated, so the rules give the run no
outcome. With the deque of libstdc++ the run goes through: `erase` moves the
third order one slot down, the iterator stored for it is left at the slot
given up, and `amendorder` reads the old quantity 7 from that slot, writes 20
into it and adds 13 to the level total. The level then holds the total 30
while the orders queued at the price have the quantities 10 and 7. -/
theorem level_total_off_after_amend :
    (OrderBook.empty.run (STALE_AMEND_OPS.take 3)).isSome = true ∧
    OrderBook.empty.run (STALE_AMEND_OPS.take 4) = none ∧
    SlotBook.empty.run STALE_AMEND_OPS = some STALE_AMEND_BOOK ∧
    STALE_AMEND_BOOK.levelAt true PRICE_101_5 = some ⟨PRICE_101_5, 30⟩ ∧
    (STALE_AMEND_BOOK.queueAt true PRICE_101_5).map (fun o => (o.orderid, o.quantity))
      = [(1, 10), (3, 7)] ∧
    sumQty (STALE_AMEND_BOOK.queueAt true PRICE_101_5) % UINT64_SIZE = 17 := by
  decide

/-! ## order_book.cpp: `cancelorder` after `addorder` -/

theorem alookup_ainsert_self (l : List (Nat × OrderRef)) (id : Nat) (r : OrderRef) :
    alookup (ainsert l id r) id = some r := by
  induction l with
  | nil => simp [ainsert, alookup]
  | cons e rest ih =>
    obtain ⟨k, w⟩ := e
    simp only [ainsert]
    split_ifs with h1
    · simp [alookup, h1]
    · simp [alookup, h1, ih]

theorem aerase_ainsert_fresh (l : List (Nat × OrderRef)) (id : Nat) (r : OrderRef)
    (h : alookup l id = none) : aerase (ainsert l id r) id = l := by
  induction l with
  | nil => simp [ainsert, aerase]
  | cons e rest ih =>
    obtain ⟨k, w⟩ := e
    simp only [alookup] at h
    split_ifs at h with h1
    simp [ainsert, aerase, h1, ih h]

theorem alookup_invalidate_none (l : List (Nat × OrderRef)) (isbuy : Bool) (price id : Nat)
    (h : alookup l id = none) : alookup (invalidate isbuy price l) id = none := by
  induction l with
  | nil => simp [invalidate, alookup]
  | cons e rest ih =>
    obtain ⟨k, w⟩ := e
    simp only [alookup] at h
    split_ifs at h with h1
    have := ih h
    simp only [invalidate, List.map_cons] at this ⊢
    split_ifs <;> simp [alookup, h1, this]

theorem refEntry_invalidate (l : List (Nat × OrderRef)) (isbuy : Bool) (price : Nat) :
    (invalidate isbuy price l).map refEntry = l.map refEntry := by
  simp only [invalidate, List.map_map]
  apply List.map_congr_left
  intro e _
  simp only [Function.comp]
  split_ifs <;> rfl

theorem eraseIdx_concat (dq : List Order) (o : Order) :
    (dq ++ [o]).eraseIdx dq.length = dq := by
  induction dq with
  | nil => rfl
  | cons a rest ih =>
    rw [List.cons_append, List.length_cons, List.eraseIdx_cons_succ, ih]

theorem getElem?_concat (dq : List Order) (o : Order) :
    (dq ++ [o])[dq.length]? = some o := by
  simp

theorem eraseLevel_pushLevel (ord : Nat → Int) (qs : List (Nat × List Order))
    (ls : List (Nat × PriceLevel)) (h : SideOk ord qs ls) (o : Order)
    (hl : ∀ l, mfind ord ls o.price = some l → l.price = o.price) :
    (mat ord (pushLevel ord qs ls o).1 o.price []).length - 1 =
      (mat ord qs o.price []).length ∧
    eraseLevel ord (pushLevel ord qs ls o).1 (pushLevel ord qs ls o).2 o.price
        (mat ord qs o.price []).length =
      some (qs, ls, (mat ord qs o.price []).length + 1) := by
  rw [pushLevel_eq]
  have hlt : (mat ord ls o.price PriceLevel.zero).totalquantity < UINT64_SIZE := by
    rw [mat_total ord h.2]
    exact Nat.mod_lt _ (by decide)
  refine ⟨by simp [mat_mset_self], ?_⟩
  simp only [eraseLevel, mfind_mset_self, getElem?_concat, mat_mset_self, mset_mset,
    eraseIdx_concat, usub_uadd _ _ hlt, List.length_append, List.length_singleton]
  rcases forall2_find ord h.2 o.price with ⟨h1, h2⟩ | ⟨dq, l, h1, h2, hne, ht, hp⟩
  · simp only [mat, h1, h2, Option.getD_none, if_true, List.length_nil]
    rw [merase_mset_fresh ord qs _ _ h1, merase_mset_fresh ord ls _ _ h2]
  · simp only [mat, h1, h2, Option.getD_some, if_neg hne]
    rw [mset_same ord qs _ _ h.1 h1, mset_same ord ls _ _ (keysSorted_levels ord h)]
    rw [h2, ← hl l h2]

theorem addorder_cancelorder (B : OrderBook) (o : Order) (hB : BookOk B)
    (hid : alookup B.order_lookup_ o.orderid = none) (hn : isNaN o.price = false)
    (hl : ∀ l, B.levelAt o.isbuy o.price = some l → l.price = o.price) :
    ∃ B1, B.addorder o = some B1 ∧
      B1.cancelorder o.orderid =
        some (true, { B with
          order_lookup_ := invalidate o.isbuy o.price B.order_lookup_ }) := by
  have hfresh := alookup_invalidate_none B.order_lookup_ o.isbuy o.price o.orderid hid
  cases hb : o.isbuy with
  | true =>
    rw [hb] at hl hfresh
    simp only [OrderBook.levelAt, if_true] at hl
    obtain ⟨hlen, her⟩ := eraseLevel_pushLevel bidOrd B.bids_ B.bid_levels_ hB.1 o hl
    refine ⟨_, by simp only [OrderBook.addorder, hn, hb, if_true]; rfl, ?_⟩
    simp only [OrderBook.cancelorder, alookup_ainsert_self, hlen, her, afterErase,
      Bool.not_true, if_true, aerase_ainsert_fresh _ _ _ hfresh]
    rfl
  | false =>
    rw [hb] at hl hfresh
    simp only [OrderBook.levelAt] at hl
    obtain ⟨hlen, her⟩ := eraseLevel_pushLevel askOrd B.asks_ B.ask_levels_ hB.2 o hl
    refine ⟨_, by simp only [OrderBook.addorder, hn, hb]; rfl, ?_⟩
    simp only [OrderBook.cancelorder, alookup_ainsert_self, hlen, her, afterErase,
      Bool.not_true, if_true, aerase_ainsert_fresh _ _ _ hfresh]
    rfl

/-- Claim C22, counterexample. The book holding the buy order 1 is reached from
the empty book; adding a sell order that uses the id 1 again and cancelling
the id 1 returns true, but leaves a book without lookup entry for the id 1:
the buy order 1 still rests in its queue and `cancelorder(1)` returns false. -/
theorem add_cancel_reused_id :
    OrderBook.empty.run ONE_BID_OPS = some ONE_BID_BOOK ∧
    (ONE_BID_BOOK.addorder SAME_ID_ORDER).bind
        (fun b => b.cancelorder SAME_ID_ORDER.orderid) = some (true, ONE_BID_ORPHAN) ∧
    ONE_BID_ORPHAN ≠ ONE_BID_BOOK ∧
    ONE_BID_ORPHAN.queueAt true PRICE_101_5 = ONE_BID_BOOK.queueAt true PRICE_101_5 ∧
    ONE_BID_BOOK.queueAt true PRICE_101_5 ≠ [] ∧
    ONE_BID_ORPHAN.cancelorder 1 = some (false, ONE_BID_ORPHAN) := by
  decide

/-- Claim C22, amended. For every book B reached from the empty book and every
order o whose id is not in the id lookup of B, whose price is not a NaN and
whose price has the bit pattern of the price stored in the level of its side at
that price, if there is one: `addorder(o)` followed by `cancelorder(o.orderid)`
returns true and leaves the order queues and the price levels with their
totals exactly as in B, and an id lookup with the entries of B (id, side, price
and iterator position). -/
theorem add_cancel_round_trip (ops : List BookOp) (B : OrderBook) (o : Order)
    (h : OrderBook.empty.run ops = some B)
    (hid : alookup B.order_lookup_ o.orderid = none) (hn : isNaN o.price = false)
    (hl : ∀ l, B.levelAt o.isbuy o.price = some l → l.price = o.price) :
    ∃ B1 B2, B.addorder o = some B1 ∧ B1.cancelorder o.orderid = some (true, B2) ∧
      B2.bids_ = B.bids_ ∧ B2.asks_ = B.asks_ ∧
      B2.bid_levels_ = B.bid_levels_ ∧ B2.ask_levels_ = B.ask_levels_ ∧
      B2.order_lookup_.map refEntry = B.order_lookup_.map refEntry := by
  obtain ⟨B1, h1, h2⟩ := addorder_cancelorder B o (bookOk_reachable ops B h) hid hn hl
  exact ⟨B1, _, h1, h2, rfl, rfl, rfl, rfl, refEntry_invalidate _ _ _⟩

theorem add_cancel_round_trip_witness :
    OrderBook.empty.run ONE_BID_OPS = some ONE_BID_BOOK ∧
    alookup ONE_BID_BOOK.order_lookup_ NEW_BID_ORDER.orderid = none ∧
    isNaN NEW_BID_ORDER.price = false ∧
    (∀ l, ONE_BID_BOOK.levelAt NEW_BID_ORDER.isbuy NEW_BID_ORDER.price = some l →
      l.price = NEW_BID_ORDER.price) ∧
    ∃ B1 B2, ONE_BID_BOOK.addorder NEW_BID_ORDER = some B1 ∧
      B1.cancelorder NEW_BID_ORDER.orderid = some (true, B2) ∧
      B2.bids_ = ONE_BID_BOOK.bids_ ∧ B2.asks_ = ONE_BID_BOOK.asks_ ∧
      B2.bid_levels_ = ONE_BID_BOOK.bid_levels_ ∧
      B2.ask_levels_ = ONE_BID_BOOK.ask_levels_ ∧
      B2.order_lookup_.map refEntry = ONE_BID_BOOK.order_lookup_.map refEntry :=
  have hl : ∀ l, ONE_BID_BOOK.levelAt NEW_BID_ORDER.isbuy NEW_BID_ORDER.price = some l →
      l.price = NEW_BID_ORDER.price := by
    intro l hl
    have hv : ONE_BID_BOOK.levelAt NEW_BID_ORDER.isbuy NEW_BID_ORDER.price =
        some ⟨PRICE_101_5, 10⟩ := by decide
    rw [hv] at hl
    cases hl
    rfl
  ⟨by decide, by decide, by decide, hl,
    add_cancel_round_trip ONE_BID_OPS ONE_BID_BOOK NEW_BID_ORDER (by decide) (by decide)
      (by decide) hl⟩

/-- The stored price of a level is rewritten by `addorder`: after adding and
cancelling a buy order at -0.0 in a book with a level at +0.0, the level holds
the price -0.0. -/
theorem add_cancel_zero_sign :
    OrderBook.empty.run [BookOp.add ⟨1, true, 0, 10, 100000⟩] = some ZERO_BID_BOOK ∧
    (ZERO_BID_BOOK.addorder NEG_ZERO_ORDER).bind
        (fun b => (b.cancelorder NEG_ZERO_ORDER.orderid).map
          (fun r => (r.1, r.2.bids_, r.2.bid_levels_))) =
      some (true, ZERO_BID_BOOK.bids_, [(0, ⟨PRICE_NEG_ZERO, 10⟩)]) := by
  decide

/-- The iterator stored for the order 1 is invalidated by the `push_back` of
an order at its price and stays so after that order is cancelled: the lookup
entry is the same but for that, and using it is undefined. -/
theorem add_cancel_invalidates :
    (ONE_BID_BOOK.addorder NEW_BID_ORDER).bind
        (fun b => (b.cancelorder NEW_BID_ORDER.orderid).map
          (fun r => (r.1, r.2.order_lookup_))) =
      some (true, [(1, ⟨true, PRICE_101_5, 0, false⟩)]) ∧
    (ONE_BID_BOOK.addorder NEW_BID_ORDER).bind
        (fun b => (b.cancelorder NEW_BID_ORDER.orderid).bind
          (fun r => r.2.cancelorder 1)) = none := by
  decide

/-! ## order_book.cpp: `get_snapshot` -/

theorem snapshotLoop_eq (levels : List (Nat × PriceLevel)) (depth count : Nat)
    (out : List PriceLevel) :
    snapshotLoop levels depth count out =
      out ++ (levels.take (depth - count)).map (fun e => e.2) := by
  induction levels generalizing count out with
  | nil => simp [snapshotLoop]
  | cons e rest ih =>
    simp only [snapshotLoop]
    split_ifs with h1
    · rw [ih]
      have : depth - count = (depth - (count + 1)) + 1 := by omega
      rw [this, List.take_succ_cons]
      simp
    · have : depth - count = 0 := by omega
      rw [this]
      simp

theorem get_snapshot_eq (b : OrderBook) (depth : Nat) (bids asks : List PriceLevel) :
    b.get_snapshot depth bids asks =
      ((b.bid_levels_.take depth).map (fun e => e.2),
       (b.ask_levels_.take depth).map (fun e => e.2)) := by
  simp [OrderBook.get_snapshot, snapshotLoop_eq, clear]

theorem forall2_level_price (ord : Nat → Int) {qs : List (Nat × List Order)}
    {ls : List (Nat × PriceLevel)} (h : List.Forall₂ (LevelOk ord) qs ls) :
    ∀ e ∈ ls, ord e.2.price = ord e.1 := by
  induction h with
  | nil => simp
  | @cons q l qs' ls' hql _ ih =>
    intro e he
    rcases List.mem_cons.1 he with he | he
    · rw [he, ← hql.1]; exact hql.2.2.2
    · exact ih e he

theorem snapshot_side (ord : Nat → Int) {qs : List (Nat × List Order)}
    {ls : List (Nat × PriceLevel)} (h : SideOk ord qs ls) (depth : Nat) :
    ((ls.take depth).map (fun e => e.2)).length = min depth ls.length ∧
    ((ls.take depth).map (fun e => e.2)).Pairwise (fun a b => ord a.price < ord b.price) ∧
    (∀ l ∈ (ls.take depth).map (fun e => e.2), mfind ord ls l.price = some l) ∧
    (∀ p l, mfind ord ls p = some l → l ∉ (ls.take depth).map (fun e => e.2) →
      ∀ a ∈ (ls.take depth).map (fun e => e.2), ord a.price < ord l.price) := by
  have hs := keysSorted_levels ord h
  have hp := forall2_level_price ord h.2
  refine ⟨by simp, ?_, ?_, ?_⟩
  · rw [List.pairwise_map]
    refine List.Pairwise.sublist (List.take_sublist depth ls) ?_
    refine List.Pairwise.imp_of_mem ?_ hs
    intro a b ha hb hab
    rw [hp a ha, hp b hb]
    exact hab
  · intro l hl
    obtain ⟨e, he, rfl⟩ := List.mem_map.1 hl
    exact mfind_mem ord ls e _ hs (List.mem_of_mem_take he) (hp e (List.mem_of_mem_take he))
  · intro p l hf hnot a ha
    obtain ⟨k, hk, _⟩ := mem_of_mfind ord ls p l hf
    obtain ⟨e, he, rfl⟩ := List.mem_map.1 ha
    have hsplit : ls.take depth ++ ls.drop depth = ls := List.take_append_drop depth ls
    have hk2 : (k, l) ∈ ls.drop depth := by
      rw [← hsplit] at hk
      rcases List.mem_append.1 hk with hk | hk
      · exact absurd (List.mem_map.2 ⟨(k, l), hk, rfl⟩) hnot
      · exact hk
    have hs2 := hs
    rw [KeysSorted, ← hsplit, List.pairwise_append] at hs2
    have := hs2.2.2 e he (k, l) hk2
    rw [hp e (List.mem_of_mem_take he), hp (k, l) (List.mem_of_mem_drop hk2)]
    exact this

/-- Claim C23. In every book reached from the empty book, for every depth d
and whatever the two output vectors held before, `get_snapshot(d)` leaves in
them min(d, number of bid levels) bid levels in strictly decreasing price order
and min(d, number of ask levels) ask levels in strictly increasing price order;
each of them is the level entry the book holds at its price, and every level of
the book that is left out is worse than each level returned (lower for bids,
higher for asks). -/
theorem get_snapshot_best_levels (ops : List BookOp) (B : OrderBook)
    (h : OrderBook.empty.run ops = some B) (d : Nat) (bids asks : List PriceLevel) :
    B.get_snapshot d bids asks = B.get_snapshot d [] [] ∧
    (B.get_snapshot d bids asks).1.length = min d B.bid_levels_.length ∧
    (B.get_snapshot d bids asks).2.length = min d B.ask_levels_.length ∧
    (B.get_snapshot d bids asks).1.Pairwise (fun a b => dkey b.price < dkey a.price) ∧
    (B.get_snapshot d bids asks).2.Pairwise (fun a b => dkey a.price < dkey b.price) ∧
    (∀ l ∈ (B.get_snapshot d bids asks).1, B.levelAt true l.price = some l) ∧
    (∀ l ∈ (B.get_snapshot d bids asks).2, B.levelAt false l.price = some l) ∧
    (∀ p l, B.levelAt true p = some l → l ∉ (B.get_snapshot d bids asks).1 →
      ∀ a ∈ (B.get_snapshot d bids asks).1, dkey l.price < dkey a.price) ∧
    (∀ p l, B.levelAt false p = some l → l ∉ (B.get_snapshot d bids asks).2 →
      ∀ a ∈ (B.get_snapshot d bids asks).2, dkey a.price < dkey l.price) := by
  have hB := bookOk_reachable ops B h
  obtain ⟨b1, b2, b3, b4⟩ := snapshot_side bidOrd hB.1 d
  obtain ⟨a1, a2, a3, a4⟩ := snapshot_side askOrd hB.2 d
  refine ⟨by rw [get_snapshot_eq, get_snapshot_eq], ?_⟩
  rw [get_snapshot_eq]
  refine ⟨b1, a1, ?_, a2, b3, a3, ?_, a4⟩
  · refine List.Pairwise.imp ?_ b2
    intro a b hab
    simp only [bidOrd] at hab
    omega
  · intro p l hf hnot a ha
    have := b4 p l hf hnot a ha
    simp only [bidOrd] at this
    omega

set_option maxRecDepth 100000 in
theorem get_snapshot_best_levels_witness :
    OrderBook.empty.run MAIN_OPS = some MAIN_BOOK ∧
    MAIN_BOOK.get_snapshot 1 STALE_OUTPUT [] =
      ([⟨PRICE_101_5, 10⟩], [⟨PRICE_101_6, 30⟩]) ∧
    (MAIN_BOOK.get_snapshot 1 STALE_OUTPUT [] = MAIN_BOOK.get_snapshot 1 [] [] ∧
    (MAIN_BOOK.get_snapshot 1 STALE_OUTPUT []).1.length =
      min 1 MAIN_BOOK.bid_levels_.length ∧
    (MAIN_BOOK.get_snapshot 1 STALE_OUTPUT []).2.length =
      min 1 MAIN_BOOK.ask_levels_.length ∧
    (MAIN_BOOK.get_snapshot 1 STALE_OUTPUT []).1.Pairwise
      (fun a b => dkey b.price < dkey a.price) ∧
    (MAIN_BOOK.get_snapshot 1 STALE_OUTPUT []).2.Pairwise
      (fun a b => dkey a.price < dkey b.price) ∧
    (∀ l ∈ (MAIN_BOOK.get_snapshot 1 STALE_OUTPUT []).1,
      MAIN_BOOK.levelAt true l.price = some l) ∧
    (∀ l ∈ (MAIN_BOOK.get_snapshot 1 STALE_OUTPUT []).2,
      MAIN_BOOK.levelAt false l.price = some l) ∧
    (∀ p l, MAIN_BOOK.levelAt true p = some l →
      l ∉ (MAIN_BOOK.get_snapshot 1 STALE_OUTPUT []).1 →
      ∀ a ∈ (MAIN_BOOK.get_snapshot 1 STALE_OUTPUT []).1, dkey l.price < dkey a.price) ∧
    (∀ p l, MAIN_BOOK.levelAt false p = some l →
      l ∉ (MAIN_BOOK.get_snapshot 1 STALE_OUTPUT []).2 →
      ∀ a ∈ (MAIN_BOOK.get_snapshot 1 STALE_OUTPUT []).2, dkey a.price < dkey l.price)) :=
  ⟨by decide, by decide,
    get_snapshot_best_levels MAIN_OPS MAIN_BOOK (by decide) 1 STALE_OUTPUT []⟩

end MarketDataSystem
